import Mathlib

/-!
Verification of the sequence-alignment engine `lazy_align` from
`prism/util/alignment.py`: a lazy (best-first, Dijkstra-style) global
alignment of two sequences under caller-supplied cost functions.

The Python source is embedded shallowly:
* machine floats become exact rationals; the `np.infty` sentinel becomes
  `⊤` in `WithTop ℚ`;
* the numpy tables `D` and `BT` become functions `ℕ × ℕ → _` updated
  pointwise;
* the binary heap of `heapq` becomes a list with an extract-min
  operation; entries are kept as `(cost, x, y)` and the extraction key
  negates the coordinates, mirroring the source's negated pushes
  `(nc, -x, -y)` under lexicographic tuple comparison (ties prefer cells
  closer to the terminal corner);
* the unbounded `while` loop takes explicit fuel, and fallible steps
  return `Except`: exhausted fuel, popping an empty heap (an
  `IndexError` in Python), and out-of-bounds sequence indexing (also an
  `IndexError`) are the possible failures.
-/

namespace LazyAlign

/-- Cost values: rationals extended with the `np.infty` sentinel. -/
abbrev Cost : Type := WithTop ℚ

/-- The state of one `lazy_align` call: the cost table `D`, the
backtracking table `BT`, and the frontier heap. -/
structure St where
  D : ℕ × ℕ → Cost
  BT : ℕ × ℕ → ℕ × ℕ
  heap : List (Cost × ℕ × ℕ)

/-- Initial state: `D` is `∞` everywhere except `D[0,0] = 0`, `BT` is
all zeros (numpy `zeros`), and the heap holds the single entry
`(0, 0, 0)`. -/
def initSt : St where
  D := fun v => if v = (0, 0) then 0 else ⊤
  BT := fun _ => (0, 0)
  heap := [(0, 0, 0)]

/-- Heap ordering of entries `(c, x, y)`: the source stores `(c, -x, -y)`
and relies on lexicographic tuple comparison, so lower cost wins and,
among equal costs, the cell closer to the terminal corner wins. -/
def keyLe (e f : Cost × ℕ × ℕ) : Prop :=
  e.1 < f.1 ∨ (e.1 = f.1 ∧ (f.2.1 < e.2.1 ∨ (e.2.1 = f.2.1 ∧ f.2.2 ≤ e.2.2)))

instance (e f : Cost × ℕ × ℕ) : Decidable (keyLe e f) := by
  unfold keyLe; infer_instance

/-- Extract a minimal entry (w.r.t. `keyLe`) from the heap, returning it
together with the remaining entries, or `none` on an empty heap.  This
is the specification of `heapq.heappop` under the source's key
encoding. -/
def popMin : List (Cost × ℕ × ℕ) → Option ((Cost × ℕ × ℕ) × List (Cost × ℕ × ℕ))
  | [] => none
  | e :: es =>
    match popMin es with
    | none => some (e, [])
    | some (m, rest) => if keyLe e m then some (e, es) else some (m, e :: rest)

variable {α : Type}

/-- One relaxation attempt along the edge from the popped cell
`(cx, cy)` to the neighbor `(x, y)` with edge cost `c` (`⊤` when the
corresponding element access would be out of bounds): the body of the
search's `for` loop, including the source's bounds check and the lazy
push `heappush(heap, (nc, -x, -y))`. -/
def relax1 (n m : ℕ) (s : St) (cx cy : ℕ) (c : Cost) (x y : ℕ) : St :=
  if x > n ∨ y > m then s
  else
    let nc := c + s.D (cx, cy)
    if nc < s.D (x, y) then
      { D := fun p => if p = (x, y) then nc else s.D p
        BT := fun p => if p = (x, y) then (cx, cy) else s.BT p
        heap := (nc, x, y) :: s.heap }
    else s

/-- Expand the popped cell `(cx, cy)`: compute the three candidate edge
costs (skip in `a`, align, skip in `b`, with `∞` when the guard
`cx < len(a)` resp. `cy < len(b)` fails) and relax the three neighbors
in source order `(cx+1, cy), (cx+1, cy+1), (cx, cy+1)`. -/
def expandCell (a b : List α) (calign : α → α → ℚ) (cskip : α → ℚ)
    (s : St) (cx cy : ℕ) : St :=
  let c1 : Cost := match a[cx]? with | some u => ↑(cskip u) | none => ⊤
  let c2 : Cost := match a[cx]?, b[cy]? with
    | some u, some v => ↑(calign u v)
    | _, _ => ⊤
  let c3 : Cost := match b[cy]? with | some v => ↑(cskip v) | none => ⊤
  relax1 a.length b.length
    (relax1 a.length b.length
      (relax1 a.length b.length s cx cy c1 (cx + 1) cy)
      cx cy c2 (cx + 1) (cy + 1))
    cx cy c3 cx (cy + 1)

/-- Failure modes of the embedded computation. -/
inductive Err : Type
  | fuel
  | emptyHeap
  | oob
deriving DecidableEq

/-- The best-first search loop: pop a minimal heap entry, expand the
popped cell, and stop once that cell is the terminal
`(len a, len b)`.  `fuel` bounds the number of iterations; an empty heap
is the `heappop` `IndexError`. -/
def searchLoop (a b : List α) (calign : α → α → ℚ) (cskip : α → ℚ) :
    ℕ → St → Except Err St
  | 0, _ => .error .fuel
  | fuel + 1, s =>
    match popMin s.heap with
    | none => .error .emptyHeap
    | some ((_, x, y), rest) =>
      let s' := expandCell a b calign cskip { s with heap := rest } x y
      if (x, y) = (a.length, b.length) then .ok s'
      else searchLoop a b calign cskip fuel s'

/-- One backtracking entry: from cell `(x, y)` with predecessor
`(nx, ny)`, the source emits
`(a[nx] if nx < x else None, b[ny] if ny < y else None)`; an index past
the end of a sequence under a true guard is an out-of-bounds access. -/
def btEntry (a b : List α) (x y nx ny : ℕ) : Except Err (Option α × Option α) :=
  match (if nx < x then (a[nx]?).map some else some none),
        (if ny < y then (b[ny]?).map some else some none) with
  | some l, some r => .ok (l, r)
  | _, _ => .error .oob

/-- The backtracking walk from `(x, y)` towards `(0, 0)`, appending one
entry per step exactly as the source's second `while` loop does (the
caller reverses the accumulated list). -/
def backtrack (a b : List α) (BT : ℕ × ℕ → ℕ × ℕ) :
    ℕ → ℕ → ℕ → List (Option α × Option α) →
    Except Err (List (Option α × Option α))
  | fuel, x, y, acc =>
    if (x, y) = (0, 0) then .ok acc
    else
      match fuel with
      | 0 => .error .fuel
      | fuel + 1 =>
        let p := BT (x, y)
        match btEntry a b x y p.1 p.2 with
        | .error e => .error e
        | .ok entry => backtrack a b BT fuel p.1 p.2 (acc ++ [entry])

/-- The whole `lazy_align` call with `return_cost = True`: run the
search from the initial state, then backtrack from the terminal cell and
reverse; the returned cost is `D[-1, -1]`.  (With `return_cost = False`
the source returns just the second component.)  The backtracking walk is
given `len a + len b` fuel, which the termination theorem shows is
always enough. -/
def lazyAlign (a b : List α) (calign : α → α → ℚ) (cskip : α → ℚ) (fuel : ℕ) :
    Except Err (Cost × List (Option α × Option α)) :=
  match searchLoop a b calign cskip fuel initSt with
  | .error e => .error e
  | .ok s =>
    match backtrack a b s.BT (a.length + b.length) a.length b.length [] with
    | .error e => .error e
    | .ok al => .ok (s.D (a.length, b.length), al.reverse)

/-! ## Specification-side notions: valid interleavings and their costs -/

/-- The cost the caller's functions assign to one alignment entry:
`calign` for a paired entry, `cskip` for a singleton. -/
def entryCost (calign : α → α → ℚ) (cskip : α → ℚ) : Option α × Option α → ℚ
  | (some u, some v) => calign u v
  | (some u, none) => cskip u
  | (none, some v) => cskip v
  | (none, none) => 0

/-- Total cost of an alignment, re-applying the cost functions entry by
entry. -/
def alignCost (calign : α → α → ℚ) (cskip : α → ℚ)
    (l : List (Option α × Option α)) : ℚ :=
  (l.map (entryCost calign cskip)).sum

/-- A valid interleaving of `a` and `b`: the non-`none` left components
concatenate to `a` in order, the right ones to `b`, and no entry is
`(none, none)`. -/
def ValidAlignment (a b : List α) (l : List (Option α × Option α)) : Prop :=
  l.filterMap Prod.fst = a ∧ l.filterMap Prod.snd = b ∧ (none, none) ∉ l

/-- `Steps a b i j l x y`: the entry list `l` is a valid interleaving
path through the alignment grid from cell `(i, j)` to cell `(x, y)`,
consuming `a` and `b` in order. -/
inductive Steps (a b : List α) : ℕ → ℕ → List (Option α × Option α) → ℕ → ℕ → Prop
  | nil (i j : ℕ) : Steps a b i j [] i j
  | skipA {i j x y : ℕ} {l} (h : i < a.length) :
      Steps a b (i + 1) j l x y → Steps a b i j ((some a[i], none) :: l) x y
  | alignS {i j x y : ℕ} {l} (h1 : i < a.length) (h2 : j < b.length) :
      Steps a b (i + 1) (j + 1) l x y →
      Steps a b i j ((some a[i], some b[j]) :: l) x y
  | skipB {i j x y : ℕ} {l} (h : j < b.length) :
      Steps a b i (j + 1) l x y → Steps a b i j ((none, some b[j]) :: l) x y

/-- One grid edge together with the alignment entry it emits. -/
inductive Edge (a b : List α) : ℕ × ℕ → ℕ × ℕ → Option α × Option α → Prop
  | skipA {i j : ℕ} (h : i < a.length) : Edge a b (i, j) (i + 1, j) (some a[i], none)
  | alignE {i j : ℕ} (h1 : i < a.length) (h2 : j < b.length) :
      Edge a b (i, j) (i + 1, j + 1) (some a[i], some b[j])
  | skipB {i j : ℕ} (h : j < b.length) : Edge a b (i, j) (i, j + 1) (none, some b[j])

/-- Least path cost: `q` is the minimum total cost over all interleaving
paths from `(0, 0)` to the cell `v`. -/
def Dist (a b : List α) (calign : α → α → ℚ) (cskip : α → ℚ)
    (v : ℕ × ℕ) (q : ℚ) : Prop :=
  IsLeast {c : ℚ | ∃ l, Steps a b 0 0 l v.1 v.2 ∧ alignCost calign cskip l = c} q

/-! ## Heap order and `popMin` -/

theorem keyLe_refl (e : Cost × ℕ × ℕ) : keyLe e e :=
  Or.inr ⟨rfl, Or.inr ⟨rfl, le_refl _⟩⟩

theorem keyLe_trans {e f g : Cost × ℕ × ℕ} (h1 : keyLe e f) (h2 : keyLe f g) :
    keyLe e g := by
  rcases h1 with h1 | ⟨q1, h1⟩
  · rcases h2 with h2 | ⟨q2, h2⟩
    · exact Or.inl (h1.trans h2)
    · exact Or.inl (q2 ▸ h1)
  · rcases h2 with h2 | ⟨q2, h2⟩
    · exact Or.inl (q1 ▸ h2)
    · refine Or.inr ⟨q1.trans q2, ?_⟩
      rcases h1 with h1 | ⟨x1, h1⟩
      · rcases h2 with h2 | ⟨x2, h2⟩
        · exact Or.inl (h2.trans h1)
        · exact Or.inl (by omega)
      · rcases h2 with h2 | ⟨x2, h2⟩
        · exact Or.inl (by omega)
        · exact Or.inr ⟨by omega, h2.trans h1⟩

theorem keyLe_total (e f : Cost × ℕ × ℕ) : keyLe e f ∨ keyLe f e := by
  rcases lt_trichotomy e.1 f.1 with h | h | h
  · exact Or.inl (Or.inl h)
  · rcases lt_trichotomy e.2.1 f.2.1 with h' | h' | h'
    · exact Or.inr (Or.inr ⟨h.symm, Or.inl h'⟩)
    · rcases le_total e.2.2 f.2.2 with h'' | h''
      · exact Or.inr (Or.inr ⟨h.symm, Or.inr ⟨h'.symm, h''⟩⟩)
      · exact Or.inl (Or.inr ⟨h, Or.inr ⟨h', h''⟩⟩)
    · exact Or.inl (Or.inr ⟨h, Or.inl h'⟩)
  · exact Or.inr (Or.inl h)

theorem keyLe_cost {e f : Cost × ℕ × ℕ} (h : keyLe e f) : e.1 ≤ f.1 := by
  rcases h with h | ⟨h, _⟩
  · exact h.le
  · exact h.le

theorem popMin_eq_none {l : List (Cost × ℕ × ℕ)} : popMin l = none ↔ l = [] := by
  cases l with
  | nil => simp [popMin]
  | cons e es =>
    constructor
    · intro h
      rw [popMin] at h
      rcases h' : popMin es with - | p
      · rw [h'] at h; simp at h
      · rw [h'] at h
        dsimp at h
        split at h <;> simp at h
    · intro h; exact absurd h (by simp)

theorem popMin_perm {l : List (Cost × ℕ × ℕ)} {m rest}
    (h : popMin l = some (m, rest)) : l.Perm (m :: rest) := by
  induction l generalizing m rest with
  | nil => simp [popMin] at h
  | cons e es ih =>
    rw [popMin] at h
    rcases h' : popMin es with _ | ⟨m', rest'⟩
    · rw [h'] at h
      simp only [Option.some.injEq, Prod.mk.injEq] at h
      obtain ⟨rfl, rfl⟩ := h
      rw [popMin_eq_none.mp h']
    · rw [h'] at h
      dsimp at h
      split at h
      · simp only [Option.some.injEq, Prod.mk.injEq] at h
        obtain ⟨rfl, rfl⟩ := h
        exact List.Perm.refl _
      · simp only [Option.some.injEq, Prod.mk.injEq] at h
        obtain ⟨rfl, rfl⟩ := h
        exact ((ih h').cons e).trans (List.Perm.swap m' e rest')

theorem popMin_mem {l : List (Cost × ℕ × ℕ)} {m rest}
    (h : popMin l = some (m, rest)) : m ∈ l :=
  (popMin_perm h).mem_iff.mpr (List.mem_cons_self _ _)

theorem popMin_min {l : List (Cost × ℕ × ℕ)} {m rest}
    (h : popMin l = some (m, rest)) : ∀ f ∈ l, keyLe m f := by
  induction l generalizing m rest with
  | nil => simp [popMin] at h
  | cons e es ih =>
    rw [popMin] at h
    rcases h' : popMin es with _ | ⟨m', rest'⟩
    · rw [h'] at h
      simp only [Option.some.injEq, Prod.mk.injEq] at h
      obtain ⟨rfl, rfl⟩ := h
      intro f hf
      rcases List.mem_cons.mp hf with rfl | hf
      · exact keyLe_refl _
      · simp [popMin_eq_none.mp h'] at hf
    · rw [h'] at h
      dsimp at h
      split at h <;> rename_i hle <;>
        simp only [Option.some.injEq, Prod.mk.injEq] at h
      · obtain ⟨rfl, rfl⟩ := h
        intro f hf
        rcases List.mem_cons.mp hf with rfl | hf
        · exact keyLe_refl _
        · exact keyLe_trans hle (ih h' _ hf)
      · obtain ⟨rfl, rfl⟩ := h
        intro f hf
        rcases List.mem_cons.mp hf with rfl | hf
        · exact (keyLe_total f m').resolve_left hle
        · exact ih h' _ hf

/-- Membership in the remainder after popping: any heap entry other than
the popped one is still present. -/
theorem popMin_rest_mem {l : List (Cost × ℕ × ℕ)} {m rest}
    (h : popMin l = some (m, rest)) {f} (hf : f ∈ l) (hne : f ≠ m) : f ∈ rest := by
  rcases List.mem_cons.mp ((popMin_perm h).mem_iff.mp hf) with rfl | hf'
  · exact absurd rfl hne
  · exact hf'

theorem popMin_rest_subset {l : List (Cost × ℕ × ℕ)} {m rest}
    (h : popMin l = some (m, rest)) {f} (hf : f ∈ rest) : f ∈ l :=
  (popMin_perm h).mem_iff.mpr (List.mem_cons_of_mem _ hf)

/-! ## Basic facts about `Steps`, `Edge` and costs -/

theorem alignCost_nil (calign : α → α → ℚ) (cskip : α → ℚ) :
    alignCost calign cskip [] = 0 := rfl

theorem alignCost_cons (calign : α → α → ℚ) (cskip : α → ℚ) (e l) :
    alignCost calign cskip (e :: l) =
      entryCost calign cskip e + alignCost calign cskip l := by
  simp [alignCost]

theorem alignCost_append (calign : α → α → ℚ) (cskip : α → ℚ) (l l') :
    alignCost calign cskip (l ++ l') =
      alignCost calign cskip l + alignCost calign cskip l' := by
  simp [alignCost]

/-- With nonnegative cost functions every entry cost is nonnegative. -/
theorem entryCost_nonneg {calign : α → α → ℚ} {cskip : α → ℚ}
    (hca : ∀ x y, 0 ≤ calign x y) (hcs : ∀ x, 0 ≤ cskip x) (e) :
    0 ≤ entryCost calign cskip e := by
  obtain ⟨(u | u), (v | v)⟩ := e
  · exact le_refl 0
  · exact hcs v
  · exact hcs u
  · exact hca u v

/-- With nonnegative cost functions every alignment cost is nonnegative. -/
theorem alignCost_nonneg {calign : α → α → ℚ} {cskip : α → ℚ}
    (hca : ∀ x y, 0 ≤ calign x y) (hcs : ∀ x, 0 ≤ cskip x) (l) :
    0 ≤ alignCost calign cskip l := by
  induction l with
  | nil => exact le_refl 0
  | cons e l ih =>
    rw [alignCost_cons]
    exact add_nonneg (entryCost_nonneg hca hcs e) ih

theorem Steps.le_start {a b : List α} {i j l x y} (h : Steps a b i j l x y) :
    i ≤ x ∧ j ≤ y := by
  induction h with
  | nil => exact ⟨le_refl _, le_refl _⟩
  | skipA _ _ ih => exact ⟨(Nat.le_succ _).trans ih.1, ih.2⟩
  | alignS _ _ _ ih => exact ⟨(Nat.le_succ _).trans ih.1, (Nat.le_succ _).trans ih.2⟩
  | skipB _ _ ih => exact ⟨ih.1, (Nat.le_succ _).trans ih.2⟩

theorem Steps.bounded {a b : List α} {i j l x y} (h : Steps a b i j l x y)
    (hx : x ≤ a.length) (hy : y ≤ b.length) : i ≤ a.length ∧ j ≤ b.length :=
  ⟨h.le_start.1.trans hx, h.le_start.2.trans hy⟩

theorem Steps.endpoint_bounds {a b : List α} {i j l x y} (h : Steps a b i j l x y)
    (hi : i ≤ a.length) (hj : j ≤ b.length) : x ≤ a.length ∧ y ≤ b.length := by
  induction h with
  | nil => exact ⟨hi, hj⟩
  | skipA h _ ih => exact ih h hj
  | alignS h1 h2 _ ih => exact ih h1 h2
  | skipB h _ ih => exact ih hi h

theorem Edge.toSteps {a b : List α} {v w : ℕ × ℕ} {e} (h : Edge a b v w e) :
    Steps a b v.1 v.2 [e] w.1 w.2 := by
  cases h with
  | skipA h => exact Steps.skipA h (Steps.nil _ _)
  | alignE h1 h2 => exact Steps.alignS h1 h2 (Steps.nil _ _)
  | skipB h => exact Steps.skipB h (Steps.nil _ _)

theorem Steps.append {a b : List α} {i j l x y l' x' y'}
    (h : Steps a b i j l x y) (h' : Steps a b x y l' x' y') :
    Steps a b i j (l ++ l') x' y' := by
  induction h with
  | nil => exact h'
  | skipA hg _ ih => exact Steps.skipA hg (ih h')
  | alignS hg1 hg2 _ ih => exact Steps.alignS hg1 hg2 (ih h')
  | skipB hg _ ih => exact Steps.skipB hg (ih h')

theorem Steps.push_right {a b : List α} {i j l x y e} {w : ℕ × ℕ}
    (h : Steps a b i j l x y) (he : Edge a b (x, y) w e) :
    Steps a b i j (l ++ [e]) w.1 w.2 :=
  h.append he.toSteps

/-- A nonempty path decomposes into its last edge. -/
theorem Steps.concat_inv {a b : List α} {e} : ∀ {l} {i j x y : ℕ},
    Steps a b i j (l ++ [e]) x y →
    ∃ p q, Steps a b i j l p q ∧ Edge a b (p, q) (x, y) e := by
  intro l
  induction l with
  | nil =>
    intro i j x y h
    rw [List.nil_append] at h
    cases h with
    | skipA hg htail =>
      cases htail
      exact ⟨i, j, Steps.nil _ _, Edge.skipA hg⟩
    | alignS hg1 hg2 htail =>
      cases htail
      exact ⟨i, j, Steps.nil _ _, Edge.alignE hg1 hg2⟩
    | skipB hg htail =>
      cases htail
      exact ⟨i, j, Steps.nil _ _, Edge.skipB hg⟩
  | cons e0 l ih =>
    intro i j x y h
    cases h with
    | skipA hg htail =>
      obtain ⟨p, q, hs, he⟩ := ih htail
      exact ⟨p, q, Steps.skipA hg hs, he⟩
    | alignS hg1 hg2 htail =>
      obtain ⟨p, q, hs, he⟩ := ih htail
      exact ⟨p, q, Steps.alignS hg1 hg2 hs, he⟩
    | skipB hg htail =>
      obtain ⟨p, q, hs, he⟩ := ih htail
      exact ⟨p, q, Steps.skipB hg hs, he⟩

theorem Steps.self_nil {a b : List α} {i j l} (h : Steps a b i j l i j) :
    l = [] := by
  cases h with
  | nil => rfl
  | skipA hg htail => exact absurd htail.le_start.1 (by omega)
  | alignS hg1 hg2 htail => exact absurd htail.le_start.1 (by omega)
  | skipB hg htail => exact absurd htail.le_start.2 (by omega)

/-- Forward direction of the grid/interleaving correspondence. -/
theorem Steps.toValid {a b : List α} {i j l x y} (h : Steps a b i j l x y)
    (hx : x = a.length) (hy : y = b.length) :
    l.filterMap Prod.fst = a.drop i ∧ l.filterMap Prod.snd = b.drop j ∧
      (none, none) ∉ l := by
  induction h with
  | nil =>
    subst hx; subst hy
    simp
  | skipA hg _ ih =>
    obtain ⟨h1, h2, h3⟩ := ih hx hy
    refine ⟨?_, ?_, ?_⟩
    · rw [List.filterMap_cons]
      dsimp only
      rw [h1, ← List.drop_eq_getElem_cons hg]
    · rw [List.filterMap_cons]
      dsimp only
      exact h2
    · simp only [List.mem_cons, not_or]
      exact ⟨by simp, h3⟩
  | alignS hg1 hg2 _ ih =>
    obtain ⟨h1, h2, h3⟩ := ih hx hy
    refine ⟨?_, ?_, ?_⟩
    · rw [List.filterMap_cons]
      dsimp only
      rw [h1, ← List.drop_eq_getElem_cons hg1]
    · rw [List.filterMap_cons]
      dsimp only
      rw [h2, ← List.drop_eq_getElem_cons hg2]
    · simp only [List.mem_cons, not_or]
      exact ⟨by simp, h3⟩
  | skipB hg _ ih =>
    obtain ⟨h1, h2, h3⟩ := ih hx hy
    refine ⟨?_, ?_, ?_⟩
    · rw [List.filterMap_cons]
      dsimp only
      exact h1
    · rw [List.filterMap_cons]
      dsimp only
      rw [h2, ← List.drop_eq_getElem_cons hg]
    · simp only [List.mem_cons, not_or]
      exact ⟨by simp, h3⟩

/-- Backward direction of the grid/interleaving correspondence. -/
theorem steps_of_valid {a b : List α} : ∀ {l} {i j : ℕ}, i ≤ a.length →
    j ≤ b.length → l.filterMap Prod.fst = a.drop i →
    l.filterMap Prod.snd = b.drop j → (none, none) ∉ l →
    Steps a b i j l a.length b.length := by
  intro l
  induction l with
  | nil =>
    intro i j hi hj hf hs _
    have hi' : i = a.length := by
      have := congrArg List.length hf
      simp at this
      omega
    have hj' : j = b.length := by
      have := congrArg List.length hs
      simp at this
      omega
    subst hi'; subst hj'
    exact Steps.nil _ _
  | cons e l ih =>
    intro i j hi hj hf hs hn
    have hne : e ≠ (none, none) := fun h => hn (h ▸ List.mem_cons_self _ _)
    have hn' : (none, none) ∉ l := fun h => hn (List.mem_cons_of_mem _ h)
    obtain ⟨eu, ev⟩ := e
    rw [List.filterMap_cons] at hf hs
    match eu, ev with
    | some u, none =>
      dsimp only at hf hs
      have hil : i < a.length := by
        by_contra hc
        rw [List.drop_eq_nil_of_le (by omega)] at hf
        exact absurd hf (by simp)
      rw [List.drop_eq_getElem_cons hil] at hf
      obtain ⟨rfl, hf'⟩ : u = a[i] ∧ l.filterMap Prod.fst = a.drop (i + 1) := by
        have := List.cons.injEq u (l.filterMap Prod.fst) a[i] (a.drop (i + 1)) ▸ hf
        exact ⟨this.1, this.2⟩
      exact Steps.skipA hil (ih hil hj hf' hs hn')
    | none, some v =>
      dsimp only at hf hs
      have hjl : j < b.length := by
        by_contra hc
        rw [List.drop_eq_nil_of_le (by omega)] at hs
        exact absurd hs (by simp)
      rw [List.drop_eq_getElem_cons hjl] at hs
      obtain ⟨rfl, hs'⟩ : v = b[j] ∧ l.filterMap Prod.snd = b.drop (j + 1) := by
        have := List.cons.injEq v (l.filterMap Prod.snd) b[j] (b.drop (j + 1)) ▸ hs
        exact ⟨this.1, this.2⟩
      exact Steps.skipB hjl (ih hi hjl hf hs' hn')
    | some u, some v =>
      dsimp only at hf hs
      have hil : i < a.length := by
        by_contra hc
        rw [List.drop_eq_nil_of_le (by omega)] at hf
        exact absurd hf (by simp)
      have hjl : j < b.length := by
        by_contra hc
        rw [List.drop_eq_nil_of_le (by omega)] at hs
        exact absurd hs (by simp)
      rw [List.drop_eq_getElem_cons hil] at hf
      rw [List.drop_eq_getElem_cons hjl] at hs
      obtain ⟨rfl, hf'⟩ : u = a[i] ∧ l.filterMap Prod.fst = a.drop (i + 1) := by
        have := List.cons.injEq u (l.filterMap Prod.fst) a[i] (a.drop (i + 1)) ▸ hf
        exact ⟨this.1, this.2⟩
      obtain ⟨rfl, hs'⟩ : v = b[j] ∧ l.filterMap Prod.snd = b.drop (j + 1) := by
        have := List.cons.injEq v (l.filterMap Prod.snd) b[j] (b.drop (j + 1)) ▸ hs
        exact ⟨this.1, this.2⟩
      exact Steps.alignS hil hjl (ih hil hjl hf' hs' hn')
    | none, none => exact absurd rfl hne

/-- A list is a valid interleaving of `a` and `b` iff it is a grid path
from `(0,0)` to the terminal corner. -/
theorem validAlignment_iff_steps {a b : List α} {l} :
    ValidAlignment a b l ↔ Steps a b 0 0 l a.length b.length := by
  constructor
  · rintro ⟨h1, h2, h3⟩
    exact steps_of_valid (Nat.zero_le _) (Nat.zero_le _) (by simpa using h1)
      (by simpa using h2) h3
  · intro h
    obtain ⟨h1, h2, h3⟩ := h.toValid rfl rfl
    exact ⟨by simpa using h1, by simpa using h2, h3⟩

/-! ## Least path costs -/

variable {calign : α → α → ℚ} {cskip : α → ℚ}

theorem dist_start (a b : List α) (calign : α → α → ℚ) (cskip : α → ℚ) :
    Dist a b calign cskip (0, 0) 0 := by
  constructor
  · exact ⟨[], Steps.nil _ _, rfl⟩
  · rintro c ⟨l, hs, rfl⟩
    rw [Steps.self_nil hs]
    exact le_of_eq (alignCost_nil calign cskip).symm

theorem Dist.lb {a b : List α} {v q} (h : Dist a b calign cskip v q) {l}
    (hs : Steps a b 0 0 l v.1 v.2) : q ≤ alignCost calign cskip l :=
  h.2 ⟨l, hs, rfl⟩

theorem Dist.unique {a b : List α} {v q q'} (h : Dist a b calign cskip v q)
    (h' : Dist a b calign cskip v q') : q = q' :=
  le_antisymm (h.2 h'.1) (h'.2 h.1)

theorem Dist.le_of_edge {a b : List α} {v w : ℕ × ℕ} {e q qw}
    (hv : Dist a b calign cskip v q) (he : Edge a b v w e)
    (hw : Dist a b calign cskip w qw) :
    qw ≤ q + entryCost calign cskip e := by
  obtain ⟨⟨l, hs, hc⟩, _⟩ := hv
  refine hw.2 ⟨l ++ [e], hs.push_right he, ?_⟩
  rw [alignCost_append, alignCost_cons, alignCost_nil, hc, add_zero]

/-- Every in-grid cell has a least path cost. -/
theorem dist_exists (a b : List α) (calign : α → α → ℚ) (cskip : α → ℚ) :
    ∀ x y : ℕ, x ≤ a.length → y ≤ b.length →
    ∃ q, Dist a b calign cskip (x, y) q := by
  have main : ∀ N x y : ℕ, x + y ≤ N → x ≤ a.length → y ≤ b.length →
      ∃ q, Dist a b calign cskip (x, y) q := by
    intro N
    induction N with
    | zero =>
      intro x y hN _ _
      obtain ⟨rfl, rfl⟩ : x = 0 ∧ y = 0 := by omega
      exact ⟨0, dist_start a b calign cskip⟩
    | succ N ih =>
      intro x y hN hx hy
      match x, y with
      | 0, 0 => exact ⟨0, dist_start a b calign cskip⟩
      | x + 1, 0 =>
        have hx' : x < a.length := by omega
        obtain ⟨q, hq⟩ := ih x 0 (by omega) (by omega) (by omega)
        refine ⟨q + cskip a[x], ?_, ?_⟩
        · obtain ⟨⟨l, hs, hc⟩, _⟩ := hq
          refine ⟨l ++ [(some a[x], none)], hs.push_right (Edge.skipA hx'), ?_⟩
          rw [alignCost_append, alignCost_cons, alignCost_nil, hc, add_zero]
          rfl
        · rintro c ⟨l, hs, rfl⟩
          rcases List.eq_nil_or_concat l with rfl | ⟨l', e, rfl⟩
          · cases hs
          · rw [List.concat_eq_append] at hs ⊢
            obtain ⟨p, r, hs', he⟩ := Steps.concat_inv hs
            cases he with
            | skipA hg =>
              have hlb := hq.2 ⟨l', hs', rfl⟩
              rw [alignCost_append, alignCost_cons, alignCost_nil, add_zero]
              have : entryCost calign cskip (some a[x], none) = cskip a[x] := rfl
              rw [this]
              linarith
      | 0, y + 1 =>
        have hy' : y < b.length := by omega
        obtain ⟨q, hq⟩ := ih 0 y (by omega) (by omega) (by omega)
        refine ⟨q + cskip b[y], ?_, ?_⟩
        · obtain ⟨⟨l, hs, hc⟩, _⟩ := hq
          refine ⟨l ++ [(none, some b[y])], hs.push_right (Edge.skipB hy'), ?_⟩
          rw [alignCost_append, alignCost_cons, alignCost_nil, hc, add_zero]
          rfl
        · rintro c ⟨l, hs, rfl⟩
          rcases List.eq_nil_or_concat l with rfl | ⟨l', e, rfl⟩
          · cases hs
          · rw [List.concat_eq_append] at hs ⊢
            obtain ⟨p, r, hs', he⟩ := Steps.concat_inv hs
            cases he with
            | skipB hg =>
              have hlb := hq.2 ⟨l', hs', rfl⟩
              rw [alignCost_append, alignCost_cons, alignCost_nil, add_zero]
              have : entryCost calign cskip (none, some b[y]) = cskip b[y] := rfl
              rw [this]
              linarith
      | x + 1, y + 1 =>
        have hx' : x < a.length := by omega
        have hy' : y < b.length := by omega
        obtain ⟨q1, hq1⟩ := ih x (y + 1) (by omega) (by omega) (by omega)
        obtain ⟨q2, hq2⟩ := ih x y (by omega) (by omega) (by omega)
        obtain ⟨q3, hq3⟩ := ih (x + 1) y (by omega) (by omega) (by omega)
        refine ⟨min (q1 + cskip a[x])
          (min (q2 + calign a[x] b[y]) (q3 + cskip b[y])), ?_, ?_⟩
        · rcases min_choice (q1 + cskip a[x])
            (min (q2 + calign a[x] b[y]) (q3 + cskip b[y])) with hmin | hmin <;>
            rw [hmin]
          · obtain ⟨⟨l, hs, hc⟩, _⟩ := hq1
            refine ⟨l ++ [(some a[x], none)], hs.push_right (Edge.skipA hx'), ?_⟩
            rw [alignCost_append, alignCost_cons, alignCost_nil, hc, add_zero]
            rfl
          · rcases min_choice (q2 + calign a[x] b[y]) (q3 + cskip b[y]) with
              hmin2 | hmin2 <;> rw [hmin2]
            · obtain ⟨⟨l, hs, hc⟩, _⟩ := hq2
              refine ⟨l ++ [(some a[x], some b[y])],
                hs.push_right (Edge.alignE hx' hy'), ?_⟩
              rw [alignCost_append, alignCost_cons, alignCost_nil, hc, add_zero]
              rfl
            · obtain ⟨⟨l, hs, hc⟩, _⟩ := hq3
              refine ⟨l ++ [(none, some b[y])], hs.push_right (Edge.skipB hy'), ?_⟩
              rw [alignCost_append, alignCost_cons, alignCost_nil, hc, add_zero]
              rfl
        · rintro c ⟨l, hs, rfl⟩
          rcases List.eq_nil_or_concat l with rfl | ⟨l', e, rfl⟩
          · cases hs
          · rw [List.concat_eq_append] at hs ⊢
            obtain ⟨p, r, hs', he⟩ := Steps.concat_inv hs
            cases he with
            | skipA hg =>
              have hlb := hq1.2 ⟨l', hs', rfl⟩
              rw [alignCost_append, alignCost_cons, alignCost_nil, add_zero]
              have h1 : entryCost calign cskip (some a[x], none) = cskip a[x] := rfl
              rw [h1]
              have h2 : min (q1 + cskip a[x])
                  (min (q2 + calign a[x] b[y]) (q3 + cskip b[y])) ≤
                  q1 + cskip a[x] := min_le_left _ _
              linarith
            | alignE hg1 hg2 =>
              have hlb := hq2.2 ⟨l', hs', rfl⟩
              rw [alignCost_append, alignCost_cons, alignCost_nil, add_zero]
              have h1 : entryCost calign cskip (some a[x], some b[y]) =
                calign a[x] b[y] := rfl
              rw [h1]
              have h2 : min (q1 + cskip a[x])
                  (min (q2 + calign a[x] b[y]) (q3 + cskip b[y])) ≤
                  q2 + calign a[x] b[y] :=
                (min_le_right _ _).trans (min_le_left _ _)
              linarith
            | skipB hg =>
              have hlb := hq3.2 ⟨l', hs', rfl⟩
              rw [alignCost_append, alignCost_cons, alignCost_nil, add_zero]
              have h1 : entryCost calign cskip (none, some b[y]) = cskip b[y] := rfl
              rw [h1]
              have h2 : min (q1 + cskip a[x])
                  (min (q2 + calign a[x] b[y]) (q3 + cskip b[y])) ≤
                  q3 + cskip b[y] :=
                (min_le_right _ _).trans (min_le_right _ _)
              linarith
  intro x y hx hy
  exact main (x + y) x y (le_refl _) hx hy

/-! ## Analysis of one relaxation and one cell expansion -/

theorem Edge.ne_self {a b : List α} {v w : ℕ × ℕ} {e} (h : Edge a b v w e) :
    w ≠ v := by
  cases h <;> simp

theorem Edge.target_ne_zero {a b : List α} {v w : ℕ × ℕ} {e}
    (h : Edge a b v w e) : w ≠ (0, 0) := by
  cases h <;> simp

theorem Edge.sum_lt {a b : List α} {v w : ℕ × ℕ} {e} (h : Edge a b v w e) :
    v.1 + v.2 < w.1 + w.2 := by
  cases h <;> simp <;> omega

theorem Edge.src_le {a b : List α} {v w : ℕ × ℕ} {e} (h : Edge a b v w e) :
    v.1 ≤ w.1 ∧ v.2 ≤ w.2 := by
  cases h <;> simp <;> omega

theorem relax1_spec (n m : ℕ) (t : St) (cx cy : ℕ) (c : Cost) (x y : ℕ) :
    (relax1 n m t cx cy c x y = t ∧
      (x ≤ n → y ≤ m → ¬(c + t.D (cx, cy) < t.D (x, y)))) ∨
    (x ≤ n ∧ y ≤ m ∧ c + t.D (cx, cy) < t.D (x, y) ∧
      relax1 n m t cx cy c x y =
        { D := fun p => if p = (x, y) then c + t.D (cx, cy) else t.D p
          BT := fun p => if p = (x, y) then (cx, cy) else t.BT p
          heap := (c + t.D (cx, cy), x, y) :: t.heap }) := by
  unfold relax1
  by_cases hb : x > n ∨ y > m
  · rw [if_pos hb]
    exact Or.inl ⟨rfl, fun hx hy _ => by rcases hb with h | h <;> omega⟩
  · rw [if_neg hb]
    push_neg at hb
    dsimp only
    by_cases hlt : c + t.D (cx, cy) < t.D (x, y)
    · rw [if_pos hlt]
      exact Or.inr ⟨by omega, by omega, hlt, rfl⟩
    · rw [if_neg hlt]
      exact Or.inl ⟨rfl, fun _ _ => hlt⟩

theorem relax1_D_le (n m : ℕ) (t : St) (cx cy : ℕ) (c : Cost) (x y : ℕ)
    (p : ℕ × ℕ) : (relax1 n m t cx cy c x y).D p ≤ t.D p := by
  rcases relax1_spec n m t cx cy c x y with ⟨he, _⟩ | ⟨_, _, hlt, he⟩ <;> rw [he]
  dsimp only
  by_cases hp : p = (x, y)
  · rw [if_pos hp, hp]
    exact hlt.le
  · rw [if_neg hp]

theorem relax1_D_other (n m : ℕ) (t : St) (cx cy : ℕ) (c : Cost) (x y : ℕ)
    {p : ℕ × ℕ} (hp : p ≠ (x, y)) :
    (relax1 n m t cx cy c x y).D p = t.D p := by
  rcases relax1_spec n m t cx cy c x y with ⟨he, _⟩ | ⟨_, _, _, he⟩ <;> rw [he]
  dsimp only
  rw [if_neg hp]

theorem relax1_BT_other (n m : ℕ) (t : St) (cx cy : ℕ) (c : Cost) (x y : ℕ)
    {p : ℕ × ℕ} (hp : p ≠ (x, y)) :
    (relax1 n m t cx cy c x y).BT p = t.BT p := by
  rcases relax1_spec n m t cx cy c x y with ⟨he, _⟩ | ⟨_, _, _, he⟩ <;> rw [he]
  dsimp only
  rw [if_neg hp]

theorem relax1_heap_super (n m : ℕ) (t : St) (cx cy : ℕ) (c : Cost) (x y : ℕ)
    {f} (hf : f ∈ t.heap) : f ∈ (relax1 n m t cx cy c x y).heap := by
  rcases relax1_spec n m t cx cy c x y with ⟨he, _⟩ | ⟨_, _, _, he⟩ <;> rw [he]
  · exact hf
  · exact List.mem_cons_of_mem _ hf

/-- The cell `w` received a successful relaxation from `(cx, cy)` while
expanding: its table entries were rewritten and a fresh heap entry
carrying its new `D`-value was pushed. -/
def Pushed (a b : List α) (calign : α → α → ℚ) (cskip : α → ℚ)
    (s t : St) (cx cy : ℕ) (w : ℕ × ℕ) : Prop :=
  ∃ e, Edge a b (cx, cy) w e ∧
    t.D w = ↑(entryCost calign cskip e) + s.D (cx, cy) ∧
    t.BT w = (cx, cy) ∧ t.D w < s.D w ∧ (t.D w, w.1, w.2) ∈ t.heap ∧
    w.1 ≤ a.length ∧ w.2 ≤ b.length

/-- Intermediate classification while expanding `(cx, cy)`: the heap
only grows, every new heap entry belongs to a freshly pushed cell, and
every cell is either untouched or freshly pushed. -/
def Mid (a b : List α) (calign : α → α → ℚ) (cskip : α → ℚ)
    (s t : St) (cx cy : ℕ) : Prop :=
  (∀ f ∈ s.heap, f ∈ t.heap) ∧
  (∀ f ∈ t.heap, f ∈ s.heap ∨
    ∃ w, Pushed a b calign cskip s t cx cy w ∧ f = (t.D w, w.1, w.2)) ∧
  (∀ w, (t.D w = s.D w ∧ t.BT w = s.BT w) ∨
    Pushed a b calign cskip s t cx cy w)

theorem Mid.refl (a b : List α) (calign : α → α → ℚ) (cskip : α → ℚ)
    (s : St) (cx cy : ℕ) : Mid a b calign cskip s s cx cy :=
  ⟨fun _ hf => hf, fun _ hf => Or.inl hf, fun _ => Or.inl ⟨rfl, rfl⟩⟩

/-- The cell being expanded is never relaxed by its own expansion. -/
theorem Mid.D_cxcy {a b : List α} {calign : α → α → ℚ} {cskip : α → ℚ}
    {s t : St} {cx cy : ℕ} (h : Mid a b calign cskip s t cx cy) :
    t.D (cx, cy) = s.D (cx, cy) ∧ t.BT (cx, cy) = s.BT (cx, cy) := by
  rcases h.2.2 (cx, cy) with h' | ⟨e, he, _⟩
  · exact h'
  · exact absurd rfl he.ne_self

theorem Mid.stepM {a b : List α} {calign : α → α → ℚ} {cskip : α → ℚ}
    {s t : St} {cx cy : ℕ} (hM : Mid a b calign cskip s t cx cy)
    {c : Cost} {x y : ℕ}
    (hec : x ≤ a.length → y ≤ b.length → ∃ e, Edge a b (cx, cy) (x, y) e ∧
      c = ↑(entryCost calign cskip e))
    (hfD : t.D (x, y) = s.D (x, y)) (hfBT : t.BT (x, y) = s.BT (x, y)) :
    Mid a b calign cskip s (relax1 a.length b.length t cx cy c x y) cx cy := by
  rcases relax1_spec a.length b.length t cx cy c x y with ⟨he, _⟩ | ⟨hx, hy, hlt, he⟩
  · rw [he]
    exact hM
  · rw [he]
    obtain ⟨e, hE, rfl⟩ := hec hx hy
    have hDc := hM.D_cxcy.1
    have hPush : Pushed a b calign cskip s
        { D := fun p => if p = (x, y) then
            ↑(entryCost calign cskip e) + t.D (cx, cy) else t.D p
          BT := fun p => if p = (x, y) then (cx, cy) else t.BT p
          heap := (↑(entryCost calign cskip e) + t.D (cx, cy), x, y) :: t.heap }
        cx cy (x, y) := by
      refine ⟨e, hE, ?_, ?_, ?_, ?_, hx, hy⟩
      · dsimp only
        rw [if_pos rfl, hDc]
      · dsimp only
        rw [if_pos rfl]
      · dsimp only
        rw [if_pos rfl, hfD] at *
        exact hfD ▸ hlt
      · dsimp only
        rw [if_pos rfl]
        exact List.mem_cons_self _ _
    refine ⟨?_, ?_, ?_⟩
    · intro f hf
      exact List.mem_cons_of_mem _ (hM.1 f hf)
    · intro f hf
      rcases List.mem_cons.mp hf with rfl | hf'
      · refine Or.inr ⟨(x, y), hPush, ?_⟩
        dsimp only
        rw [if_pos rfl]
      · rcases hM.2.1 f hf' with hfs | ⟨w, hw, rfl⟩
        · exact Or.inl hfs
        · have hwx : w ≠ (x, y) := by
            intro hwe
            rw [hwe] at hw
            obtain ⟨_, _, _, _, hlt', _⟩ := hw
            rw [hfD] at hlt'
            exact absurd hlt' (lt_irrefl _)
          refine Or.inr ⟨w, ?_, ?_⟩
          · obtain ⟨e', hE', h1, h2, h3, h4, h5, h6⟩ := hw
            refine ⟨e', hE', ?_, ?_, ?_, ?_, h5, h6⟩
            · dsimp only
              rw [if_neg hwx]
              exact h1
            · dsimp only
              rw [if_neg hwx]
              exact h2
            · dsimp only
              rw [if_neg hwx]
              exact h3
            · dsimp only
              rw [if_neg hwx]
              exact List.mem_cons_of_mem _ h4
          · dsimp only
            rw [if_neg hwx]
    · intro w
      by_cases hwx : w = (x, y)
      · exact Or.inr (hwx ▸ hPush)
      · rcases hM.2.2 w with ⟨h1, h2⟩ | hw
        · refine Or.inl ⟨?_, ?_⟩
          · dsimp only
            rw [if_neg hwx]
            exact h1
          · dsimp only
            rw [if_neg hwx]
            exact h2
        · obtain ⟨e', hE', h1, h2, h3, h4, h5, h6⟩ := hw
          refine Or.inr ⟨e', hE', ?_, ?_, ?_, ?_, h5, h6⟩
          · dsimp only
            rw [if_neg hwx]
            exact h1
          · dsimp only
            rw [if_neg hwx]
            exact h2
          · dsimp only
            rw [if_neg hwx]
            exact h3
          · dsimp only
            rw [if_neg hwx]
            exact List.mem_cons_of_mem _ h4

theorem costA_spec {a : List α} {cskip : α → ℚ} {cx : ℕ} (h : cx < a.length) :
    (match a[cx]? with | some u => (↑(cskip u) : Cost) | none => ⊤) =
      (↑(cskip a[cx]) : Cost) := by
  rw [List.getElem?_eq_getElem h]

theorem costAB_spec {a b : List α} {calign : α → α → ℚ} {cx cy : ℕ}
    (h1 : cx < a.length) (h2 : cy < b.length) :
    (match a[cx]?, b[cy]? with
      | some u, some v => (↑(calign u v) : Cost)
      | _, _ => ⊤) = (↑(calign a[cx] b[cy]) : Cost) := by
  rw [List.getElem?_eq_getElem h1, List.getElem?_eq_getElem h2]

theorem costB_spec {b : List α} {cskip : α → ℚ} {cy : ℕ} (h : cy < b.length) :
    (match b[cy]? with | some v => (↑(cskip v) : Cost) | none => ⊤) =
      (↑(cskip b[cy]) : Cost) := by
  rw [List.getElem?_eq_getElem h]

/-- Two grid cells with different first components differ. -/
theorem pair_ne_fst {u v u' v' : ℕ} (h : u ≠ u') : ((u, v) : ℕ × ℕ) ≠ (u', v') := by
  intro hcon
  rw [Prod.mk.injEq] at hcon
  exact h hcon.1

/-- Two grid cells with different second components differ. -/
theorem pair_ne_snd {u v u' v' : ℕ} (h : v ≠ v') : ((u, v) : ℕ × ℕ) ≠ (u', v') := by
  intro hcon
  rw [Prod.mk.injEq] at hcon
  exact h hcon.2

/-- The expansion of a popped cell classifies every cell as untouched or
freshly pushed. -/
theorem expandCell_mid (a b : List α) (calign : α → α → ℚ) (cskip : α → ℚ)
    (s : St) (cx cy : ℕ) :
    Mid a b calign cskip s (expandCell a b calign cskip s cx cy) cx cy := by
  set c1 : Cost := (match a[cx]? with | some u => ↑(cskip u) | none => ⊤) with hc1
  set c2 : Cost := (match a[cx]?, b[cy]? with
    | some u, some v => (↑(calign u v) : Cost)
    | _, _ => ⊤) with hc2
  set c3 : Cost := (match b[cy]? with | some v => ↑(cskip v) | none => ⊤) with hc3
  set t1 : St := relax1 a.length b.length s cx cy c1 (cx + 1) cy with ht1
  set t2 : St := relax1 a.length b.length t1 cx cy c2 (cx + 1) (cy + 1) with ht2
  have hgoal : expandCell a b calign cskip s cx cy =
      relax1 a.length b.length t2 cx cy c3 cx (cy + 1) := rfl
  rw [hgoal]
  have hec1 : cx + 1 ≤ a.length → cy ≤ b.length →
      ∃ e, Edge a b (cx, cy) (cx + 1, cy) e ∧
        c1 = ↑(entryCost calign cskip e) := by
    intro hx _
    have h : cx < a.length := by omega
    exact ⟨(some a[cx], none), Edge.skipA h, by rw [hc1, costA_spec h]; rfl⟩
  have hec2 : cx + 1 ≤ a.length → cy + 1 ≤ b.length →
      ∃ e, Edge a b (cx, cy) (cx + 1, cy + 1) e ∧
        c2 = ↑(entryCost calign cskip e) := by
    intro hx hy
    have h1 : cx < a.length := by omega
    have h2 : cy < b.length := by omega
    exact ⟨(some a[cx], some b[cy]), Edge.alignE h1 h2,
      by rw [hc2, costAB_spec h1 h2]; rfl⟩
  have hec3 : cx ≤ a.length → cy + 1 ≤ b.length →
      ∃ e, Edge a b (cx, cy) (cx, cy + 1) e ∧
        c3 = ↑(entryCost calign cskip e) := by
    intro _ hy
    have h : cy < b.length := by omega
    exact ⟨(none, some b[cy]), Edge.skipB h, by rw [hc3, costB_spec h]; rfl⟩
  have hf2D : t1.D (cx + 1, cy + 1) = s.D (cx + 1, cy + 1) := by
    rw [ht1]
    exact relax1_D_other _ _ _ _ _ _ _ _ (pair_ne_snd (by omega))
  have hf2BT : t1.BT (cx + 1, cy + 1) = s.BT (cx + 1, cy + 1) := by
    rw [ht1]
    exact relax1_BT_other _ _ _ _ _ _ _ _ (pair_ne_snd (by omega))
  have hf3D : t2.D (cx, cy + 1) = s.D (cx, cy + 1) := by
    rw [ht2]
    have e1 := relax1_D_other a.length b.length t1 cx cy c2 (cx + 1) (cy + 1)
      (p := (cx, cy + 1)) (pair_ne_fst (by omega))
    rw [e1, ht1]
    exact relax1_D_other _ _ _ _ _ _ _ _ (pair_ne_fst (by omega))
  have hf3BT : t2.BT (cx, cy + 1) = s.BT (cx, cy + 1) := by
    rw [ht2]
    have e1 := relax1_BT_other a.length b.length t1 cx cy c2 (cx + 1) (cy + 1)
      (p := (cx, cy + 1)) (pair_ne_fst (by omega))
    rw [e1, ht1]
    exact relax1_BT_other _ _ _ _ _ _ _ _ (pair_ne_fst (by omega))
  exact Mid.stepM (Mid.stepM (Mid.stepM (Mid.refl a b calign cskip s cx cy)
    hec1 rfl rfl) hec2 hf2D hf2BT) hec3 hf3D hf3BT

/-- `D` never increases across an expansion. -/
theorem expandCell_D_le (a b : List α) (calign : α → α → ℚ) (cskip : α → ℚ)
    (s : St) (cx cy : ℕ) (p : ℕ × ℕ) :
    (expandCell a b calign cskip s cx cy).D p ≤ s.D p := by
  rcases (expandCell_mid a b calign cskip s cx cy).2.2 p with ⟨h, _⟩ | ⟨_, _, _, _, h, _⟩
  · exact le_of_eq h
  · exact h.le

theorem expandCell_heap_super (a b : List α) (calign : α → α → ℚ)
    (cskip : α → ℚ) (s : St) (cx cy : ℕ) {f} (hf : f ∈ s.heap) :
    f ∈ (expandCell a b calign cskip s cx cy).heap :=
  (expandCell_mid a b calign cskip s cx cy).1 f hf

/-- After expanding `(cx, cy)`, every outgoing edge of `(cx, cy)` is
relaxed: the neighbor's `D`-value is at most the edge cost plus the
expanded cell's (unchanged) `D`-value. -/
theorem expandCell_relaxed (a b : List α) (calign : α → α → ℚ)
    (cskip : α → ℚ) (s : St) (cx cy : ℕ)
    (hx : cx ≤ a.length) (hy : cy ≤ b.length) :
    ∀ (w : ℕ × ℕ) e, Edge a b (cx, cy) w e →
      (expandCell a b calign cskip s cx cy).D w ≤
        ↑(entryCost calign cskip e) + s.D (cx, cy) := by
  set c1 : Cost := (match a[cx]? with | some u => ↑(cskip u) | none => ⊤) with hc1
  set c2 : Cost := (match a[cx]?, b[cy]? with
    | some u, some v => (↑(calign u v) : Cost)
    | _, _ => ⊤) with hc2
  set c3 : Cost := (match b[cy]? with | some v => ↑(cskip v) | none => ⊤) with hc3
  set t1 : St := relax1 a.length b.length s cx cy c1 (cx + 1) cy with ht1
  set t2 : St := relax1 a.length b.length t1 cx cy c2 (cx + 1) (cy + 1) with ht2
  set t3 : St := relax1 a.length b.length t2 cx cy c3 cx (cy + 1) with ht3
  have hgoal : expandCell a b calign cskip s cx cy = t3 := rfl
  rw [hgoal]
  have hD1cxcy : t1.D (cx, cy) = s.D (cx, cy) := by
    rw [ht1]
    exact relax1_D_other _ _ _ _ _ _ _ _ (pair_ne_fst (by omega))
  have hD2cxcy : t2.D (cx, cy) = s.D (cx, cy) := by
    rw [ht2]
    rw [relax1_D_other _ _ _ _ _ _ _ _ (pair_ne_fst (by omega))]
    exact hD1cxcy
  intro w e hE
  cases hE with
  | skipA h =>
    have hcc : c1 = ↑(cskip a[cx]) := by rw [hc1, costA_spec h]
    have hD1 : t1.D (cx + 1, cy) ≤ ↑(cskip a[cx]) + s.D (cx, cy) := by
      rw [ht1]
      rcases relax1_spec a.length b.length s cx cy c1 (cx + 1) cy with
        ⟨he, hf⟩ | ⟨_, _, hlt, he⟩
      · rw [he, ← hcc]
        exact le_of_not_lt (hf (by omega) hy)
      · rw [he]
        dsimp only
        rw [if_pos rfl, ← hcc]
    have hD2 : t2.D (cx + 1, cy) = t1.D (cx + 1, cy) := by
      rw [ht2]
      exact relax1_D_other _ _ _ _ _ _ _ _ (pair_ne_snd (by omega))
    have hD3 : t3.D (cx + 1, cy) = t2.D (cx + 1, cy) := by
      rw [ht3]
      exact relax1_D_other _ _ _ _ _ _ _ _ (pair_ne_fst (by omega))
    rw [hD3, hD2]
    exact hD1
  | alignE h1 h2 =>
    have hcc : c2 = ↑(calign a[cx] b[cy]) := by rw [hc2, costAB_spec h1 h2]
    have hD2 : t2.D (cx + 1, cy + 1) ≤ ↑(calign a[cx] b[cy]) + s.D (cx, cy) := by
      rw [ht2]
      rcases relax1_spec a.length b.length t1 cx cy c2 (cx + 1) (cy + 1) with
        ⟨he, hf⟩ | ⟨_, _, hlt, he⟩
      · rw [he]
        have hno := hf (by omega) (by omega)
        rw [hcc, hD1cxcy] at hno
        have ht1eq : t1.D (cx + 1, cy + 1) = s.D (cx + 1, cy + 1) := by
          rw [ht1]
          exact relax1_D_other _ _ _ _ _ _ _ _ (pair_ne_snd (by omega))
        exact le_of_not_lt hno
      · rw [he]
        dsimp only
        rw [if_pos rfl, hcc, hD1cxcy]
    have hD3 : t3.D (cx + 1, cy + 1) = t2.D (cx + 1, cy + 1) := by
      rw [ht3]
      exact relax1_D_other _ _ _ _ _ _ _ _ (pair_ne_fst (by omega))
    rw [hD3]
    exact hD2
  | skipB h =>
    have hcc : c3 = ↑(cskip b[cy]) := by rw [hc3, costB_spec h]
    have hD3 : t3.D (cx, cy + 1) ≤ ↑(cskip b[cy]) + s.D (cx, cy) := by
      rw [ht3]
      rcases relax1_spec a.length b.length t2 cx cy c3 cx (cy + 1) with
        ⟨he, hf⟩ | ⟨_, _, hlt, he⟩
      · rw [he]
        have hno := hf hx (by omega)
        rw [hcc, hD2cxcy] at hno
        exact le_of_not_lt hno
      · rw [he]
        dsimp only
        rw [if_pos rfl, hcc, hD2cxcy]
    exact hD3


/-! ## The search invariant (independent of cost signs) -/

/-- All outgoing edges of `v` are relaxed at `v`'s current `D`-value. -/
def RelaxedAll (a b : List α) (calign : α → α → ℚ) (cskip : α → ℚ)
    (D : ℕ × ℕ → Cost) (v : ℕ × ℕ) : Prop :=
  ∀ (w : ℕ × ℕ) e, Edge a b v w e → D w ≤ ↑(entryCost calign cskip e) + D v

/-- Invariant of the search loop that holds for arbitrary (also
negative) cost functions:
* `d00`: the start cell keeps cost `0` (it has no incoming edges);
* `pcost`: every finite `D`-value is the cost of an actual grid path;
* `hfin`: heap entries are finite, never below the recorded `D`-value of
  their cell, and in bounds;
* `relaxInv`: a cell with finite `D` either has all outgoing edges
  relaxed or still carries a heap entry at its current value;
* `endEnt`: while the loop is running, a finite terminal cell always has
  a live heap entry at its current value;
* `btOk`: the recorded predecessor of a reached cell is joined to it by
  a grid edge and has itself been reached. -/
structure Inv0 (a b : List α) (calign : α → α → ℚ) (cskip : α → ℚ)
    (s : St) : Prop where
  d00 : s.D (0, 0) = 0
  pcost : ∀ v : ℕ × ℕ, s.D v ≠ ⊤ →
    ∃ l, Steps a b 0 0 l v.1 v.2 ∧ (↑(alignCost calign cskip l) : Cost) = s.D v
  hfin : ∀ f ∈ s.heap, f.1 ≠ ⊤ ∧ s.D (f.2.1, f.2.2) ≤ f.1 ∧
    f.2.1 ≤ a.length ∧ f.2.2 ≤ b.length
  relaxInv : ∀ v : ℕ × ℕ, s.D v ≠ ⊤ →
    RelaxedAll a b calign cskip s.D v ∨ (s.D v, v.1, v.2) ∈ s.heap
  endEnt : s.D (a.length, b.length) ≠ ⊤ →
    (s.D (a.length, b.length), a.length, b.length) ∈ s.heap
  btOk : ∀ v : ℕ × ℕ, v ≠ (0, 0) → s.D v ≠ ⊤ →
    (∃ e, Edge a b (s.BT v) v e) ∧ s.D (s.BT v) ≠ ⊤

theorem inv0_init (a b : List α) (calign : α → α → ℚ) (cskip : α → ℚ) :
    Inv0 a b calign cskip initSt := by
  have hD : ∀ v : ℕ × ℕ, initSt.D v ≠ ⊤ → v = (0, 0) := by
    intro v hv
    by_contra hc
    apply hv
    show (if v = (0, 0) then 0 else ⊤) = ⊤
    rw [if_neg hc]
  refine ⟨by simp [initSt], ?_, ?_, ?_, ?_, ?_⟩
  · intro v hv
    rw [hD v hv]
    exact ⟨[], Steps.nil _ _, by simp [initSt, alignCost]⟩
  · intro f hf
    simp only [initSt, List.mem_singleton] at hf
    subst hf
    exact ⟨by simp, by simp [initSt], by simp, by simp⟩
  · intro v hv
    rw [hD v hv]
    right
    simp [initSt]
  · intro hv
    have h := hD _ hv
    rw [h]
    simp [initSt]
  · intro v hv0 hv
    exact absurd (hD v hv) hv0

/-- Preservation of the sign-free invariant by one non-terminal loop
iteration (pop plus expansion). -/
theorem Inv0.step0 {a b : List α} {calign : α → α → ℚ} {cskip : α → ℚ}
    {s : St} (hI : Inv0 a b calign cskip s) {d : Cost} {x y : ℕ} {rest}
    (hpop : popMin s.heap = some ((d, x, y), rest))
    (hne : (x, y) ≠ (a.length, b.length)) :
    Inv0 a b calign cskip (expandCell a b calign cskip ⟨s.D, s.BT, rest⟩ x y) := by
  obtain ⟨hdT, hDxy_le, hx, hy⟩ := hI.hfin _ (popMin_mem hpop)
  have hDxy : s.D (x, y) ≠ ⊤ := by
    intro hT
    rw [hT] at hDxy_le
    exact hdT (top_le_iff.mp hDxy_le)
  set t0 : St := ⟨s.D, s.BT, rest⟩ with ht0
  set t : St := expandCell a b calign cskip t0 x y with ht
  have hmid := expandCell_mid a b calign cskip t0 x y
  have ht0D : t0.D = s.D := rfl
  have ht0BT : t0.BT = s.BT := rfl
  have hDle : ∀ p, t.D p ≤ s.D p := fun p => expandCell_D_le a b calign cskip t0 x y p
  have hfinpres : ∀ p, s.D p ≠ ⊤ → t.D p ≠ ⊤ := by
    intro p hp
    rcases hmid.2.2 p with ⟨h1, _⟩ | ⟨_, _, _, _, hlt, _⟩
    · rw [h1]; exact hp
    · exact ne_top_of_lt hlt
  have hrest_mem : ∀ f ∈ rest, f ∈ t.heap := by
    intro f hf
    exact expandCell_heap_super a b calign cskip t0 x y hf
  have hrest_sub : ∀ f ∈ rest, f ∈ s.heap := fun f hf => popMin_rest_subset hpop hf
  have hkeep : ∀ f ∈ s.heap, f.2.1 ≠ x ∨ f.2.2 ≠ y → f ∈ t.heap := by
    intro f hf hfc
    refine hrest_mem f (popMin_rest_mem hpop hf ?_)
    intro hfe
    rw [hfe] at hfc
    rcases hfc with h | h <;> exact h rfl
  refine ⟨?_, ?_, ?_, ?_, ?_, ?_⟩
  · -- d00
    rcases hmid.2.2 (0, 0) with ⟨h1, _⟩ | ⟨e, hE, _⟩
    · rw [h1, ht0D, hI.d00]
    · exact absurd rfl hE.target_ne_zero
  · -- pcost
    intro v hv
    rcases hmid.2.2 v with ⟨h1, _⟩ | ⟨e, hE, hDv, _, _, _, _, _⟩
    · rw [h1, ht0D] at hv ⊢
      exact hI.pcost v hv
    · obtain ⟨l0, hs0, hc0⟩ := hI.pcost (x, y) hDxy
      refine ⟨l0 ++ [e], hs0.push_right hE, ?_⟩
      rw [alignCost_append, alignCost_cons, alignCost_nil, add_zero,
        WithTop.coe_add, hc0, hDv, ht0D, add_comm]
  · -- hfin
    intro f hf
    rcases hmid.2.1 f hf with hf0 | ⟨w, hw, rfl⟩
    · obtain ⟨h1, h2, h3, h4⟩ := hI.hfin f (hrest_sub f hf0)
      exact ⟨h1, (hDle _).trans h2, h3, h4⟩
    · obtain ⟨e, hE, hDv, _, hlt, hmem, hbx, hby⟩ := hw
      refine ⟨ne_top_of_lt (?_ : t.D w < ⊤), le_of_eq rfl, hbx, hby⟩
      calc t.D w < t0.D w := hlt
        _ ≤ ⊤ := le_top
  · -- relaxInv
    intro v hv
    by_cases hvxy : v = (x, y)
    · subst hvxy
      left
      intro w e hE
      have h1 := expandCell_relaxed a b calign cskip t0 x y hx hy w e hE
      calc t.D w ≤ ↑(entryCost calign cskip e) + t0.D (x, y) := h1
        _ = ↑(entryCost calign cskip e) + t.D (x, y) := by rw [hmid.D_cxcy.1]
    · rcases hmid.2.2 v with ⟨h1, _⟩ | ⟨e, hE, hDv, hBT, hlt, hmem, _, _⟩
      · rw [h1, ht0D] at hv
        rcases hI.relaxInv v hv with hrel | hment
        · left
          intro w e hE
          calc t.D w ≤ s.D w := hDle w
            _ ≤ ↑(entryCost calign cskip e) + s.D v := hrel w e hE
            _ = ↑(entryCost calign cskip e) + t.D v := by rw [h1, ht0D]
        · right
          rw [h1, ht0D]
          refine hkeep _ hment ?_
          by_cases hc : v.1 = x
          · right
            intro hc2
            exact hvxy (Prod.ext hc hc2)
          · left
            exact hc
      · right
        exact hmem
  · -- endEnt
    intro hv
    rcases hmid.2.2 (a.length, b.length) with ⟨h1, _⟩ | ⟨e, hE, hDv, hBT, hlt, hmem, _, _⟩
    · rw [h1, ht0D] at hv ⊢
      refine hkeep _ (hI.endEnt hv) ?_
      by_cases hc : a.length = x
      · right
        intro hc2
        exact hne (Prod.ext hc.symm hc2.symm)
      · left
        exact fun hc2 => hc hc2
    · exact hmem
  · -- btOk
    intro v hv0 hv
    rcases hmid.2.2 v with ⟨h1, hBTv⟩ | ⟨e, hE, hDv, hBT, hlt, hmem, _, _⟩
    · rw [h1, ht0D] at hv
      obtain ⟨⟨e, hE⟩, hDbt⟩ := hI.btOk v hv0 hv
      rw [hBTv, ht0BT]
      refine ⟨⟨e, hE⟩, ?_⟩
      exact hfinpres _ hDbt
    · rw [hBT]
      refine ⟨⟨e, hE⟩, ?_⟩
      rw [hmid.D_cxcy.1]
      exact hDxy

/-- Finite `D`-values only occur at in-grid cells. -/
theorem Inv0.grid {a b : List α} {calign : α → α → ℚ} {cskip : α → ℚ}
    {s : St} (hI : Inv0 a b calign cskip s) {v : ℕ × ℕ} (hv : s.D v ≠ ⊤) :
    v.1 ≤ a.length ∧ v.2 ≤ b.length := by
  obtain ⟨l, hs, _⟩ := hI.pcost v hv
  exact hs.endpoint_bounds (Nat.zero_le _) (Nat.zero_le _)

/-- `D` dominates the least path cost. -/
theorem Inv0.dLB {a b : List α} {calign : α → α → ℚ} {cskip : α → ℚ}
    {s : St} (hI : Inv0 a b calign cskip s) {v : ℕ × ℕ} {q : ℚ}
    (hq : Dist a b calign cskip v q) : (↑q : Cost) ≤ s.D v := by
  by_cases hv : s.D v = ⊤
  · rw [hv]
    exact le_top
  · obtain ⟨l, hs, hc⟩ := hI.pcost v hv
    rw [← hc]
    exact_mod_cast hq.lb hs


/-! ## Execution traces and the settlement ghost -/

/-- Reachable configurations of the search loop, paired with a ghost map
`S` recording, for each popped cell, the `D`-value it had when popped
(its settlement value).  The ghost is write-only: it does not influence
the computation, which follows the source exactly. -/
inductive Trace (a b : List α) (calign : α → α → ℚ) (cskip : α → ℚ) :
    St → (ℕ × ℕ → Option Cost) → Prop
  | init : Trace a b calign cskip initSt (fun _ => none)
  | step {s : St} {S : ℕ × ℕ → Option Cost} {d : Cost} {x y : ℕ} {rest} :
      Trace a b calign cskip s S →
      popMin s.heap = some ((d, x, y), rest) →
      (x, y) ≠ (a.length, b.length) →
      Trace a b calign cskip
        (expandCell a b calign cskip ⟨s.D, s.BT, rest⟩ x y)
        (fun v => if v = (x, y) then some (s.D (x, y)) else S v)

theorem Trace.inv0 {a b : List α} {calign : α → α → ℚ} {cskip : α → ℚ}
    {s S} (h : Trace a b calign cskip s S) : Inv0 a b calign cskip s := by
  induction h with
  | init => exact inv0_init a b calign cskip
  | step h hpop hne ih => exact ih.step0 hpop hne

/-- Additional invariant available when both cost functions are
nonnegative: settled cells hold their (final) least path cost, settled
cells have relaxed all their edges, unsettled reached cells keep a live
heap entry, the start settles first, and backtracking pointers lead to
settled predecessors with exact edge-cost bookkeeping. -/
structure InvN (a b : List α) (calign : α → α → ℚ) (cskip : α → ℚ)
    (s : St) (S : ℕ × ℕ → Option Cost) : Prop where
  settled : ∀ v c, S v = some c →
    c = s.D v ∧ ∃ q : ℚ, s.D v = ↑q ∧ Dist a b calign cskip v q
  settledRelax : ∀ v c, S v = some c → RelaxedAll a b calign cskip s.D v
  unsettledEnt : ∀ v : ℕ × ℕ, s.D v ≠ ⊤ → S v = none →
    (s.D v, v.1, v.2) ∈ s.heap
  settled0 : S (0, 0) ≠ none ∨ ((S = fun _ => none) ∧ s = initSt)
  btSettled : ∀ v : ℕ × ℕ, v ≠ (0, 0) → s.D v ≠ ⊤ → S (s.BT v) ≠ none
  btCost : ∀ v : ℕ × ℕ, v ≠ (0, 0) → s.D v ≠ ⊤ →
    ∃ e, Edge a b (s.BT v) v e ∧
      s.D v = ↑(entryCost calign cskip e) + s.D (s.BT v)

theorem invN_init (a b : List α) (calign : α → α → ℚ) (cskip : α → ℚ) :
    InvN a b calign cskip initSt (fun _ => none) := by
  have hD : ∀ v : ℕ × ℕ, initSt.D v ≠ ⊤ → v = (0, 0) := by
    intro v hv
    by_contra hc
    apply hv
    show (if v = (0, 0) then 0 else ⊤) = ⊤
    rw [if_neg hc]
  refine ⟨?_, ?_, ?_, ?_, ?_, ?_⟩
  · intro v c hc
    exact absurd hc (by simp)
  · intro v c hc
    exact absurd hc (by simp)
  · intro v hv _
    rw [hD v hv]
    simp [initSt]
  · exact Or.inr ⟨rfl, rfl⟩
  · intro v hv0 hv
    exact absurd (hD v hv) hv0
  · intro v hv0 hv
    exact absurd (hD v hv) hv0

/-- Walking along any grid path from a settled cell: either the path
passes an unsettled reached cell whose `D`-value is dominated by the
partial path cost, or its endpoint is settled with dominated `D`-value.
(Requires nonnegative costs.) -/
theorem path_cross {a b : List α} {calign : α → α → ℚ} {cskip : α → ℚ}
    {s : St} {S : ℕ × ℕ → Option Cost}
    (hca : ∀ x y, 0 ≤ calign x y) (hcs : ∀ x, 0 ≤ cskip x)
    (hN : InvN a b calign cskip s S) :
    ∀ {l} {i j x' y' : ℕ}, Steps a b i j l x' y' → S (i, j) ≠ none →
    ∀ qi : ℚ, s.D (i, j) = ↑qi →
    (∃ (w : ℕ × ℕ) (qw : ℚ), S w = none ∧ s.D w = ↑qw ∧
      qw ≤ qi + alignCost calign cskip l) ∨
    (S (x', y') ≠ none ∧ ∃ qf : ℚ, s.D (x', y') = ↑qf ∧
      qf ≤ qi + alignCost calign cskip l) := by
  intro l i j x' y' hsteps
  induction hsteps with
  | nil =>
    intro hset qi hqi
    right
    exact ⟨hset, qi, hqi, by rw [alignCost_nil]; linarith⟩
  | @skipA i j x' y' l h htail ih =>
    intro hset qi hqi
    obtain ⟨c, hc⟩ := Option.ne_none_iff_exists'.mp hset
    have hrel := hN.settledRelax _ _ hc (i + 1, j) (some a[i], none) (Edge.skipA h)
    have hcost : entryCost calign cskip (some a[i], none) = cskip a[i] := rfl
    rw [hcost, hqi, ← WithTop.coe_add] at hrel
    obtain ⟨q1, hq1D, hq1le⟩ := WithTop.le_coe_iff.mp hrel
    have hl0 : 0 ≤ alignCost calign cskip l := alignCost_nonneg hca hcs l
    have hcons : alignCost calign cskip ((some a[i], none) :: l) =
        cskip a[i] + alignCost calign cskip l := by
      rw [alignCost_cons, hcost]
    by_cases hS1 : S (i + 1, j) = none
    · left
      exact ⟨(i + 1, j), q1, hS1, hq1D, by rw [hcons]; linarith⟩
    · rcases ih hS1 q1 hq1D with ⟨w, qw, hw1, hw2, hw3⟩ | ⟨hsett, qf, hf1, hf2⟩
      · left
        exact ⟨w, qw, hw1, hw2, by rw [hcons]; linarith⟩
      · right
        exact ⟨hsett, qf, hf1, by rw [hcons]; linarith⟩
  | @alignS i j x' y' l h1 h2 htail ih =>
    intro hset qi hqi
    obtain ⟨c, hc⟩ := Option.ne_none_iff_exists'.mp hset
    have hrel := hN.settledRelax _ _ hc (i + 1, j + 1) (some a[i], some b[j])
      (Edge.alignE h1 h2)
    have hcost : entryCost calign cskip (some a[i], some b[j]) =
      calign a[i] b[j] := rfl
    rw [hcost, hqi, ← WithTop.coe_add] at hrel
    obtain ⟨q1, hq1D, hq1le⟩ := WithTop.le_coe_iff.mp hrel
    have hl0 : 0 ≤ alignCost calign cskip l := alignCost_nonneg hca hcs l
    have hcons : alignCost calign cskip ((some a[i], some b[j]) :: l) =
        calign a[i] b[j] + alignCost calign cskip l := by
      rw [alignCost_cons, hcost]
    by_cases hS1 : S (i + 1, j + 1) = none
    · left
      exact ⟨(i + 1, j + 1), q1, hS1, hq1D, by rw [hcons]; linarith⟩
    · rcases ih hS1 q1 hq1D with ⟨w, qw, hw1, hw2, hw3⟩ | ⟨hsett, qf, hf1, hf2⟩
      · left
        exact ⟨w, qw, hw1, hw2, by rw [hcons]; linarith⟩
      · right
        exact ⟨hsett, qf, hf1, by rw [hcons]; linarith⟩
  | @skipB i j x' y' l h htail ih =>
    intro hset qi hqi
    obtain ⟨c, hc⟩ := Option.ne_none_iff_exists'.mp hset
    have hrel := hN.settledRelax _ _ hc (i, j + 1) (none, some b[j]) (Edge.skipB h)
    have hcost : entryCost calign cskip ((none : Option α), some b[j]) =
      cskip b[j] := rfl
    rw [hcost, hqi, ← WithTop.coe_add] at hrel
    obtain ⟨q1, hq1D, hq1le⟩ := WithTop.le_coe_iff.mp hrel
    have hl0 : 0 ≤ alignCost calign cskip l := alignCost_nonneg hca hcs l
    have hcons : alignCost calign cskip (((none : Option α), some b[j]) :: l) =
        cskip b[j] + alignCost calign cskip l := by
      rw [alignCost_cons, hcost]
    by_cases hS1 : S (i, j + 1) = none
    · left
      exact ⟨(i, j + 1), q1, hS1, hq1D, by rw [hcons]; linarith⟩
    · rcases ih hS1 q1 hq1D with ⟨w, qw, hw1, hw2, hw3⟩ | ⟨hsett, qf, hf1, hf2⟩
      · left
        exact ⟨w, qw, hw1, hw2, by rw [hcons]; linarith⟩
      · right
        exact ⟨hsett, qf, hf1, by rw [hcons]; linarith⟩

/-- The Dijkstra property: under nonnegative costs, whenever the loop
pops a cell, that cell's recorded `D`-value is its least path cost. -/
theorem crossing {a b : List α} {calign : α → α → ℚ} {cskip : α → ℚ}
    {s : St} {S : ℕ × ℕ → Option Cost}
    (hca : ∀ x y, 0 ≤ calign x y) (hcs : ∀ x, 0 ≤ cskip x)
    (hI : Inv0 a b calign cskip s) (hN : InvN a b calign cskip s S)
    {d : Cost} {x y : ℕ} {rest}
    (hpop : popMin s.heap = some ((d, x, y), rest)) :
    ∃ q : ℚ, s.D (x, y) = ↑q ∧ Dist a b calign cskip (x, y) q := by
  by_cases hS : S (x, y) = none
  · rcases hN.settled0 with h0 | ⟨hSnone, hsinit⟩
    · -- the start is settled but (x, y) is not, so (x, y) ≠ (0, 0)
      obtain ⟨hdT, hDle, hx, hy⟩ := hI.hfin _ (popMin_mem hpop)
      obtain ⟨q, hq⟩ := dist_exists a b calign cskip x y hx hy
      obtain ⟨l, hs_path, hc_path⟩ := hq.1
      have h00 : s.D (0, 0) = ((0 : ℚ) : Cost) := by
        rw [hI.d00]
        rfl
      rcases path_cross hca hcs hN hs_path h0 0 h00 with
        ⟨w, qw, hw1, hw2, hw3⟩ | ⟨hsett, _⟩
      · have hwT : s.D w ≠ ⊤ := by
          rw [hw2]
          exact WithTop.coe_ne_top
        have hment := hN.unsettledEnt w hwT hw1
        have hmin := popMin_min hpop _ hment
        have h3 : d ≤ s.D w := keyLe_cost hmin
        have h4 : (s.D w : Cost) ≤ ↑q := by
          rw [hw2]
          rw [hc_path] at hw3
          exact_mod_cast (by linarith : qw ≤ q)
        have h5 : (↑q : Cost) ≤ s.D (x, y) := hI.dLB hq
        refine ⟨q, le_antisymm (hDle.trans (h3.trans h4)) h5, hq⟩
      · exact absurd hS (fun _ => hsett hS)
    · subst hsinit
      have hpop0 : popMin initSt.heap = some (((0 : Cost), 0, 0), []) := rfl
      rw [hpop0] at hpop
      simp only [Option.some.injEq, Prod.mk.injEq] at hpop
      obtain ⟨⟨hd, hx0, hy0⟩, hrest⟩ := hpop
      refine ⟨0, ?_, ?_⟩
      · rw [← hx0, ← hy0, hI.d00]
        rfl
      · rw [← hx0, ← hy0]
        exact dist_start a b calign cskip
  · obtain ⟨c, hc⟩ := Option.ne_none_iff_exists'.mp hS
    obtain ⟨_, q, hDq, hq⟩ := hN.settled _ _ hc
    exact ⟨q, hDq, hq⟩


/-- Expanding a settled cell changes nothing: every relaxation attempt
fails because the first expansion of that cell already relaxed all its
edges and `D` never increased since.  (Nonnegative costs.) -/
theorem settled_expand_noop {a b : List α} {calign : α → α → ℚ}
    {cskip : α → ℚ} {s : St} {S : ℕ × ℕ → Option Cost}
    (hN : InvN a b calign cskip s S) {c : Cost} {x y : ℕ}
    (hS : S (x, y) = some c) (rest : List (Cost × ℕ × ℕ)) :
    expandCell a b calign cskip ⟨s.D, s.BT, rest⟩ x y = ⟨s.D, s.BT, rest⟩ := by
  have hrel := hN.settledRelax _ _ hS
  set t0 : St := ⟨s.D, s.BT, rest⟩ with ht0
  set c1 : Cost := (match a[x]? with | some u => ↑(cskip u) | none => ⊤) with hc1
  set c2 : Cost := (match a[x]?, b[y]? with
    | some u, some v => (↑(calign u v) : Cost)
    | _, _ => ⊤) with hc2
  set c3 : Cost := (match b[y]? with | some v => ↑(cskip v) | none => ⊤) with hc3
  have hgoal : expandCell a b calign cskip t0 x y =
      relax1 a.length b.length
        (relax1 a.length b.length
          (relax1 a.length b.length t0 x y c1 (x + 1) y)
          x y c2 (x + 1) (y + 1))
        x y c3 x (y + 1) := rfl
  have h1 : relax1 a.length b.length t0 x y c1 (x + 1) y = t0 := by
    rcases relax1_spec a.length b.length t0 x y c1 (x + 1) y with
      ⟨he, _⟩ | ⟨hx', hy', hlt, _⟩
    · exact he
    · exfalso
      have h : x < a.length := by omega
      have hcc : c1 = ↑(cskip a[x]) := by rw [hc1, costA_spec h]
      have := hrel (x + 1, y) (some a[x], none) (Edge.skipA h)
      have hcost : entryCost calign cskip (some a[x], none) = cskip a[x] := rfl
      rw [hcost] at this
      rw [hcc] at hlt
      exact absurd hlt (not_lt_of_le this)
  rw [hgoal, h1]
  have h2 : relax1 a.length b.length t0 x y c2 (x + 1) (y + 1) = t0 := by
    rcases relax1_spec a.length b.length t0 x y c2 (x + 1) (y + 1) with
      ⟨he, _⟩ | ⟨hx', hy', hlt, _⟩
    · exact he
    · exfalso
      have hxa : x < a.length := by omega
      have hyb : y < b.length := by omega
      have hcc : c2 = ↑(calign a[x] b[y]) := by rw [hc2, costAB_spec hxa hyb]
      have := hrel (x + 1, y + 1) (some a[x], some b[y]) (Edge.alignE hxa hyb)
      have hcost : entryCost calign cskip (some a[x], some b[y]) =
        calign a[x] b[y] := rfl
      rw [hcost] at this
      rw [hcc] at hlt
      exact absurd hlt (not_lt_of_le this)
  rw [h2]
  rcases relax1_spec a.length b.length t0 x y c3 x (y + 1) with
    ⟨he, _⟩ | ⟨hx', hy', hlt, _⟩
  · exact he
  · exfalso
    have hyb : y < b.length := by omega
    have hcc : c3 = ↑(cskip b[y]) := by rw [hc3, costB_spec hyb]
    have := hrel (x, y + 1) (none, some b[y]) (Edge.skipB hyb)
    have hcost : entryCost calign cskip ((none : Option α), some b[y]) =
      cskip b[y] := rfl
    rw [hcost] at this
    rw [hcc] at hlt
    exact absurd hlt (not_lt_of_le this)

/-- Preservation of the nonnegative-cost invariant by one non-terminal
loop iteration. -/
theorem InvN.stepN {a b : List α} {calign : α → α → ℚ} {cskip : α → ℚ}
    {s : St} {S : ℕ × ℕ → Option Cost}
    (hca : ∀ x y, 0 ≤ calign x y) (hcs : ∀ x, 0 ≤ cskip x)
    (hI : Inv0 a b calign cskip s) (hN : InvN a b calign cskip s S)
    {d : Cost} {x y : ℕ} {rest}
    (hpop : popMin s.heap = some ((d, x, y), rest)) :
    InvN a b calign cskip (expandCell a b calign cskip ⟨s.D, s.BT, rest⟩ x y)
      (fun v => if v = (x, y) then some (s.D (x, y)) else S v) := by
  obtain ⟨hdT, hDxy_le, hx, hy⟩ := hI.hfin _ (popMin_mem hpop)
  have hDxy : s.D (x, y) ≠ ⊤ := by
    intro hT
    rw [hT] at hDxy_le
    exact hdT (top_le_iff.mp hDxy_le)
  obtain ⟨q, hDq, hq⟩ := crossing hca hcs hI hN hpop
  set t0 : St := ⟨s.D, s.BT, rest⟩ with ht0
  set t : St := expandCell a b calign cskip t0 x y with ht
  have hmid := expandCell_mid a b calign cskip t0 x y
  have ht0D : t0.D = s.D := rfl
  have ht0BT : t0.BT = s.BT := rfl
  have hDle : ∀ p, t.D p ≤ s.D p := fun p => expandCell_D_le a b calign cskip t0 x y p
  have hDcx : t.D (x, y) = s.D (x, y) := hmid.D_cxcy.1
  have hsetun : ∀ v c, S v = some c → t.D v = s.D v ∧ t.BT v = s.BT v := by
    intro v c hc
    rcases hmid.2.2 v with h | ⟨e, hE, hDv, hBT, hlt, _⟩
    · exact h
    · exfalso
      obtain ⟨_, qv, hDvq, hqv⟩ := hN.settled _ _ hc
      have htri : qv ≤ q + entryCost calign cskip e := hq.le_of_edge hE hqv
      rw [hDvq] at hlt
      rw [hDv, ht0D, hDq, ← WithTop.coe_add] at hlt
      have : entryCost calign cskip e + q < qv := by exact_mod_cast hlt
      linarith
  have hkeep : ∀ f ∈ s.heap, f.2.1 ≠ x ∨ f.2.2 ≠ y → f ∈ t.heap := by
    intro f hf hfc
    refine expandCell_heap_super a b calign cskip t0 x y
      (popMin_rest_mem hpop hf ?_)
    intro hfe
    rw [hfe] at hfc
    rcases hfc with h | h <;> exact h rfl
  refine ⟨?_, ?_, ?_, ?_, ?_, ?_⟩
  · -- settled
    intro v c hc
    by_cases hv : v = (x, y)
    · subst hv
      rw [if_pos rfl] at hc
      have hceq : s.D (x, y) = c := Option.some.inj hc
      refine ⟨by rw [← hceq, hDcx], q, by rw [hDcx, hDq], hq⟩
    · rw [if_neg hv] at hc
      obtain ⟨hceq, qv, hDvq, hqv⟩ := hN.settled _ _ hc
      obtain ⟨hDvu, _⟩ := hsetun _ _ hc
      exact ⟨by rw [hDvu, hceq], qv, by rw [hDvu, hDvq], hqv⟩
  · -- settledRelax
    intro v c hc
    by_cases hv : v = (x, y)
    · subst hv
      intro w e hE
      have h1 := expandCell_relaxed a b calign cskip t0 x y hx hy w e hE
      calc t.D w ≤ ↑(entryCost calign cskip e) + t0.D (x, y) := h1
        _ = ↑(entryCost calign cskip e) + t.D (x, y) := by rw [hmid.D_cxcy.1]
    · rw [if_neg hv] at hc
      have hrel := hN.settledRelax _ _ hc
      obtain ⟨hDvu, _⟩ := hsetun _ _ hc
      intro w e hE
      calc t.D w ≤ s.D w := hDle w
        _ ≤ ↑(entryCost calign cskip e) + s.D v := hrel w e hE
        _ = ↑(entryCost calign cskip e) + t.D v := by rw [hDvu]
  · -- unsettledEnt
    intro v hvD hvno
    have hv : v ≠ (x, y) := by
      intro hve
      rw [if_pos hve] at hvno
      exact Option.some_ne_none _ hvno
    rw [if_neg hv] at hvno
    rcases hmid.2.2 v with ⟨hDv, _⟩ | ⟨e, hE, hDv, hBT, hlt, hmem, _, _⟩
    · rw [hDv, ht0D] at hvD ⊢
      refine hkeep _ (hN.unsettledEnt v hvD hvno) ?_
      by_cases hcc : v.1 = x
      · right
        intro hc2
        exact hv (Prod.ext hcc hc2)
      · left
        exact hcc
    · exact hmem
  · -- settled0
    left
    by_cases h00 : ((0, 0) : ℕ × ℕ) = (x, y)
    · rw [if_pos h00]
      exact Option.some_ne_none _
    · rw [if_neg h00]
      rcases hN.settled0 with h0 | ⟨hS0, hsinit⟩
      · exact h0
      · exfalso
        apply h00
        rw [hsinit] at hpop
        have hpop0 : popMin initSt.heap = some (((0 : Cost), 0, 0), []) := rfl
        rw [hpop0] at hpop
        simp only [Option.some.injEq, Prod.mk.injEq] at hpop
        obtain ⟨⟨_, hx0, hy0⟩, _⟩ := hpop
        rw [← hx0, ← hy0]
  · -- btSettled
    intro v hv0 hvD
    rcases hmid.2.2 v with ⟨hDv, hBTv⟩ | ⟨e, hE, hDv, hBT, hlt, hmem, _, _⟩
    · rw [hDv, ht0D] at hvD
      have hold := hN.btSettled v hv0 hvD
      rw [hBTv, ht0BT]
      by_cases hbx : s.BT v = (x, y)
      · rw [if_pos hbx]
        exact Option.some_ne_none _
      · rw [if_neg hbx]
        exact hold
    · rw [hBT]
      rw [if_pos rfl]
      exact Option.some_ne_none _
  · -- btCost
    intro v hv0 hvD
    rcases hmid.2.2 v with ⟨hDv, hBTv⟩ | ⟨e, hE, hDv, hBT, hlt, hmem, _, _⟩
    · rw [hDv, ht0D] at hvD
      obtain ⟨e, hE, heq⟩ := hN.btCost v hv0 hvD
      have hbset := hN.btSettled v hv0 hvD
      obtain ⟨cb, hcb⟩ := Option.ne_none_iff_exists'.mp hbset
      obtain ⟨hDbu, _⟩ := hsetun _ _ hcb
      refine ⟨e, by rw [hBTv, ht0BT]; exact hE, ?_⟩
      rw [hDv, ht0D, hBTv, ht0BT, hDbu]
      exact heq
    · refine ⟨e, by rw [hBT]; exact hE, ?_⟩
      rw [hBT, hDv, ht0D, hDcx]

theorem Trace.invN {a b : List α} {calign : α → α → ℚ} {cskip : α → ℚ}
    (hca : ∀ x y, 0 ≤ calign x y) (hcs : ∀ x, 0 ≤ cskip x)
    {s S} (h : Trace a b calign cskip s S) : InvN a b calign cskip s S := by
  induction h with
  | init => exact invN_init a b calign cskip
  | step h hpop hne ih => exact InvN.stepN hca hcs h.inv0 ih hpop


/-! ## The search loop and the backtracking walk -/

/-- Expanding the terminal cell is a no-op: all three neighbors fail the
bounds check. -/
theorem expandCell_end (a b : List α) (calign : α → α → ℚ) (cskip : α → ℚ)
    (s : St) : expandCell a b calign cskip s a.length b.length = s := by
  set c1 : Cost := (match a[a.length]? with | some u => ↑(cskip u) | none => ⊤)
  set c2 : Cost := (match a[a.length]?, b[b.length]? with
    | some u, some v => (↑(calign u v) : Cost)
    | _, _ => ⊤)
  set c3 : Cost := (match b[b.length]? with | some v => ↑(cskip v) | none => ⊤)
  have hgoal : expandCell a b calign cskip s a.length b.length =
      relax1 a.length b.length
        (relax1 a.length b.length
          (relax1 a.length b.length s a.length b.length c1 (a.length + 1) b.length)
          a.length b.length c2 (a.length + 1) (b.length + 1))
        a.length b.length c3 a.length (b.length + 1) := rfl
  rw [hgoal]
  have h1 : relax1 a.length b.length s a.length b.length c1
      (a.length + 1) b.length = s := by
    rcases relax1_spec a.length b.length s a.length b.length c1
      (a.length + 1) b.length with ⟨he, _⟩ | ⟨hx, _, _, _⟩
    · exact he
    · omega
  rw [h1]
  have h2 : relax1 a.length b.length s a.length b.length c2
      (a.length + 1) (b.length + 1) = s := by
    rcases relax1_spec a.length b.length s a.length b.length c2
      (a.length + 1) (b.length + 1) with ⟨he, _⟩ | ⟨hx, _, _, _⟩
    · exact he
    · omega
  rw [h2]
  rcases relax1_spec a.length b.length s a.length b.length c3
    a.length (b.length + 1) with ⟨he, _⟩ | ⟨_, hy, _, _⟩
  · exact he
  · omega

/-- A successful search run from a reachable state decomposes into a
reachable state whose minimal heap entry is the terminal cell; the final
state is that state minus the popped entry (the terminal expansion does
nothing). -/
theorem searchLoop_ok {a b : List α} {calign : α → α → ℚ} {cskip : α → ℚ} :
    ∀ {fuel : ℕ} {s : St} {S} {s' : St}, Trace a b calign cskip s S →
    searchLoop a b calign cskip fuel s = .ok s' →
    ∃ (s0 : St) (S0 : ℕ × ℕ → Option Cost) (d : Cost)
      (rest : List (Cost × ℕ × ℕ)), Trace a b calign cskip s0 S0 ∧
      popMin s0.heap = some ((d, a.length, b.length), rest) ∧
      s' = ⟨s0.D, s0.BT, rest⟩ := by
  intro fuel
  induction fuel with
  | zero =>
    intro s S s' _ hrun
    exact absurd hrun (by rw [searchLoop]; simp)
  | succ fuel ih =>
    intro s S s' hT hrun
    rw [searchLoop] at hrun
    rcases hp : popMin s.heap with _ | ⟨⟨d, x, y⟩, rest⟩
    · rw [hp] at hrun
      simp at hrun
    · rw [hp] at hrun
      dsimp only at hrun
      by_cases hxy : (x, y) = (a.length, b.length)
      · rw [if_pos hxy] at hrun
        obtain ⟨hx, hy⟩ : x = a.length ∧ y = b.length := by
          rw [Prod.mk.injEq] at hxy
          exact hxy
        subst hx; subst hy
        refine ⟨s, S, d, rest, hT, hp, ?_⟩
        have h2 := Except.ok.inj hrun
        rw [← h2]
        exact expandCell_end a b calign cskip ⟨s.D, s.BT, rest⟩
      · rw [if_neg hxy] at hrun
        exact ih (hT.step hp hxy) hrun

/-- One backtracking entry is exactly the entry of the recorded edge. -/
theorem btEntry_of_edge {a b : List α} {p : ℕ × ℕ} {x y : ℕ} {e}
    (hE : Edge a b p (x, y) e) : btEntry a b x y p.1 p.2 = .ok e := by
  cases hE with
  | skipA h =>
    show btEntry a b _ _ _ _ = _
    unfold btEntry
    rw [if_pos (by omega : _ < _ + 1), if_neg (lt_irrefl _),
      List.getElem?_eq_getElem h]
    rfl
  | alignE h1 h2 =>
    show btEntry a b _ _ _ _ = _
    unfold btEntry
    rw [if_pos (by omega : _ < _ + 1), if_pos (by omega : _ < _ + 1),
      List.getElem?_eq_getElem h1, List.getElem?_eq_getElem h2]
    rfl
  | skipB h =>
    show btEntry a b _ _ _ _ = _
    unfold btEntry
    rw [if_neg (lt_irrefl _), if_pos (by omega : _ < _ + 1),
      List.getElem?_eq_getElem h]
    rfl

/-- Correctness of the backtracking walk, with cost bookkeeping: under
the backtracking invariant, the walk from a reached cell returns, its
reversed output is a grid path from the origin to that cell, and its
cost is exactly the cell's `D`-value. -/
theorem backtrack_spec_cost {a b : List α} {calign : α → α → ℚ}
    {cskip : α → ℚ} {D : ℕ × ℕ → Cost} {BT : ℕ × ℕ → ℕ × ℕ}
    (hBT : ∀ v : ℕ × ℕ, v ≠ (0, 0) → D v ≠ ⊤ →
      ∃ e, Edge a b (BT v) v e ∧
        D v = ↑(entryCost calign cskip e) + D (BT v) ∧ D (BT v) ≠ ⊤)
    (hD00 : D (0, 0) = 0) :
    ∀ (N x y : ℕ), x + y ≤ N → D (x, y) ≠ ⊤ →
    ∀ (fuel : ℕ), x + y ≤ fuel → ∀ acc,
    ∃ l, backtrack a b BT fuel x y acc = .ok (acc ++ l) ∧
      Steps a b 0 0 l.reverse x y ∧
      (↑(alignCost calign cskip l.reverse) : Cost) = D (x, y) := by
  intro N
  induction N with
  | zero =>
    intro x y hN hD fuel hfuel acc
    obtain ⟨rfl, rfl⟩ : x = 0 ∧ y = 0 := by omega
    refine ⟨[], ?_, Steps.nil _ _, ?_⟩
    · rw [backtrack.eq_def]
      dsimp only
      rw [if_pos rfl, List.append_nil]
    · rw [List.reverse_nil, alignCost_nil, hD00]
      rfl
  | succ N ih =>
    intro x y hN hD fuel hfuel acc
    by_cases hxy : ((x, y) : ℕ × ℕ) = (0, 0)
    · obtain ⟨rfl, rfl⟩ : x = 0 ∧ y = 0 := by
        rw [Prod.mk.injEq] at hxy
        exact hxy
      refine ⟨[], ?_, Steps.nil _ _, ?_⟩
      · rw [backtrack.eq_def]
        dsimp only
        rw [if_pos rfl, List.append_nil]
      · rw [List.reverse_nil, alignCost_nil, hD00]
        rfl
    · obtain ⟨e, hE, heq, hpfin⟩ := hBT (x, y) hxy hD
      have hsum : (BT (x, y)).1 + (BT (x, y)).2 < x + y := by
        have := hE.sum_lt
        omega
      have hfuel1 : 1 ≤ fuel := by
        by_contra hcon
        have : fuel = 0 := by omega
        subst this
        have : x + y = 0 := by omega
        have : x = 0 ∧ y = 0 := by omega
        exact hxy (by rw [this.1, this.2])
      obtain ⟨fuel', rfl⟩ : ∃ f, fuel = f + 1 :=
        ⟨fuel - 1, by omega⟩
      obtain ⟨l', hrun, hsteps, hcost⟩ := ih (BT (x, y)).1 (BT (x, y)).2
        (by omega) hpfin fuel' (by omega) (acc ++ [e])
      refine ⟨e :: l', ?_, ?_, ?_⟩
      · rw [backtrack.eq_def]
        dsimp only
        rw [if_neg hxy]
        rw [btEntry_of_edge hE]
        dsimp only
        rw [hrun, List.append_assoc]
        rfl
      · rw [List.reverse_cons]
        have := hsteps.push_right (w := (x, y)) hE
        exact this
      · rw [List.reverse_cons, alignCost_append, alignCost_cons, alignCost_nil,
          add_zero, WithTop.coe_add, hcost, heq, add_comm]

/-- Correctness of the backtracking walk without cost bookkeeping
(valid for arbitrary cost functions): the reversed output is a grid path
from the origin. -/
theorem backtrack_spec {a b : List α} {D : ℕ × ℕ → Cost}
    {BT : ℕ × ℕ → ℕ × ℕ}
    (hBT : ∀ v : ℕ × ℕ, v ≠ (0, 0) → D v ≠ ⊤ →
      (∃ e, Edge a b (BT v) v e) ∧ D (BT v) ≠ ⊤) :
    ∀ (N x y : ℕ), x + y ≤ N → D (x, y) ≠ ⊤ →
    ∀ (fuel : ℕ), x + y ≤ fuel → ∀ acc,
    ∃ l, backtrack a b BT fuel x y acc = .ok (acc ++ l) ∧
      Steps a b 0 0 l.reverse x y := by
  intro N
  induction N with
  | zero =>
    intro x y hN hD fuel hfuel acc
    obtain ⟨rfl, rfl⟩ : x = 0 ∧ y = 0 := by omega
    refine ⟨[], ?_, Steps.nil _ _⟩
    rw [backtrack.eq_def]
    dsimp only
    rw [if_pos rfl, List.append_nil]
  | succ N ih =>
    intro x y hN hD fuel hfuel acc
    by_cases hxy : ((x, y) : ℕ × ℕ) = (0, 0)
    · obtain ⟨rfl, rfl⟩ : x = 0 ∧ y = 0 := by
        rw [Prod.mk.injEq] at hxy
        exact hxy
      refine ⟨[], ?_, Steps.nil _ _⟩
      rw [backtrack.eq_def]
      dsimp only
      rw [if_pos rfl, List.append_nil]
    · obtain ⟨⟨e, hE⟩, hpfin⟩ := hBT (x, y) hxy hD
      have hsum : (BT (x, y)).1 + (BT (x, y)).2 < x + y := by
        have := hE.sum_lt
        omega
      have hfuel1 : 1 ≤ fuel := by
        by_contra hcon
        have hx0 : fuel = 0 := by omega
        subst hx0
        have h1 : x = 0 ∧ y = 0 := by omega
        exact hxy (by rw [h1.1, h1.2])
      obtain ⟨fuel', rfl⟩ : ∃ f, fuel = f + 1 :=
        ⟨fuel - 1, by omega⟩
      obtain ⟨l', hrun, hsteps⟩ := ih (BT (x, y)).1 (BT (x, y)).2
        (by omega) hpfin fuel' (by omega) (acc ++ [e])
      refine ⟨e :: l', ?_, ?_⟩
      · rw [backtrack.eq_def]
        dsimp only
        rw [if_neg hxy]
        rw [btEntry_of_edge hE]
        dsimp only
        rw [hrun, List.append_assoc]
        rfl
      · rw [List.reverse_cons]
        exact hsteps.push_right (w := (x, y)) hE


/-! ## End-to-end correctness -/

/-- Decomposition of a successful `lazyAlign` run. -/
theorem lazyAlign_ok_elim {a b : List α} {calign : α → α → ℚ}
    {cskip : α → ℚ} {fuel : ℕ} {c : Cost} {l : List (Option α × Option α)}
    (hrun : lazyAlign a b calign cskip fuel = .ok (c, l)) :
    ∃ (s0 : St) (S0 : ℕ × ℕ → Option Cost) (d : Cost)
      (rest : List (Cost × ℕ × ℕ)) (al : List (Option α × Option α)),
      Trace a b calign cskip s0 S0 ∧
      popMin s0.heap = some ((d, a.length, b.length), rest) ∧
      backtrack a b s0.BT (a.length + b.length) a.length b.length [] = .ok al ∧
      c = s0.D (a.length, b.length) ∧ l = al.reverse := by
  unfold lazyAlign at hrun
  rcases hsr : searchLoop a b calign cskip fuel initSt with e | s
  · rw [hsr] at hrun
    simp at hrun
  · rw [hsr] at hrun
    dsimp only at hrun
    obtain ⟨s0, S0, d, rest, hT0, hpop, hs_eq⟩ := searchLoop_ok Trace.init hsr
    subst hs_eq
    rcases hbt : backtrack a b (St.mk s0.D s0.BT rest).BT
        (a.length + b.length) a.length b.length [] with e | al
    · rw [hbt] at hrun
      simp at hrun
    · rw [hbt] at hrun
      simp only [Except.ok.injEq, Prod.mk.injEq] at hrun
      obtain ⟨hc, hl⟩ := hrun
      exact ⟨s0, S0, d, rest, al, hT0, hpop, hbt, hc.symm, hl.symm⟩

/-- Any successful run returns a valid interleaving of the two inputs
(this needs no sign condition on the cost functions). -/
theorem lazyAlign_ok_valid {a b : List α} {calign : α → α → ℚ}
    {cskip : α → ℚ} {fuel : ℕ} {c : Cost} {l : List (Option α × Option α)}
    (hrun : lazyAlign a b calign cskip fuel = .ok (c, l)) :
    ValidAlignment a b l := by
  obtain ⟨s0, S0, d, rest, al, hT0, hpop, hbt, hc, hl⟩ := lazyAlign_ok_elim hrun
  have hI := hT0.inv0
  obtain ⟨hdT, hDle, hx, hy⟩ := hI.hfin _ (popMin_mem hpop)
  have hDend : s0.D (a.length, b.length) ≠ ⊤ := by
    intro hT
    rw [hT] at hDle
    exact hdT (top_le_iff.mp hDle)
  have hBT : ∀ v : ℕ × ℕ, v ≠ (0, 0) → s0.D v ≠ ⊤ →
      (∃ e, Edge a b (s0.BT v) v e) ∧ s0.D (s0.BT v) ≠ ⊤ :=
    fun v hv0 hv => hI.btOk v hv0 hv
  obtain ⟨l', hrun', hsteps⟩ := backtrack_spec hBT (a.length + b.length)
    a.length b.length (le_refl _) hDend (a.length + b.length) (le_refl _) []
  rw [hrun'] at hbt
  have hal : al = l' := by
    have := Except.ok.inj hbt
    rw [← this, List.nil_append]
  rw [hl, hal]
  exact validAlignment_iff_steps.mpr hsteps

/-- Main correctness under nonnegative costs: a successful run returns a
valid interleaving, the returned cost is the re-applied per-entry cost
sum of the returned alignment, and that sum is the least cost over all
valid interleavings. -/
theorem lazyAlign_ok_main {a b : List α} {calign : α → α → ℚ}
    {cskip : α → ℚ} (hca : ∀ x y, 0 ≤ calign x y) (hcs : ∀ x, 0 ≤ cskip x)
    {fuel : ℕ} {c : Cost} {l : List (Option α × Option α)}
    (hrun : lazyAlign a b calign cskip fuel = .ok (c, l)) :
    ValidAlignment a b l ∧ c = ↑(alignCost calign cskip l) ∧
    IsLeast {q : ℚ | ∃ l', ValidAlignment a b l' ∧
      alignCost calign cskip l' = q} (alignCost calign cskip l) := by
  obtain ⟨s0, S0, d, rest, al, hT0, hpop, hbt, hc, hl⟩ := lazyAlign_ok_elim hrun
  have hI := hT0.inv0
  have hN := hT0.invN hca hcs
  obtain ⟨hdT, hDle, hx, hy⟩ := hI.hfin _ (popMin_mem hpop)
  have hDend : s0.D (a.length, b.length) ≠ ⊤ := by
    intro hT
    rw [hT] at hDle
    exact hdT (top_le_iff.mp hDle)
  obtain ⟨q, hDq, hq⟩ := crossing hca hcs hI hN hpop
  have hBT : ∀ v : ℕ × ℕ, v ≠ (0, 0) → s0.D v ≠ ⊤ →
      ∃ e, Edge a b (s0.BT v) v e ∧
        s0.D v = ↑(entryCost calign cskip e) + s0.D (s0.BT v) ∧
        s0.D (s0.BT v) ≠ ⊤ := by
    intro v hv0 hv
    obtain ⟨e, hE, heq⟩ := hN.btCost v hv0 hv
    exact ⟨e, hE, heq, (hI.btOk v hv0 hv).2⟩
  obtain ⟨l', hrun', hsteps, hcost⟩ := backtrack_spec_cost hBT hI.d00
    (a.length + b.length) a.length b.length (le_refl _) hDend
    (a.length + b.length) (le_refl _) []
  rw [hrun'] at hbt
  have hal : al = l' := by
    have := Except.ok.inj hbt
    rw [← this, List.nil_append]
  have hlrev : l = l'.reverse := by rw [hl, hal]
  have hvalid : ValidAlignment a b l := by
    rw [hlrev]
    exact validAlignment_iff_steps.mpr hsteps
  have hcl : alignCost calign cskip l = q := by
    have h1 : (↑(alignCost calign cskip l) : Cost) = ↑q := by
      rw [hlrev, hcost, hDq]
    exact_mod_cast h1
  refine ⟨hvalid, ?_, ?_, ?_⟩
  · rw [hc, hDq, hcl]
  · exact ⟨l, hvalid, rfl⟩
  · rintro q' ⟨l'', hvalid'', rfl⟩
    rw [hcl]
    exact hq.lb (validAlignment_iff_steps.mp hvalid'')


/-! ## Termination: enumerating path costs and a decreasing measure -/

/-- All grid paths from the origin to `(x, y)`, enumerated by peeling
the last edge. -/
def allP (a b : List α) : ℕ → ℕ → List (List (Option α × Option α))
  | 0, 0 => [[]]
  | x + 1, 0 =>
    if h : x < a.length then
      (allP a b x 0).map (· ++ [(some a[x], none)])
    else []
  | 0, y + 1 =>
    if h : y < b.length then
      (allP a b 0 y).map (· ++ [(none, some b[y])])
    else []
  | x + 1, y + 1 =>
    (if h : x < a.length then
      (allP a b x (y + 1)).map (· ++ [(some a[x], none)])
    else []) ++
    (if h1 : x < a.length then
      if h2 : y < b.length then
        (allP a b x y).map (· ++ [(some a[x], some b[y])])
      else []
    else []) ++
    (if h : y < b.length then
      (allP a b (x + 1) y).map (· ++ [(none, some b[y])])
    else [])
  termination_by x y => x + y

/-- Every grid path from the origin is enumerated. -/
theorem allP_complete {a b : List α} :
    ∀ {x y : ℕ} {l}, Steps a b 0 0 l x y → l ∈ allP a b x y := by
  have main : ∀ (N x y : ℕ) (l : List (Option α × Option α)), x + y ≤ N →
      Steps a b 0 0 l x y → l ∈ allP a b x y := by
    intro N
    induction N with
    | zero =>
      intro x y l hN hs
      obtain ⟨rfl, rfl⟩ : x = 0 ∧ y = 0 := by omega
      rw [Steps.self_nil hs, allP]
      exact List.mem_singleton.mpr rfl
    | succ N ih =>
      intro x y l hN hs
      match x, y with
      | 0, 0 =>
        rw [Steps.self_nil hs, allP]
        exact List.mem_singleton.mpr rfl
      | x + 1, 0 =>
        rcases List.eq_nil_or_concat l with rfl | ⟨l', e, rfl⟩
        · cases hs
        · rw [List.concat_eq_append] at hs ⊢
          obtain ⟨p, r, hs', hE⟩ := Steps.concat_inv hs
          cases hE with
          | skipA h =>
            rw [allP, dif_pos h]
            exact List.mem_map.mpr ⟨l', ih _ _ _ (by omega) hs', rfl⟩
      | 0, y + 1 =>
        rcases List.eq_nil_or_concat l with rfl | ⟨l', e, rfl⟩
        · cases hs
        · rw [List.concat_eq_append] at hs ⊢
          obtain ⟨p, r, hs', hE⟩ := Steps.concat_inv hs
          cases hE with
          | skipB h =>
            rw [allP, dif_pos h]
            exact List.mem_map.mpr ⟨l', ih _ _ _ (by omega) hs', rfl⟩
      | x + 1, y + 1 =>
        rcases List.eq_nil_or_concat l with rfl | ⟨l', e, rfl⟩
        · cases hs
        · rw [List.concat_eq_append] at hs ⊢
          obtain ⟨p, r, hs', hE⟩ := Steps.concat_inv hs
          rw [allP]
          cases hE with
          | skipA h =>
            refine List.mem_append.mpr (Or.inl (List.mem_append.mpr (Or.inl ?_)))
            rw [dif_pos h]
            exact List.mem_map.mpr ⟨l', ih _ _ _ (by omega) hs', rfl⟩
          | alignE h1 h2 =>
            refine List.mem_append.mpr (Or.inl (List.mem_append.mpr (Or.inr ?_)))
            rw [dif_pos h1, dif_pos h2]
            exact List.mem_map.mpr ⟨l', ih _ _ _ (by omega) hs', rfl⟩
          | skipB h =>
            refine List.mem_append.mpr (Or.inr ?_)
            rw [dif_pos h]
            exact List.mem_map.mpr ⟨l', ih _ _ _ (by omega) hs', rfl⟩
  intro x y l hs
  exact main (x + y) x y l (le_refl _) hs

/-- The finitely many path costs that can reach `(x, y)`. -/
def pathCosts (a b : List α) (calign : α → α → ℚ) (cskip : α → ℚ)
    (x y : ℕ) : Finset ℚ :=
  ((allP a b x y).map (alignCost calign cskip)).toFinset

theorem pathCosts_mem {a b : List α} {calign : α → α → ℚ} {cskip : α → ℚ}
    {x y : ℕ} {l} (hs : Steps a b 0 0 l x y) :
    alignCost calign cskip l ∈ pathCosts a b calign cskip x y := by
  rw [pathCosts, List.mem_toFinset]
  exact List.mem_map.mpr ⟨l, allP_complete hs, rfl⟩

/-- Number of still-possible improvements of `D` at one cell. -/
def muCell (a b : List α) (calign : α → α → ℚ) (cskip : α → ℚ)
    (D : ℕ × ℕ → Cost) (v : ℕ × ℕ) : ℕ :=
  ((pathCosts a b calign cskip v.1 v.2).filter
    (fun q : ℚ => (↑q : Cost) < D v)).card

/-- The loop measure: twice the total number of possible improvements
plus the heap size.  Each pop removes one heap entry and each push pays
for itself by removing at least one possible improvement. -/
def mu (a b : List α) (calign : α → α → ℚ) (cskip : α → ℚ) (s : St) : ℕ :=
  2 * (∑ v ∈ (Finset.range (a.length + 1)) ×ˢ (Finset.range (b.length + 1)),
    muCell a b calign cskip s.D v) + s.heap.length


theorem muCell_eq {a b : List α} {calign : α → α → ℚ} {cskip : α → ℚ}
    (D : ℕ × ℕ → Cost) (v : ℕ × ℕ) (cv : Cost) (hv : D v = cv) :
    muCell a b calign cskip D v =
      ((pathCosts a b calign cskip v.1 v.2).filter
        (fun q : ℚ => (↑q : Cost) < cv)).card := by
  unfold muCell
  rw [hv]

/-- One relaxation never increases the measure: an unsuccessful attempt
changes nothing, and a push trades one extra heap entry against at least
one lost improvement possibility (counted twice). -/
theorem mu_relax1_le {a b : List α} {calign : α → α → ℚ} {cskip : α → ℚ}
    {t : St} {cx cy : ℕ} {c : Cost} {x y : ℕ}
    (hec : x ≤ a.length → y ≤ b.length →
      ∃ e, Edge a b (cx, cy) (x, y) e ∧ c = ↑(entryCost calign cskip e))
    (hpc : t.D (cx, cy) ≠ ⊤ →
      ∃ l, Steps a b 0 0 l cx cy ∧
        (↑(alignCost calign cskip l) : Cost) = t.D (cx, cy)) :
    mu a b calign cskip (relax1 a.length b.length t cx cy c x y) ≤
      mu a b calign cskip t := by
  rcases relax1_spec a.length b.length t cx cy c x y with ⟨he, _⟩ | ⟨hx, hy, hlt, he⟩
  · rw [he]
  · obtain ⟨e, hE, rfl⟩ := hec hx hy
    have hDc : t.D (cx, cy) ≠ ⊤ := by
      intro hT
      rw [hT, add_top] at hlt
      exact absurd hlt not_top_lt
    obtain ⟨l, hs, hc⟩ := hpc hDc
    have hnc : (↑(entryCost calign cskip e) : Cost) + t.D (cx, cy) =
        ↑(alignCost calign cskip (l ++ [e])) := by
      rw [alignCost_append, alignCost_cons, alignCost_nil, add_zero,
        WithTop.coe_add, hc, add_comm]
    have hmem : alignCost calign cskip (l ++ [e]) ∈
        pathCosts a b calign cskip x y :=
      pathCosts_mem (hs.push_right (w := (x, y)) hE)
    rw [he]
    set Dnew : ℕ × ℕ → Cost := fun p =>
      if p = (x, y) then ↑(entryCost calign cskip e) + t.D (cx, cy) else t.D p
      with hDnew
    set G := (Finset.range (a.length + 1)) ×ˢ (Finset.range (b.length + 1))
      with hG
    have hxyG : ((x, y) : ℕ × ℕ) ∈ G := by
      rw [hG, Finset.mem_product]
      exact ⟨Finset.mem_range.mpr (by omega), Finset.mem_range.mpr (by omega)⟩
    have hcard : muCell a b calign cskip Dnew (x, y) <
        muCell a b calign cskip t.D (x, y) := by
      rw [muCell_eq Dnew (x, y) (↑(entryCost calign cskip e) + t.D (cx, cy))
        (by rw [hDnew]; dsimp only; rw [if_pos rfl]),
        muCell_eq t.D (x, y) (t.D (x, y)) rfl]
      apply Finset.card_lt_card
      rw [Finset.ssubset_iff_of_subset]
      · refine ⟨alignCost calign cskip (l ++ [e]), ?_, ?_⟩
        · rw [Finset.mem_filter]
          exact ⟨hmem, by rw [← hnc]; exact hlt⟩
        · rw [Finset.mem_filter]
          intro hcon
          rw [← hnc] at hcon
          exact absurd hcon.2 (lt_irrefl _)
      · intro r hr
        rw [Finset.mem_filter] at hr ⊢
        exact ⟨hr.1, hr.2.trans hlt⟩
    have hsums : ∑ v ∈ G, muCell a b calign cskip Dnew v + 1 ≤
        ∑ v ∈ G, muCell a b calign cskip t.D v := by
      have h1 := (Finset.sum_erase_add G
        (muCell a b calign cskip Dnew) hxyG).symm
      have h2 := (Finset.sum_erase_add G
        (muCell a b calign cskip t.D) hxyG).symm
      have h3 : ∑ v ∈ G.erase (x, y), muCell a b calign cskip Dnew v =
          ∑ v ∈ G.erase (x, y), muCell a b calign cskip t.D v := by
        refine Finset.sum_congr rfl ?_
        intro v hv
        have hvne : v ≠ (x, y) := (Finset.mem_erase.mp hv).1
        rw [muCell_eq Dnew v (t.D v) (by rw [hDnew]; dsimp only; rw [if_neg hvne]),
          muCell_eq t.D v (t.D v) rfl]
      omega
    show 2 * (∑ v ∈ G, muCell a b calign cskip Dnew v) +
      ((↑(entryCost calign cskip e) + t.D (cx, cy), x, y) :: t.heap).length ≤
      2 * (∑ v ∈ G, muCell a b calign cskip t.D v) + t.heap.length
    rw [List.length_cons]
    omega

/-- An expansion never increases the measure. -/
theorem mu_expand_le (a b : List α) (calign : α → α → ℚ) (cskip : α → ℚ)
    (t0 : St) (cx cy : ℕ)
    (hpc : t0.D (cx, cy) ≠ ⊤ →
      ∃ l, Steps a b 0 0 l cx cy ∧
        (↑(alignCost calign cskip l) : Cost) = t0.D (cx, cy)) :
    mu a b calign cskip (expandCell a b calign cskip t0 cx cy) ≤
      mu a b calign cskip t0 := by
  set c1 : Cost := (match a[cx]? with | some u => ↑(cskip u) | none => ⊤) with hc1
  set c2 : Cost := (match a[cx]?, b[cy]? with
    | some u, some v => (↑(calign u v) : Cost)
    | _, _ => ⊤) with hc2
  set c3 : Cost := (match b[cy]? with | some v => ↑(cskip v) | none => ⊤) with hc3
  set t1 : St := relax1 a.length b.length t0 cx cy c1 (cx + 1) cy with ht1
  set t2 : St := relax1 a.length b.length t1 cx cy c2 (cx + 1) (cy + 1) with ht2
  have hgoal : expandCell a b calign cskip t0 cx cy =
      relax1 a.length b.length t2 cx cy c3 cx (cy + 1) := rfl
  rw [hgoal]
  have hD1 : t1.D (cx, cy) = t0.D (cx, cy) := by
    rw [ht1]
    exact relax1_D_other _ _ _ _ _ _ _ _ (pair_ne_fst (by omega))
  have hD2 : t2.D (cx, cy) = t0.D (cx, cy) := by
    rw [ht2]
    rw [relax1_D_other _ _ _ _ _ _ _ _ (pair_ne_snd (by omega))]
    exact hD1
  have hec1 : cx + 1 ≤ a.length → cy ≤ b.length →
      ∃ e, Edge a b (cx, cy) (cx + 1, cy) e ∧
        c1 = ↑(entryCost calign cskip e) := by
    intro hx _
    have h : cx < a.length := by omega
    exact ⟨(some a[cx], none), Edge.skipA h, by rw [hc1, costA_spec h]; rfl⟩
  have hec2 : cx + 1 ≤ a.length → cy + 1 ≤ b.length →
      ∃ e, Edge a b (cx, cy) (cx + 1, cy + 1) e ∧
        c2 = ↑(entryCost calign cskip e) := by
    intro hx hy
    have h1 : cx < a.length := by omega
    have h2 : cy < b.length := by omega
    exact ⟨(some a[cx], some b[cy]), Edge.alignE h1 h2,
      by rw [hc2, costAB_spec h1 h2]; rfl⟩
  have hec3 : cx ≤ a.length → cy + 1 ≤ b.length →
      ∃ e, Edge a b (cx, cy) (cx, cy + 1) e ∧
        c3 = ↑(entryCost calign cskip e) := by
    intro _ hy
    have h : cy < b.length := by omega
    exact ⟨(none, some b[cy]), Edge.skipB h, by rw [hc3, costB_spec h]; rfl⟩
  have hpc1 : t1.D (cx, cy) ≠ ⊤ →
      ∃ l, Steps a b 0 0 l cx cy ∧
        (↑(alignCost calign cskip l) : Cost) = t1.D (cx, cy) := by
    rw [hD1]
    exact hpc
  have hpc2 : t2.D (cx, cy) ≠ ⊤ →
      ∃ l, Steps a b 0 0 l cx cy ∧
        (↑(alignCost calign cskip l) : Cost) = t2.D (cx, cy) := by
    rw [hD2]
    exact hpc
  calc mu a b calign cskip (relax1 a.length b.length t2 cx cy c3 cx (cy + 1))
      ≤ mu a b calign cskip t2 := mu_relax1_le hec3 hpc2
    _ ≤ mu a b calign cskip t1 := by
        rw [ht2]
        exact mu_relax1_le hec2 hpc1
    _ ≤ mu a b calign cskip t0 := by
        rw [ht1]
        exact mu_relax1_le hec1 hpc

/-- One full loop iteration (pop plus expansion) strictly decreases the
measure. -/
theorem mu_pop_step {a b : List α} {calign : α → α → ℚ} {cskip : α → ℚ}
    {s : St} (hI : Inv0 a b calign cskip s) {d : Cost} {x y : ℕ} {rest}
    (hpop : popMin s.heap = some ((d, x, y), rest)) :
    mu a b calign cskip (expandCell a b calign cskip ⟨s.D, s.BT, rest⟩ x y) <
      mu a b calign cskip s := by
  have hlen : s.heap.length = rest.length + 1 := by
    have h := (popMin_perm hpop).length_eq
    rw [h, List.length_cons]
  have h1 := mu_expand_le a b calign cskip ⟨s.D, s.BT, rest⟩ x y
    (fun h => hI.pcost (x, y) h)
  have h2 : mu a b calign cskip (St.mk s.D s.BT rest) + 1 =
      mu a b calign cskip s := by
    unfold mu
    dsimp only
    rw [hlen]
    omega
  omega


/-- While the invariant holds, the heap is never empty: otherwise every
reached cell would have all edges relaxed, making the terminal cell
reached, and a reached terminal cell keeps a live heap entry. -/
theorem Inv0.heap_ne_nil {a b : List α} {calign : α → α → ℚ}
    {cskip : α → ℚ} {s : St} (hI : Inv0 a b calign cskip s) :
    s.heap ≠ [] := by
  intro hnil
  have hrel : ∀ v : ℕ × ℕ, s.D v ≠ ⊤ → RelaxedAll a b calign cskip s.D v := by
    intro v hv
    rcases hI.relaxInv v hv with h | h
    · exact h
    · rw [hnil] at h
      exact absurd h (List.not_mem_nil _)
  have hfin_step : ∀ (v w : ℕ × ℕ) e, Edge a b v w e → s.D v ≠ ⊤ →
      s.D w ≠ ⊤ := by
    intro v w e hE hv
    have h := hrel v hv w e hE
    intro hT
    rw [hT] at h
    obtain ⟨q, hq⟩ := WithTop.ne_top_iff_exists.mp hv
    rw [← hq, ← WithTop.coe_add] at h
    exact WithTop.not_top_le_coe _ h
  have hrow : ∀ i, i ≤ a.length → s.D (i, 0) ≠ ⊤ := by
    intro i
    induction i with
    | zero =>
      intro _
      rw [hI.d00]
      simp
    | succ i ih =>
      intro hi
      exact hfin_step (i, 0) (i + 1, 0) _ (Edge.skipA (by omega)) (ih (by omega))
  have hcol : ∀ j, j ≤ b.length → s.D (a.length, j) ≠ ⊤ := by
    intro j
    induction j with
    | zero =>
      intro _
      exact hrow a.length (le_refl _)
    | succ j ih =>
      intro hj
      exact hfin_step (a.length, j) (a.length, j + 1) _ (Edge.skipB (by omega))
        (ih (by omega))
  have hend := hI.endEnt (hcol b.length (le_refl _))
  rw [hnil] at hend
  exact absurd hend (List.not_mem_nil _)

/-- The search loop never pops from an empty heap when started from a
reachable state. -/
theorem searchLoop_not_emptyHeap {a b : List α} {calign : α → α → ℚ}
    {cskip : α → ℚ} :
    ∀ (fuel : ℕ) {s S}, Trace a b calign cskip s S →
      searchLoop a b calign cskip fuel s ≠ .error .emptyHeap := by
  intro fuel
  induction fuel with
  | zero =>
    intro s S _
    rw [searchLoop]
    simp
  | succ fuel ih =>
    intro s S hT
    rw [searchLoop]
    rcases hp : popMin s.heap with _ | ⟨⟨d, x, y⟩, rest⟩
    · exact absurd (popMin_eq_none.mp hp) hT.inv0.heap_ne_nil
    · dsimp only
      by_cases hxy : (x, y) = (a.length, b.length)
      · rw [if_pos hxy]
        simp
      · rw [if_neg hxy]
        exact ih (hT.step hp hxy)

/-- The search loop can only fail with `fuel` or `emptyHeap`. -/
theorem searchLoop_err {a b : List α} {calign : α → α → ℚ} {cskip : α → ℚ} :
    ∀ (fuel : ℕ) (s : St) {e}, searchLoop a b calign cskip fuel s = .error e →
      e = .fuel ∨ e = .emptyHeap := by
  intro fuel
  induction fuel with
  | zero =>
    intro s e h
    rw [searchLoop] at h
    exact Or.inl (Except.error.inj h).symm
  | succ fuel ih =>
    intro s e h
    rw [searchLoop] at h
    rcases hp : popMin s.heap with _ | ⟨⟨d, x, y⟩, rest⟩
    · rw [hp] at h
      exact Or.inr (Except.error.inj h).symm
    · rw [hp] at h
      dsimp only at h
      by_cases hxy : (x, y) = (a.length, b.length)
      · rw [if_pos hxy] at h
        exact absurd h (by simp)
      · rw [if_neg hxy] at h
        exact ih _ h

/-- With more fuel than the measure of the start state, the search loop
does not run out of fuel. -/
theorem searchLoop_not_fuel {a b : List α} {calign : α → α → ℚ}
    {cskip : α → ℚ} :
    ∀ (fuel : ℕ) {s S}, Trace a b calign cskip s S →
      mu a b calign cskip s < fuel →
      searchLoop a b calign cskip fuel s ≠ .error .fuel := by
  intro fuel
  induction fuel with
  | zero =>
    intro s S _ hmu
    exact absurd hmu (by omega)
  | succ fuel ih =>
    intro s S hT hmu
    rw [searchLoop]
    rcases hp : popMin s.heap with _ | ⟨⟨d, x, y⟩, rest⟩
    · simp
    · dsimp only
      by_cases hxy : (x, y) = (a.length, b.length)
      · rw [if_pos hxy]
        simp
      · rw [if_neg hxy]
        apply ih (hT.step hp hxy)
        have := mu_pop_step hT.inv0 hp
        omega

/-- The search loop terminates: enough fuel yields a successful run. -/
theorem searchLoop_terminates (a b : List α) (calign : α → α → ℚ)
    (cskip : α → ℚ) :
    ∃ (fuel : ℕ) (s' : St),
      searchLoop a b calign cskip fuel initSt = .ok s' := by
  set fuel := mu a b calign cskip initSt + 1 with hfuel
  rcases hr : searchLoop a b calign cskip fuel initSt with e | s'
  · exfalso
    rcases searchLoop_err fuel initSt hr with rfl | rfl
    · exact searchLoop_not_fuel fuel Trace.init (by omega) hr
    · exact searchLoop_not_emptyHeap fuel Trace.init hr
  · exact ⟨fuel, s', hr⟩

/-- Full termination: for every pair of finite sequences and every pair
of total cost functions there is enough fuel for `lazyAlign` to return
successfully. -/
theorem lazyAlign_terminates (a b : List α) (calign : α → α → ℚ)
    (cskip : α → ℚ) :
    ∃ (fuel : ℕ) (c : Cost) (l : List (Option α × Option α)),
      lazyAlign a b calign cskip fuel = .ok (c, l) := by
  obtain ⟨fuel, s', hr⟩ := searchLoop_terminates a b calign cskip
  obtain ⟨s0, S0, d, rest, hT0, hpop, hs'eq⟩ := searchLoop_ok Trace.init hr
  subst hs'eq
  have hI := hT0.inv0
  obtain ⟨hdT, hDle, hx, hy⟩ := hI.hfin _ (popMin_mem hpop)
  have hDend : s0.D (a.length, b.length) ≠ ⊤ := by
    intro hT
    rw [hT] at hDle
    exact hdT (top_le_iff.mp hDle)
  obtain ⟨l', hrun', hsteps⟩ := backtrack_spec
    (fun v hv0 hv => hI.btOk v hv0 hv) (a.length + b.length)
    a.length b.length (le_refl _) hDend (a.length + b.length) (le_refl _) []
  rw [List.nil_append] at hrun'
  refine ⟨fuel, s0.D (a.length, b.length), l'.reverse, ?_⟩
  unfold lazyAlign
  rw [hr]
  dsimp only
  rw [hrun']

/-- The out-of-bounds branch of the embedding is unreachable: no amount
of fuel makes `lazyAlign` fail with an out-of-bounds index. -/
theorem lazyAlign_not_oob (a b : List α) (calign : α → α → ℚ)
    (cskip : α → ℚ) (fuel : ℕ) :
    lazyAlign a b calign cskip fuel ≠ .error .oob := by
  unfold lazyAlign
  rcases hr : searchLoop a b calign cskip fuel initSt with e | s'
  · dsimp only
    intro hcon
    have he := Except.error.inj hcon
    rcases searchLoop_err fuel initSt hr with rfl | rfl <;> exact Err.noConfusion he
  · obtain ⟨s0, S0, d, rest, hT0, hpop, hs'eq⟩ := searchLoop_ok Trace.init hr
    subst hs'eq
    have hI := hT0.inv0
    obtain ⟨hdT, hDle, hx, hy⟩ := hI.hfin _ (popMin_mem hpop)
    have hDend : s0.D (a.length, b.length) ≠ ⊤ := by
      intro hT
      rw [hT] at hDle
      exact hdT (top_le_iff.mp hDle)
    obtain ⟨l', hrun', hsteps⟩ := backtrack_spec
      (fun v hv0 hv => hI.btOk v hv0 hv) (a.length + b.length)
      a.length b.length (le_refl _) hDend (a.length + b.length) (le_refl _) []
    rw [List.nil_append] at hrun'
    dsimp only
    rw [hrun']
    simp

/-- No amount of fuel makes `lazyAlign` pop from an empty heap. -/
theorem lazyAlign_not_emptyHeap (a b : List α) (calign : α → α → ℚ)
    (cskip : α → ℚ) (fuel : ℕ) :
    lazyAlign a b calign cskip fuel ≠ .error .emptyHeap := by
  unfold lazyAlign
  rcases hr : searchLoop a b calign cskip fuel initSt with e | s'
  · dsimp only
    intro hcon
    have he := Except.error.inj hcon
    rw [he] at hr
    exact searchLoop_not_emptyHeap fuel Trace.init hr
  · obtain ⟨s0, S0, d, rest, hT0, hpop, hs'eq⟩ := searchLoop_ok Trace.init hr
    subst hs'eq
    have hI := hT0.inv0
    obtain ⟨hdT, hDle, hx, hy⟩ := hI.hfin _ (popMin_mem hpop)
    have hDend : s0.D (a.length, b.length) ≠ ⊤ := by
      intro hT
      rw [hT] at hDle
      exact hdT (top_le_iff.mp hDle)
    obtain ⟨l', hrun', hsteps⟩ := backtrack_spec
      (fun v hv0 hv => hI.btOk v hv0 hv) (a.length + b.length)
      a.length b.length (le_refl _) hDend (a.length + b.length) (le_refl _) []
    rw [List.nil_append] at hrun'
    dsimp only
    rw [hrun']
    simp

/-! ## Fuel monotonicity -/

/-- A successful search run still succeeds, with the same result, when
given one more unit of fuel. -/
theorem searchLoop_succ {a b : List α} {calign : α → α → ℚ}
    {cskip : α → ℚ} : ∀ {fuel : ℕ} {s t : St},
    searchLoop a b calign cskip fuel s = .ok t →
    searchLoop a b calign cskip (fuel + 1) s = .ok t := by
  intro fuel
  induction fuel with
  | zero =>
    intro s t h
    exact absurd h (by rw [searchLoop]; simp)
  | succ f ih =>
    intro s t h
    rw [searchLoop] at h ⊢
    rcases hp : popMin s.heap with _ | ⟨⟨d, x, y⟩, rest⟩
    · rw [hp] at h
      simp at h
    · rw [hp] at h
      dsimp only at h ⊢
      by_cases hxy : ((x, y) : ℕ × ℕ) = (a.length, b.length)
      · rw [if_pos hxy] at h ⊢
        exact h
      · rw [if_neg hxy] at h ⊢
        exact ih h

/-- Fuel monotonicity of the search loop. -/
theorem searchLoop_mono {a b : List α} {calign : α → α → ℚ}
    {cskip : α → ℚ} {fuel fuel' : ℕ} (hle : fuel ≤ fuel') {s t : St}
    (h : searchLoop a b calign cskip fuel s = .ok t) :
    searchLoop a b calign cskip fuel' s = .ok t := by
  obtain ⟨k, rfl⟩ := Nat.exists_eq_add_of_le hle
  clear hle
  induction k with
  | zero => exact h
  | succ k ih => exact searchLoop_succ ih

/-- Fuel monotonicity of the whole call: once `lazyAlign` succeeds it
returns the same result with any larger fuel. -/
theorem lazyAlign_mono {a b : List α} {calign : α → α → ℚ}
    {cskip : α → ℚ} {fuel fuel' : ℕ} (hle : fuel ≤ fuel')
    {r} (h : lazyAlign a b calign cskip fuel = .ok r) :
    lazyAlign a b calign cskip fuel' = .ok r := by
  unfold lazyAlign at h ⊢
  rcases hsr : searchLoop a b calign cskip fuel initSt with e | s
  · rw [hsr] at h
    simp at h
  · rw [hsr] at h
    rw [searchLoop_mono hle hsr]
    exact h

/-! ## Single loop iterations on explicitly given states -/

/-- One non-terminal loop iteration, with the state given by explicit
components. -/
theorem searchLoop_step1 {a b : List α} {calign : α → α → ℚ}
    {cskip : α → ℚ} (fuel : ℕ) (D : ℕ × ℕ → Cost) (BT : ℕ × ℕ → ℕ × ℕ)
    (heap : List (Cost × ℕ × ℕ)) {c : Cost} {x y : ℕ}
    {rest : List (Cost × ℕ × ℕ)}
    (hpop : popMin heap = some ((c, x, y), rest))
    (hne : ((x, y) : ℕ × ℕ) ≠ (a.length, b.length)) :
    searchLoop a b calign cskip (fuel + 1) ⟨D, BT, heap⟩ =
      searchLoop a b calign cskip fuel
        (expandCell a b calign cskip ⟨D, BT, rest⟩ x y) := by
  rw [searchLoop]
  dsimp only
  rw [hpop]
  dsimp only
  rw [if_neg hne]

/-- The terminal loop iteration: popping the terminal cell stops the
loop, and expanding the terminal cell changes nothing. -/
theorem searchLoop_last1 {a b : List α} {calign : α → α → ℚ}
    {cskip : α → ℚ} (fuel : ℕ) (D : ℕ × ℕ → Cost) (BT : ℕ × ℕ → ℕ × ℕ)
    (heap : List (Cost × ℕ × ℕ)) {c : Cost}
    {rest : List (Cost × ℕ × ℕ)}
    (hpop : popMin heap = some ((c, a.length, b.length), rest)) :
    searchLoop a b calign cskip (fuel + 1) ⟨D, BT, heap⟩ =
      .ok ⟨D, BT, rest⟩ := by
  rw [searchLoop]
  dsimp only
  rw [hpop]
  dsimp only
  rw [if_pos rfl]
  exact congrArg Except.ok (expandCell_end a b calign cskip ⟨D, BT, rest⟩)

/-! ## Cells outside the grid are never touched -/

/-- A relaxation never writes outside the `(n+1) × (m+1)` grid. -/
theorem relax1_out (n m : ℕ) (t : St) (cx cy : ℕ) (c : Cost) (x y : ℕ)
    {p : ℕ × ℕ} (hp : n < p.1 ∨ m < p.2) :
    (relax1 n m t cx cy c x y).D p = t.D p ∧
    (relax1 n m t cx cy c x y).BT p = t.BT p := by
  rcases relax1_spec n m t cx cy c x y with ⟨he, _⟩ | ⟨hx, hy, _, he⟩
  · rw [he]
    exact ⟨rfl, rfl⟩
  · have hne : p ≠ (x, y) := by
      rintro rfl
      dsimp only at hp
      omega
    rw [he]
    refine ⟨?_, ?_⟩ <;> dsimp only <;> rw [if_neg hne]

/-- An expansion never writes outside the grid either. -/
theorem expandCell_out {a b : List α} (calign : α → α → ℚ)
    (cskip : α → ℚ) (s : St) (cx cy : ℕ) {p : ℕ × ℕ}
    (hp : a.length < p.1 ∨ b.length < p.2) :
    (expandCell a b calign cskip s cx cy).D p = s.D p ∧
    (expandCell a b calign cskip s cx cy).BT p = s.BT p := by
  set c1 : Cost := (match a[cx]? with | some u => ↑(cskip u) | none => ⊤)
  set c2 : Cost := (match a[cx]?, b[cy]? with
    | some u, some v => (↑(calign u v) : Cost)
    | _, _ => ⊤)
  set c3 : Cost := (match b[cy]? with | some v => ↑(cskip v) | none => ⊤)
  have hgoal : expandCell a b calign cskip s cx cy =
      relax1 a.length b.length
        (relax1 a.length b.length
          (relax1 a.length b.length s cx cy c1 (cx + 1) cy)
          cx cy c2 (cx + 1) (cy + 1))
        cx cy c3 cx (cy + 1) := rfl
  rw [hgoal]
  obtain ⟨hD3, hB3⟩ := relax1_out a.length b.length _ cx cy c3 cx (cy + 1) hp
  obtain ⟨hD2, hB2⟩ := relax1_out a.length b.length _ cx cy c2
    (cx + 1) (cy + 1) hp
  obtain ⟨hD1, hB1⟩ := relax1_out a.length b.length s cx cy c1 (cx + 1) cy hp
  exact ⟨hD3.trans (hD2.trans hD1), hB3.trans (hB2.trans hB1)⟩

/-! ## Finite-table representation of reachable states

During a run on concrete inputs every reachable state stores `⊤` (resp.
the numpy-`zeros` default `(0, 0)`) outside a finite set of grid cells,
so it can be represented by finite association tables.  This lets each
loop iteration of a concrete run be checked by evaluation. -/

/-- A cost table given by a finite association list; unlisted cells hold
`⊤`, mirroring the `D` initialisation. -/
def tblD (d : List ((ℕ × ℕ) × ℚ)) : ℕ × ℕ → Cost := fun p =>
  match d.find? (fun e => decide (e.1 = p)) with
  | some e => ↑e.2
  | none => ⊤

/-- A backtracking table given by a finite association list; unlisted
cells hold the numpy-`zeros` default `(0, 0)`. -/
def tblBT (bt : List ((ℕ × ℕ) × (ℕ × ℕ))) : ℕ × ℕ → ℕ × ℕ := fun p =>
  match bt.find? (fun e => decide (e.1 = p)) with
  | some e => e.2
  | none => (0, 0)

theorem tblD_out {d : List ((ℕ × ℕ) × ℚ)} {n m : ℕ}
    (hd : ∀ e ∈ d, e.1.1 ≤ n ∧ e.1.2 ≤ m) {p : ℕ × ℕ}
    (hp : n < p.1 ∨ m < p.2) : tblD d p = ⊤ := by
  unfold tblD
  have hnone : d.find? (fun e => decide (e.1 = p)) = none := by
    rw [List.find?_eq_none]
    intro e he hdec
    rw [decide_eq_true_eq] at hdec
    have hb := hd e he
    rw [hdec] at hb
    omega
  rw [hnone]

theorem tblBT_out {bt : List ((ℕ × ℕ) × (ℕ × ℕ))} {n m : ℕ}
    (hbt : ∀ e ∈ bt, e.1.1 ≤ n ∧ e.1.2 ≤ m) {p : ℕ × ℕ}
    (hp : n < p.1 ∨ m < p.2) : tblBT bt p = (0, 0) := by
  unfold tblBT
  have hnone : bt.find? (fun e => decide (e.1 = p)) = none := by
    rw [List.find?_eq_none]
    intro e he hdec
    rw [decide_eq_true_eq] at hdec
    have hb := hbt e he
    rw [hdec] at hb
    omega
  rw [hnone]

/-- Tables with in-grid keys agree with the defaults outside the grid. -/
theorem tbl_hout {n m : ℕ} {d : List ((ℕ × ℕ) × ℚ)}
    {bt : List ((ℕ × ℕ) × (ℕ × ℕ))}
    (hd : ∀ e ∈ d, e.1.1 ≤ n ∧ e.1.2 ≤ m)
    (hbt : ∀ e ∈ bt, e.1.1 ≤ n ∧ e.1.2 ≤ m) :
    ∀ p : ℕ × ℕ, n < p.1 ∨ m < p.2 →
      tblD d p = ⊤ ∧ tblBT bt p = (0, 0) :=
  fun p hp => ⟨tblD_out hd hp, tblBT_out hbt hp⟩

/-- The initial tables also agree with the defaults outside the grid. -/
theorem init_hout (n m : ℕ) : ∀ p : ℕ × ℕ, n < p.1 ∨ m < p.2 →
    initSt.D p = ⊤ ∧ initSt.BT p = (0, 0) := by
  intro p hp
  refine ⟨?_, rfl⟩
  show (if p = (0, 0) then (0 : Cost) else ⊤) = ⊤
  rw [if_neg]
  rintro rfl
  dsimp only at hp
  omega

/-- One expansion maps a finitely-represented state to a
finitely-represented state: it suffices to check the claimed result
tables on every grid cell (a finite, decidable check) plus the claimed
heap, because no cell outside the grid is ever written. -/
theorem step_tbl {a b : List α} {calign : α → α → ℚ} {cskip : α → ℚ}
    {D0 : ℕ × ℕ → Cost} {BT0 : ℕ × ℕ → ℕ × ℕ}
    {d2 : List ((ℕ × ℕ) × ℚ)} {bt2 : List ((ℕ × ℕ) × (ℕ × ℕ))}
    {rest h2 : List (Cost × ℕ × ℕ)} {x y : ℕ}
    (hout : ∀ p : ℕ × ℕ, a.length < p.1 ∨ b.length < p.2 →
      D0 p = ⊤ ∧ BT0 p = (0, 0))
    (hd2 : ∀ e ∈ d2, e.1.1 ≤ a.length ∧ e.1.2 ≤ b.length)
    (hbt2 : ∀ e ∈ bt2, e.1.1 ≤ a.length ∧ e.1.2 ≤ b.length)
    (hin : ∀ i < a.length + 1, ∀ j < b.length + 1,
      (expandCell a b calign cskip ⟨D0, BT0, rest⟩ x y).D (i, j) =
        tblD d2 (i, j) ∧
      (expandCell a b calign cskip ⟨D0, BT0, rest⟩ x y).BT (i, j) =
        tblBT bt2 (i, j))
    (hh : (expandCell a b calign cskip ⟨D0, BT0, rest⟩ x y).heap = h2) :
    expandCell a b calign cskip ⟨D0, BT0, rest⟩ x y =
      ⟨tblD d2, tblBT bt2, h2⟩ := by
  have hD : (expandCell a b calign cskip ⟨D0, BT0, rest⟩ x y).D =
      tblD d2 := by
    funext p
    rcases p with ⟨i, j⟩
    by_cases hp : i ≤ a.length ∧ j ≤ b.length
    · exact (hin i (by omega) j (by omega)).1
    · have hp2 : a.length < (⟨i, j⟩ : ℕ × ℕ).1 ∨
          b.length < (⟨i, j⟩ : ℕ × ℕ).2 := by
        dsimp only
        omega
      obtain ⟨hDo, _⟩ := expandCell_out calign cskip ⟨D0, BT0, rest⟩ x y hp2
      rw [hDo]
      show D0 _ = _
      rw [(hout _ hp2).1, tblD_out hd2 hp2]
  have hB : (expandCell a b calign cskip ⟨D0, BT0, rest⟩ x y).BT =
      tblBT bt2 := by
    funext p
    rcases p with ⟨i, j⟩
    by_cases hp : i ≤ a.length ∧ j ≤ b.length
    · exact (hin i (by omega) j (by omega)).2
    · have hp2 : a.length < (⟨i, j⟩ : ℕ × ℕ).1 ∨
          b.length < (⟨i, j⟩ : ℕ × ℕ).2 := by
        dsimp only
        omega
      obtain ⟨_, hBo⟩ := expandCell_out calign cskip ⟨D0, BT0, rest⟩ x y hp2
      rw [hBo]
      show BT0 _ = _
      rw [(hout _ hp2).2, tblBT_out hbt2 hp2]
  calc expandCell a b calign cskip ⟨D0, BT0, rest⟩ x y
      = ⟨(expandCell a b calign cskip ⟨D0, BT0, rest⟩ x y).D,
         (expandCell a b calign cskip ⟨D0, BT0, rest⟩ x y).BT,
         (expandCell a b calign cskip ⟨D0, BT0, rest⟩ x y).heap⟩ := rfl
    _ = ⟨tblD d2, tblBT bt2, h2⟩ := by rw [hD, hB, hh]

/-! ## The concrete run on `"smarts"` and `"cat"`

Edit-distance costs: aligning distinct characters costs `1`, aligning
equal characters is free, skipping costs `1`.  The search pops `21`
cells; each iteration is certified by a decidable check of the popped
entry and of the finitely-represented successor state, and the
backtracking walk is then evaluated directly. -/

attribute [local semireducible] Rat.add Rat.mul Rat.sub

deriving instance DecidableEq for Except

def c6a : List Char := "smarts".toList

def c6b : List Char := "cat".toList

def c6cal : Char → Char → ℚ := fun x y => if x = y then 0 else 1

def c6cs : Char → ℚ := fun _ => 1

def c6h0 : List (Cost × ℕ × ℕ) := [((0 : ℚ), 0, 0)]

def c6r0 : List (Cost × ℕ × ℕ) := []
def c6d1 : List ((ℕ × ℕ) × ℚ) :=[((0, 0), 0), ((0, 1), 1), ((1, 0), 1), ((1, 1), 1)]

def c6bt1 : List ((ℕ × ℕ) × (ℕ × ℕ)) :=[]

def c6h1 : List (Cost × ℕ × ℕ) :=
  [(((1 : ℚ) : Cost), 0, 1), (((1 : ℚ) : Cost), 1, 1), (((1 : ℚ) : Cost), 1, 0)]

def c6d2 : List ((ℕ × ℕ) × ℚ) :=
  [((0, 0), 0), ((0, 1), 1), ((1, 0), 1), ((1, 1), 1), ((1, 2), 2), ((2, 1), 2), ((2, 2), 2)]

def c6bt2 : List ((ℕ × ℕ) × (ℕ × ℕ)) :=[((1, 2), (1, 1)), ((2, 1), (1, 1)), ((2, 2), (1, 1))]

def c6h2 : List (Cost × ℕ × ℕ) :=
  [(((2 : ℚ) : Cost), 1, 2), (((2 : ℚ) : Cost), 2, 2), (((2 : ℚ) : Cost), 2, 1),
   (((1 : ℚ) : Cost), 0, 1), (((1 : ℚ) : Cost), 1, 0)]

def c6r1 : List (Cost × ℕ × ℕ) :=[(((1 : ℚ) : Cost), 0, 1), (((1 : ℚ) : Cost), 1, 0)]

def c6d3 : List ((ℕ × ℕ) × ℚ) :=
  [((0, 0), 0), ((0, 1), 1), ((1, 0), 1), ((1, 1), 1), ((1, 2), 2), ((2, 0), 2), ((2, 1), 2),
   ((2, 2), 2)]

def c6bt3 : List ((ℕ × ℕ) × (ℕ × ℕ)) :=
  [((1, 2), (1, 1)), ((2, 0), (1, 0)), ((2, 1), (1, 1)), ((2, 2), (1, 1))]

def c6h3 : List (Cost × ℕ × ℕ) :=
  [(((2 : ℚ) : Cost), 2, 0), (((2 : ℚ) : Cost), 1, 2), (((2 : ℚ) : Cost), 2, 2),
   (((2 : ℚ) : Cost), 2, 1), (((1 : ℚ) : Cost), 0, 1)]

def c6r2 : List (Cost × ℕ × ℕ) :=
  [(((2 : ℚ) : Cost), 1, 2), (((2 : ℚ) : Cost), 2, 2), (((2 : ℚ) : Cost), 2, 1),
   (((1 : ℚ) : Cost), 0, 1)]

def c6d4 : List ((ℕ × ℕ) × ℚ) :=
  [((0, 0), 0), ((0, 1), 1), ((0, 2), 2), ((1, 0), 1), ((1, 1), 1), ((1, 2), 2), ((2, 0), 2),
   ((2, 1), 2), ((2, 2), 2)]

def c6bt4 : List ((ℕ × ℕ) × (ℕ × ℕ)) :=
  [((0, 2), (0, 1)), ((1, 2), (1, 1)), ((2, 0), (1, 0)), ((2, 1), (1, 1)), ((2, 2), (1, 1))]

def c6h4 : List (Cost × ℕ × ℕ) :=
  [(((2 : ℚ) : Cost), 0, 2), (((2 : ℚ) : Cost), 2, 0), (((2 : ℚ) : Cost), 1, 2),
   (((2 : ℚ) : Cost), 2, 2), (((2 : ℚ) : Cost), 2, 1)]

def c6r3 : List (Cost × ℕ × ℕ) :=
  [(((2 : ℚ) : Cost), 2, 0), (((2 : ℚ) : Cost), 1, 2), (((2 : ℚ) : Cost), 2, 2),
   (((2 : ℚ) : Cost), 2, 1)]

def c6d5 : List ((ℕ × ℕ) × ℚ) :=
  [((0, 0), 0), ((0, 1), 1), ((0, 2), 2), ((1, 0), 1), ((1, 1), 1), ((1, 2), 2), ((2, 0), 2),
   ((2, 1), 2), ((2, 2), 2), ((2, 3), 3), ((3, 2), 3), ((3, 3), 3)]

def c6bt5 : List ((ℕ × ℕ) × (ℕ × ℕ)) :=
  [((0, 2), (0, 1)), ((1, 2), (1, 1)), ((2, 0), (1, 0)), ((2, 1), (1, 1)), ((2, 2), (1, 1)),
   ((2, 3), (2, 2)), ((3, 2), (2, 2)), ((3, 3), (2, 2))]

def c6h5 : List (Cost × ℕ × ℕ) :=
  [(((3 : ℚ) : Cost), 2, 3), (((3 : ℚ) : Cost), 3, 3), (((3 : ℚ) : Cost), 3, 2),
   (((2 : ℚ) : Cost), 0, 2), (((2 : ℚ) : Cost), 2, 0), (((2 : ℚ) : Cost), 1, 2),
   (((2 : ℚ) : Cost), 2, 1)]

def c6r4 : List (Cost × ℕ × ℕ) :=
  [(((2 : ℚ) : Cost), 0, 2), (((2 : ℚ) : Cost), 2, 0), (((2 : ℚ) : Cost), 1, 2),
   (((2 : ℚ) : Cost), 2, 1)]

def c6d6 : List ((ℕ × ℕ) × ℚ) :=
  [((0, 0), 0), ((0, 1), 1), ((0, 2), 2), ((1, 0), 1), ((1, 1), 1), ((1, 2), 2), ((2, 0), 2),
   ((2, 1), 2), ((2, 2), 2), ((2, 3), 3), ((3, 1), 3), ((3, 2), 2), ((3, 3), 3)]

def c6bt6 : List ((ℕ × ℕ) × (ℕ × ℕ)) :=
  [((0, 2), (0, 1)), ((1, 2), (1, 1)), ((2, 0), (1, 0)), ((2, 1), (1, 1)), ((2, 2), (1, 1)),
   ((2, 3), (2, 2)), ((3, 1), (2, 1)), ((3, 2), (2, 1)), ((3, 3), (2, 2))]

def c6h6 : List (Cost × ℕ × ℕ) :=
  [(((2 : ℚ) : Cost), 3, 2), (((3 : ℚ) : Cost), 3, 1), (((3 : ℚ) : Cost), 2, 3),
   (((3 : ℚ) : Cost), 3, 3), (((3 : ℚ) : Cost), 3, 2), (((2 : ℚ) : Cost), 0, 2),
   (((2 : ℚ) : Cost), 2, 0), (((2 : ℚ) : Cost), 1, 2)]

def c6r5 : List (Cost × ℕ × ℕ) :=
  [(((3 : ℚ) : Cost), 2, 3), (((3 : ℚ) : Cost), 3, 3), (((3 : ℚ) : Cost), 3, 2),
   (((2 : ℚ) : Cost), 0, 2), (((2 : ℚ) : Cost), 2, 0), (((2 : ℚ) : Cost), 1, 2)]

def c6d7 : List ((ℕ × ℕ) × ℚ) :=
  [((0, 0), 0), ((0, 1), 1), ((0, 2), 2), ((1, 0), 1), ((1, 1), 1), ((1, 2), 2), ((2, 0), 2),
   ((2, 1), 2), ((2, 2), 2), ((2, 3), 3), ((3, 1), 3), ((3, 2), 2), ((3, 3), 3), ((4, 2), 3),
   ((4, 3), 3)]

def c6bt7 : List ((ℕ × ℕ) × (ℕ × ℕ)) :=
  [((0, 2), (0, 1)), ((1, 2), (1, 1)), ((2, 0), (1, 0)), ((2, 1), (1, 1)), ((2, 2), (1, 1)),
   ((2, 3), (2, 2)), ((3, 1), (2, 1)), ((3, 2), (2, 1)), ((3, 3), (2, 2)), ((4, 2), (3, 2)),
   ((4, 3), (3, 2))]

def c6h7 : List (Cost × ℕ × ℕ) :=
  [(((3 : ℚ) : Cost), 4, 3), (((3 : ℚ) : Cost), 4, 2), (((3 : ℚ) : Cost), 3, 1),
   (((3 : ℚ) : Cost), 2, 3), (((3 : ℚ) : Cost), 3, 3), (((3 : ℚ) : Cost), 3, 2),
   (((2 : ℚ) : Cost), 0, 2), (((2 : ℚ) : Cost), 2, 0), (((2 : ℚ) : Cost), 1, 2)]

def c6r6 : List (Cost × ℕ × ℕ) :=
  [(((3 : ℚ) : Cost), 3, 1), (((3 : ℚ) : Cost), 2, 3), (((3 : ℚ) : Cost), 3, 3),
   (((3 : ℚ) : Cost), 3, 2), (((2 : ℚ) : Cost), 0, 2), (((2 : ℚ) : Cost), 2, 0),
   (((2 : ℚ) : Cost), 1, 2)]

def c6d8 : List ((ℕ × ℕ) × ℚ) :=
  [((0, 0), 0), ((0, 1), 1), ((0, 2), 2), ((1, 0), 1), ((1, 1), 1), ((1, 2), 2), ((2, 0), 2),
   ((2, 1), 2), ((2, 2), 2), ((2, 3), 3), ((3, 0), 3), ((3, 1), 3), ((3, 2), 2), ((3, 3), 3),
   ((4, 2), 3), ((4, 3), 3)]

def c6bt8 : List ((ℕ × ℕ) × (ℕ × ℕ)) :=
  [((0, 2), (0, 1)), ((1, 2), (1, 1)), ((2, 0), (1, 0)), ((2, 1), (1, 1)), ((2, 2), (1, 1)),
   ((2, 3), (2, 2)), ((3, 0), (2, 0)), ((3, 1), (2, 1)), ((3, 2), (2, 1)), ((3, 3), (2, 2)),
   ((4, 2), (3, 2)), ((4, 3), (3, 2))]

def c6h8 : List (Cost × ℕ × ℕ) :=
  [(((3 : ℚ) : Cost), 3, 0), (((3 : ℚ) : Cost), 4, 3), (((3 : ℚ) : Cost), 4, 2),
   (((3 : ℚ) : Cost), 3, 1), (((3 : ℚ) : Cost), 2, 3), (((3 : ℚ) : Cost), 3, 3),
   (((3 : ℚ) : Cost), 3, 2), (((2 : ℚ) : Cost), 0, 2), (((2 : ℚ) : Cost), 1, 2)]

def c6r7 : List (Cost × ℕ × ℕ) :=
  [(((3 : ℚ) : Cost), 4, 3), (((3 : ℚ) : Cost), 4, 2), (((3 : ℚ) : Cost), 3, 1),
   (((3 : ℚ) : Cost), 2, 3), (((3 : ℚ) : Cost), 3, 3), (((3 : ℚ) : Cost), 3, 2),
   (((2 : ℚ) : Cost), 0, 2), (((2 : ℚ) : Cost), 1, 2)]

def c6d9 : List ((ℕ × ℕ) × ℚ) :=
  [((0, 0), 0), ((0, 1), 1), ((0, 2), 2), ((1, 0), 1), ((1, 1), 1), ((1, 2), 2), ((1, 3), 3),
   ((2, 0), 2), ((2, 1), 2), ((2, 2), 2), ((2, 3), 3), ((3, 0), 3), ((3, 1), 3), ((3, 2), 2),
   ((3, 3), 3), ((4, 2), 3), ((4, 3), 3)]

def c6bt9 : List ((ℕ × ℕ) × (ℕ × ℕ)) :=
  [((0, 2), (0, 1)), ((1, 2), (1, 1)), ((1, 3), (1, 2)), ((2, 0), (1, 0)), ((2, 1), (1, 1)),
   ((2, 2), (1, 1)), ((2, 3), (2, 2)), ((3, 0), (2, 0)), ((3, 1), (2, 1)), ((3, 2), (2, 1)),
   ((3, 3), (2, 2)), ((4, 2), (3, 2)), ((4, 3), (3, 2))]

def c6h9 : List (Cost × ℕ × ℕ) :=
  [(((3 : ℚ) : Cost), 1, 3), (((3 : ℚ) : Cost), 3, 0), (((3 : ℚ) : Cost), 4, 3),
   (((3 : ℚ) : Cost), 4, 2), (((3 : ℚ) : Cost), 3, 1), (((3 : ℚ) : Cost), 2, 3),
   (((3 : ℚ) : Cost), 3, 3), (((3 : ℚ) : Cost), 3, 2), (((2 : ℚ) : Cost), 0, 2)]

def c6r8 : List (Cost × ℕ × ℕ) :=
  [(((3 : ℚ) : Cost), 3, 0), (((3 : ℚ) : Cost), 4, 3), (((3 : ℚ) : Cost), 4, 2),
   (((3 : ℚ) : Cost), 3, 1), (((3 : ℚ) : Cost), 2, 3), (((3 : ℚ) : Cost), 3, 3),
   (((3 : ℚ) : Cost), 3, 2), (((2 : ℚ) : Cost), 0, 2)]

def c6d10 : List ((ℕ × ℕ) × ℚ) :=
  [((0, 0), 0), ((0, 1), 1), ((0, 2), 2), ((0, 3), 3), ((1, 0), 1), ((1, 1), 1), ((1, 2), 2),
   ((1, 3), 3), ((2, 0), 2), ((2, 1), 2), ((2, 2), 2), ((2, 3), 3), ((3, 0), 3), ((3, 1), 3),
   ((3, 2), 2), ((3, 3), 3), ((4, 2), 3), ((4, 3), 3)]

def c6bt10 : List ((ℕ × ℕ) × (ℕ × ℕ)) :=
  [((0, 2), (0, 1)), ((0, 3), (0, 2)), ((1, 2), (1, 1)), ((1, 3), (1, 2)), ((2, 0), (1, 0)),
   ((2, 1), (1, 1)), ((2, 2), (1, 1)), ((2, 3), (2, 2)), ((3, 0), (2, 0)), ((3, 1), (2, 1)),
   ((3, 2), (2, 1)), ((3, 3), (2, 2)), ((4, 2), (3, 2)), ((4, 3), (3, 2))]

def c6h10 : List (Cost × ℕ × ℕ) :=
  [(((3 : ℚ) : Cost), 0, 3), (((3 : ℚ) : Cost), 1, 3), (((3 : ℚ) : Cost), 3, 0),
   (((3 : ℚ) : Cost), 4, 3), (((3 : ℚ) : Cost), 4, 2), (((3 : ℚ) : Cost), 3, 1),
   (((3 : ℚ) : Cost), 2, 3), (((3 : ℚ) : Cost), 3, 3), (((3 : ℚ) : Cost), 3, 2)]

def c6r9 : List (Cost × ℕ × ℕ) :=
  [(((3 : ℚ) : Cost), 1, 3), (((3 : ℚ) : Cost), 3, 0), (((3 : ℚ) : Cost), 4, 3),
   (((3 : ℚ) : Cost), 4, 2), (((3 : ℚ) : Cost), 3, 1), (((3 : ℚ) : Cost), 2, 3),
   (((3 : ℚ) : Cost), 3, 3), (((3 : ℚ) : Cost), 3, 2)]

def c6d11 : List ((ℕ × ℕ) × ℚ) :=
  [((0, 0), 0), ((0, 1), 1), ((0, 2), 2), ((0, 3), 3), ((1, 0), 1), ((1, 1), 1), ((1, 2), 2),
   ((1, 3), 3), ((2, 0), 2), ((2, 1), 2), ((2, 2), 2), ((2, 3), 3), ((3, 0), 3), ((3, 1), 3),
   ((3, 2), 2), ((3, 3), 3), ((4, 2), 3), ((4, 3), 3), ((5, 3), 4)]

def c6bt11 : List ((ℕ × ℕ) × (ℕ × ℕ)) :=
  [((0, 2), (0, 1)), ((0, 3), (0, 2)), ((1, 2), (1, 1)), ((1, 3), (1, 2)), ((2, 0), (1, 0)),
   ((2, 1), (1, 1)), ((2, 2), (1, 1)), ((2, 3), (2, 2)), ((3, 0), (2, 0)), ((3, 1), (2, 1)),
   ((3, 2), (2, 1)), ((3, 3), (2, 2)), ((4, 2), (3, 2)), ((4, 3), (3, 2)), ((5, 3), (4, 3))]

def c6h11 : List (Cost × ℕ × ℕ) :=
  [(((4 : ℚ) : Cost), 5, 3), (((3 : ℚ) : Cost), 0, 3), (((3 : ℚ) : Cost), 1, 3),
   (((3 : ℚ) : Cost), 3, 0), (((3 : ℚ) : Cost), 4, 2), (((3 : ℚ) : Cost), 3, 1),
   (((3 : ℚ) : Cost), 2, 3), (((3 : ℚ) : Cost), 3, 3), (((3 : ℚ) : Cost), 3, 2)]

def c6r10 : List (Cost × ℕ × ℕ) :=
  [(((3 : ℚ) : Cost), 0, 3), (((3 : ℚ) : Cost), 1, 3), (((3 : ℚ) : Cost), 3, 0),
   (((3 : ℚ) : Cost), 4, 2), (((3 : ℚ) : Cost), 3, 1), (((3 : ℚ) : Cost), 2, 3),
   (((3 : ℚ) : Cost), 3, 3), (((3 : ℚ) : Cost), 3, 2)]

def c6d12 : List ((ℕ × ℕ) × ℚ) :=
  [((0, 0), 0), ((0, 1), 1), ((0, 2), 2), ((0, 3), 3), ((1, 0), 1), ((1, 1), 1), ((1, 2), 2),
   ((1, 3), 3), ((2, 0), 2), ((2, 1), 2), ((2, 2), 2), ((2, 3), 3), ((3, 0), 3), ((3, 1), 3),
   ((3, 2), 2), ((3, 3), 3), ((4, 2), 3), ((4, 3), 3), ((5, 2), 4), ((5, 3), 3)]

def c6bt12 : List ((ℕ × ℕ) × (ℕ × ℕ)) :=
  [((0, 2), (0, 1)), ((0, 3), (0, 2)), ((1, 2), (1, 1)), ((1, 3), (1, 2)), ((2, 0), (1, 0)),
   ((2, 1), (1, 1)), ((2, 2), (1, 1)), ((2, 3), (2, 2)), ((3, 0), (2, 0)), ((3, 1), (2, 1)),
   ((3, 2), (2, 1)), ((3, 3), (2, 2)), ((4, 2), (3, 2)), ((4, 3), (3, 2)), ((5, 2), (4, 2)),
   ((5, 3), (4, 2))]

def c6h12 : List (Cost × ℕ × ℕ) :=
  [(((3 : ℚ) : Cost), 5, 3), (((4 : ℚ) : Cost), 5, 2), (((4 : ℚ) : Cost), 5, 3),
   (((3 : ℚ) : Cost), 0, 3), (((3 : ℚ) : Cost), 1, 3), (((3 : ℚ) : Cost), 3, 0),
   (((3 : ℚ) : Cost), 3, 1), (((3 : ℚ) : Cost), 2, 3), (((3 : ℚ) : Cost), 3, 3),
   (((3 : ℚ) : Cost), 3, 2)]

def c6r11 : List (Cost × ℕ × ℕ) :=
  [(((4 : ℚ) : Cost), 5, 3), (((3 : ℚ) : Cost), 0, 3), (((3 : ℚ) : Cost), 1, 3),
   (((3 : ℚ) : Cost), 3, 0), (((3 : ℚ) : Cost), 3, 1), (((3 : ℚ) : Cost), 2, 3),
   (((3 : ℚ) : Cost), 3, 3), (((3 : ℚ) : Cost), 3, 2)]

def c6d13 : List ((ℕ × ℕ) × ℚ) :=
  [((0, 0), 0), ((0, 1), 1), ((0, 2), 2), ((0, 3), 3), ((1, 0), 1), ((1, 1), 1), ((1, 2), 2),
   ((1, 3), 3), ((2, 0), 2), ((2, 1), 2), ((2, 2), 2), ((2, 3), 3), ((3, 0), 3), ((3, 1), 3),
   ((3, 2), 2), ((3, 3), 3), ((4, 2), 3), ((4, 3), 3), ((5, 2), 4), ((5, 3), 3), ((6, 3), 4)]

def c6bt13 : List ((ℕ × ℕ) × (ℕ × ℕ)) :=
  [((0, 2), (0, 1)), ((0, 3), (0, 2)), ((1, 2), (1, 1)), ((1, 3), (1, 2)), ((2, 0), (1, 0)),
   ((2, 1), (1, 1)), ((2, 2), (1, 1)), ((2, 3), (2, 2)), ((3, 0), (2, 0)), ((3, 1), (2, 1)),
   ((3, 2), (2, 1)), ((3, 3), (2, 2)), ((4, 2), (3, 2)), ((4, 3), (3, 2)), ((5, 2), (4, 2)),
   ((5, 3), (4, 2)), ((6, 3), (5, 3))]

def c6h13 : List (Cost × ℕ × ℕ) :=
  [(((4 : ℚ) : Cost), 6, 3), (((4 : ℚ) : Cost), 5, 2), (((4 : ℚ) : Cost), 5, 3),
   (((3 : ℚ) : Cost), 0, 3), (((3 : ℚ) : Cost), 1, 3), (((3 : ℚ) : Cost), 3, 0),
   (((3 : ℚ) : Cost), 3, 1), (((3 : ℚ) : Cost), 2, 3), (((3 : ℚ) : Cost), 3, 3),
   (((3 : ℚ) : Cost), 3, 2)]

def c6r12 : List (Cost × ℕ × ℕ) :=
  [(((4 : ℚ) : Cost), 5, 2), (((4 : ℚ) : Cost), 5, 3), (((3 : ℚ) : Cost), 0, 3),
   (((3 : ℚ) : Cost), 1, 3), (((3 : ℚ) : Cost), 3, 0), (((3 : ℚ) : Cost), 3, 1),
   (((3 : ℚ) : Cost), 2, 3), (((3 : ℚ) : Cost), 3, 3), (((3 : ℚ) : Cost), 3, 2)]

def c6d14 : List ((ℕ × ℕ) × ℚ) :=
  [((0, 0), 0), ((0, 1), 1), ((0, 2), 2), ((0, 3), 3), ((1, 0), 1), ((1, 1), 1), ((1, 2), 2),
   ((1, 3), 3), ((2, 0), 2), ((2, 1), 2), ((2, 2), 2), ((2, 3), 3), ((3, 0), 3), ((3, 1), 3),
   ((3, 2), 2), ((3, 3), 3), ((4, 2), 3), ((4, 3), 3), ((5, 2), 4), ((5, 3), 3), ((6, 3), 4)]

def c6bt14 : List ((ℕ × ℕ) × (ℕ × ℕ)) :=
  [((0, 2), (0, 1)), ((0, 3), (0, 2)), ((1, 2), (1, 1)), ((1, 3), (1, 2)), ((2, 0), (1, 0)),
   ((2, 1), (1, 1)), ((2, 2), (1, 1)), ((2, 3), (2, 2)), ((3, 0), (2, 0)), ((3, 1), (2, 1)),
   ((3, 2), (2, 1)), ((3, 3), (2, 2)), ((4, 2), (3, 2)), ((4, 3), (3, 2)), ((5, 2), (4, 2)),
   ((5, 3), (4, 2)), ((6, 3), (5, 3))]

def c6h14 : List (Cost × ℕ × ℕ) :=
  [(((4 : ℚ) : Cost), 6, 3), (((4 : ℚ) : Cost), 5, 2), (((4 : ℚ) : Cost), 5, 3),
   (((3 : ℚ) : Cost), 0, 3), (((3 : ℚ) : Cost), 1, 3), (((3 : ℚ) : Cost), 3, 0),
   (((3 : ℚ) : Cost), 3, 1), (((3 : ℚ) : Cost), 2, 3), (((3 : ℚ) : Cost), 3, 2)]

def c6r13 : List (Cost × ℕ × ℕ) :=
  [(((4 : ℚ) : Cost), 6, 3), (((4 : ℚ) : Cost), 5, 2), (((4 : ℚ) : Cost), 5, 3),
   (((3 : ℚ) : Cost), 0, 3), (((3 : ℚ) : Cost), 1, 3), (((3 : ℚ) : Cost), 3, 0),
   (((3 : ℚ) : Cost), 3, 1), (((3 : ℚ) : Cost), 2, 3), (((3 : ℚ) : Cost), 3, 2)]

def c6d15 : List ((ℕ × ℕ) × ℚ) :=
  [((0, 0), 0), ((0, 1), 1), ((0, 2), 2), ((0, 3), 3), ((1, 0), 1), ((1, 1), 1), ((1, 2), 2),
   ((1, 3), 3), ((2, 0), 2), ((2, 1), 2), ((2, 2), 2), ((2, 3), 3), ((3, 0), 3), ((3, 1), 3),
   ((3, 2), 2), ((3, 3), 3), ((4, 2), 3), ((4, 3), 3), ((5, 2), 4), ((5, 3), 3), ((6, 3), 4)]

def c6bt15 : List ((ℕ × ℕ) × (ℕ × ℕ)) :=
  [((0, 2), (0, 1)), ((0, 3), (0, 2)), ((1, 2), (1, 1)), ((1, 3), (1, 2)), ((2, 0), (1, 0)),
   ((2, 1), (1, 1)), ((2, 2), (1, 1)), ((2, 3), (2, 2)), ((3, 0), (2, 0)), ((3, 1), (2, 1)),
   ((3, 2), (2, 1)), ((3, 3), (2, 2)), ((4, 2), (3, 2)), ((4, 3), (3, 2)), ((5, 2), (4, 2)),
   ((5, 3), (4, 2)), ((6, 3), (5, 3))]

def c6h15 : List (Cost × ℕ × ℕ) :=
  [(((4 : ℚ) : Cost), 6, 3), (((4 : ℚ) : Cost), 5, 2), (((4 : ℚ) : Cost), 5, 3),
   (((3 : ℚ) : Cost), 0, 3), (((3 : ℚ) : Cost), 1, 3), (((3 : ℚ) : Cost), 3, 0),
   (((3 : ℚ) : Cost), 3, 1), (((3 : ℚ) : Cost), 2, 3)]

def c6r14 : List (Cost × ℕ × ℕ) :=
  [(((4 : ℚ) : Cost), 6, 3), (((4 : ℚ) : Cost), 5, 2), (((4 : ℚ) : Cost), 5, 3),
   (((3 : ℚ) : Cost), 0, 3), (((3 : ℚ) : Cost), 1, 3), (((3 : ℚ) : Cost), 3, 0),
   (((3 : ℚ) : Cost), 3, 1), (((3 : ℚ) : Cost), 2, 3)]

def c6d16 : List ((ℕ × ℕ) × ℚ) :=
  [((0, 0), 0), ((0, 1), 1), ((0, 2), 2), ((0, 3), 3), ((1, 0), 1), ((1, 1), 1), ((1, 2), 2),
   ((1, 3), 3), ((2, 0), 2), ((2, 1), 2), ((2, 2), 2), ((2, 3), 3), ((3, 0), 3), ((3, 1), 3),
   ((3, 2), 2), ((3, 3), 3), ((4, 1), 4), ((4, 2), 3), ((4, 3), 3), ((5, 2), 4), ((5, 3), 3),
   ((6, 3), 4)]

def c6bt16 : List ((ℕ × ℕ) × (ℕ × ℕ)) :=
  [((0, 2), (0, 1)), ((0, 3), (0, 2)), ((1, 2), (1, 1)), ((1, 3), (1, 2)), ((2, 0), (1, 0)),
   ((2, 1), (1, 1)), ((2, 2), (1, 1)), ((2, 3), (2, 2)), ((3, 0), (2, 0)), ((3, 1), (2, 1)),
   ((3, 2), (2, 1)), ((3, 3), (2, 2)), ((4, 1), (3, 1)), ((4, 2), (3, 2)), ((4, 3), (3, 2)),
   ((5, 2), (4, 2)), ((5, 3), (4, 2)), ((6, 3), (5, 3))]

def c6h16 : List (Cost × ℕ × ℕ) :=
  [(((4 : ℚ) : Cost), 4, 1), (((4 : ℚ) : Cost), 6, 3), (((4 : ℚ) : Cost), 5, 2),
   (((4 : ℚ) : Cost), 5, 3), (((3 : ℚ) : Cost), 0, 3), (((3 : ℚ) : Cost), 1, 3),
   (((3 : ℚ) : Cost), 3, 0), (((3 : ℚ) : Cost), 2, 3)]

def c6r15 : List (Cost × ℕ × ℕ) :=
  [(((4 : ℚ) : Cost), 6, 3), (((4 : ℚ) : Cost), 5, 2), (((4 : ℚ) : Cost), 5, 3),
   (((3 : ℚ) : Cost), 0, 3), (((3 : ℚ) : Cost), 1, 3), (((3 : ℚ) : Cost), 3, 0),
   (((3 : ℚ) : Cost), 2, 3)]

def c6d17 : List ((ℕ × ℕ) × ℚ) :=
  [((0, 0), 0), ((0, 1), 1), ((0, 2), 2), ((0, 3), 3), ((1, 0), 1), ((1, 1), 1), ((1, 2), 2),
   ((1, 3), 3), ((2, 0), 2), ((2, 1), 2), ((2, 2), 2), ((2, 3), 3), ((3, 0), 3), ((3, 1), 3),
   ((3, 2), 2), ((3, 3), 3), ((4, 0), 4), ((4, 1), 4), ((4, 2), 3), ((4, 3), 3), ((5, 2), 4),
   ((5, 3), 3), ((6, 3), 4)]

def c6bt17 : List ((ℕ × ℕ) × (ℕ × ℕ)) :=
  [((0, 2), (0, 1)), ((0, 3), (0, 2)), ((1, 2), (1, 1)), ((1, 3), (1, 2)), ((2, 0), (1, 0)),
   ((2, 1), (1, 1)), ((2, 2), (1, 1)), ((2, 3), (2, 2)), ((3, 0), (2, 0)), ((3, 1), (2, 1)),
   ((3, 2), (2, 1)), ((3, 3), (2, 2)), ((4, 0), (3, 0)), ((4, 1), (3, 1)), ((4, 2), (3, 2)),
   ((4, 3), (3, 2)), ((5, 2), (4, 2)), ((5, 3), (4, 2)), ((6, 3), (5, 3))]

def c6h17 : List (Cost × ℕ × ℕ) :=
  [(((4 : ℚ) : Cost), 4, 0), (((4 : ℚ) : Cost), 4, 1), (((4 : ℚ) : Cost), 6, 3),
   (((4 : ℚ) : Cost), 5, 2), (((4 : ℚ) : Cost), 5, 3), (((3 : ℚ) : Cost), 0, 3),
   (((3 : ℚ) : Cost), 1, 3), (((3 : ℚ) : Cost), 2, 3)]

def c6r16 : List (Cost × ℕ × ℕ) :=
  [(((4 : ℚ) : Cost), 4, 1), (((4 : ℚ) : Cost), 6, 3), (((4 : ℚ) : Cost), 5, 2),
   (((4 : ℚ) : Cost), 5, 3), (((3 : ℚ) : Cost), 0, 3), (((3 : ℚ) : Cost), 1, 3),
   (((3 : ℚ) : Cost), 2, 3)]

def c6d18 : List ((ℕ × ℕ) × ℚ) :=
  [((0, 0), 0), ((0, 1), 1), ((0, 2), 2), ((0, 3), 3), ((1, 0), 1), ((1, 1), 1), ((1, 2), 2),
   ((1, 3), 3), ((2, 0), 2), ((2, 1), 2), ((2, 2), 2), ((2, 3), 3), ((3, 0), 3), ((3, 1), 3),
   ((3, 2), 2), ((3, 3), 3), ((4, 0), 4), ((4, 1), 4), ((4, 2), 3), ((4, 3), 3), ((5, 2), 4),
   ((5, 3), 3), ((6, 3), 4)]

def c6bt18 : List ((ℕ × ℕ) × (ℕ × ℕ)) :=
  [((0, 2), (0, 1)), ((0, 3), (0, 2)), ((1, 2), (1, 1)), ((1, 3), (1, 2)), ((2, 0), (1, 0)),
   ((2, 1), (1, 1)), ((2, 2), (1, 1)), ((2, 3), (2, 2)), ((3, 0), (2, 0)), ((3, 1), (2, 1)),
   ((3, 2), (2, 1)), ((3, 3), (2, 2)), ((4, 0), (3, 0)), ((4, 1), (3, 1)), ((4, 2), (3, 2)),
   ((4, 3), (3, 2)), ((5, 2), (4, 2)), ((5, 3), (4, 2)), ((6, 3), (5, 3))]

def c6h18 : List (Cost × ℕ × ℕ) :=
  [(((4 : ℚ) : Cost), 4, 0), (((4 : ℚ) : Cost), 4, 1), (((4 : ℚ) : Cost), 6, 3),
   (((4 : ℚ) : Cost), 5, 2), (((4 : ℚ) : Cost), 5, 3), (((3 : ℚ) : Cost), 0, 3),
   (((3 : ℚ) : Cost), 1, 3)]

def c6r17 : List (Cost × ℕ × ℕ) :=
  [(((4 : ℚ) : Cost), 4, 0), (((4 : ℚ) : Cost), 4, 1), (((4 : ℚ) : Cost), 6, 3),
   (((4 : ℚ) : Cost), 5, 2), (((4 : ℚ) : Cost), 5, 3), (((3 : ℚ) : Cost), 0, 3),
   (((3 : ℚ) : Cost), 1, 3)]

def c6d19 : List ((ℕ × ℕ) × ℚ) :=
  [((0, 0), 0), ((0, 1), 1), ((0, 2), 2), ((0, 3), 3), ((1, 0), 1), ((1, 1), 1), ((1, 2), 2),
   ((1, 3), 3), ((2, 0), 2), ((2, 1), 2), ((2, 2), 2), ((2, 3), 3), ((3, 0), 3), ((3, 1), 3),
   ((3, 2), 2), ((3, 3), 3), ((4, 0), 4), ((4, 1), 4), ((4, 2), 3), ((4, 3), 3), ((5, 2), 4),
   ((5, 3), 3), ((6, 3), 4)]

def c6bt19 : List ((ℕ × ℕ) × (ℕ × ℕ)) :=
  [((0, 2), (0, 1)), ((0, 3), (0, 2)), ((1, 2), (1, 1)), ((1, 3), (1, 2)), ((2, 0), (1, 0)),
   ((2, 1), (1, 1)), ((2, 2), (1, 1)), ((2, 3), (2, 2)), ((3, 0), (2, 0)), ((3, 1), (2, 1)),
   ((3, 2), (2, 1)), ((3, 3), (2, 2)), ((4, 0), (3, 0)), ((4, 1), (3, 1)), ((4, 2), (3, 2)),
   ((4, 3), (3, 2)), ((5, 2), (4, 2)), ((5, 3), (4, 2)), ((6, 3), (5, 3))]

def c6h19 : List (Cost × ℕ × ℕ) :=
  [(((4 : ℚ) : Cost), 4, 0), (((4 : ℚ) : Cost), 4, 1), (((4 : ℚ) : Cost), 6, 3),
   (((4 : ℚ) : Cost), 5, 2), (((4 : ℚ) : Cost), 5, 3), (((3 : ℚ) : Cost), 0, 3)]

def c6r18 : List (Cost × ℕ × ℕ) :=
  [(((4 : ℚ) : Cost), 4, 0), (((4 : ℚ) : Cost), 4, 1), (((4 : ℚ) : Cost), 6, 3),
   (((4 : ℚ) : Cost), 5, 2), (((4 : ℚ) : Cost), 5, 3), (((3 : ℚ) : Cost), 0, 3)]

def c6d20 : List ((ℕ × ℕ) × ℚ) :=
  [((0, 0), 0), ((0, 1), 1), ((0, 2), 2), ((0, 3), 3), ((1, 0), 1), ((1, 1), 1), ((1, 2), 2),
   ((1, 3), 3), ((2, 0), 2), ((2, 1), 2), ((2, 2), 2), ((2, 3), 3), ((3, 0), 3), ((3, 1), 3),
   ((3, 2), 2), ((3, 3), 3), ((4, 0), 4), ((4, 1), 4), ((4, 2), 3), ((4, 3), 3), ((5, 2), 4),
   ((5, 3), 3), ((6, 3), 4)]

def c6bt20 : List ((ℕ × ℕ) × (ℕ × ℕ)) :=
  [((0, 2), (0, 1)), ((0, 3), (0, 2)), ((1, 2), (1, 1)), ((1, 3), (1, 2)), ((2, 0), (1, 0)),
   ((2, 1), (1, 1)), ((2, 2), (1, 1)), ((2, 3), (2, 2)), ((3, 0), (2, 0)), ((3, 1), (2, 1)),
   ((3, 2), (2, 1)), ((3, 3), (2, 2)), ((4, 0), (3, 0)), ((4, 1), (3, 1)), ((4, 2), (3, 2)),
   ((4, 3), (3, 2)), ((5, 2), (4, 2)), ((5, 3), (4, 2)), ((6, 3), (5, 3))]

def c6h20 : List (Cost × ℕ × ℕ) :=
  [(((4 : ℚ) : Cost), 4, 0), (((4 : ℚ) : Cost), 4, 1), (((4 : ℚ) : Cost), 6, 3),
   (((4 : ℚ) : Cost), 5, 2), (((4 : ℚ) : Cost), 5, 3)]

def c6r19 : List (Cost × ℕ × ℕ) :=
  [(((4 : ℚ) : Cost), 4, 0), (((4 : ℚ) : Cost), 4, 1), (((4 : ℚ) : Cost), 6, 3),
   (((4 : ℚ) : Cost), 5, 2), (((4 : ℚ) : Cost), 5, 3)]

def c6r20 : List (Cost × ℕ × ℕ) :=
  [(((4 : ℚ) : Cost), 4, 0), (((4 : ℚ) : Cost), 4, 1), (((4 : ℚ) : Cost), 5, 2),
   (((4 : ℚ) : Cost), 5, 3)]

theorem c6step0 : expandCell c6a c6b c6cal c6cs
    ⟨initSt.D, initSt.BT, c6r0⟩ 0 0 =
    ⟨tblD c6d1, tblBT c6bt1, c6h1⟩ :=
  step_tbl (init_hout _ _) (by decide) (by decide) (by decide) (by decide)

theorem c6step1 : expandCell c6a c6b c6cal c6cs
    ⟨tblD c6d1, tblBT c6bt1, c6r1⟩ 1 1 =
    ⟨tblD c6d2, tblBT c6bt2, c6h2⟩ :=
  step_tbl (tbl_hout (by decide) (by decide)) (by decide) (by decide) (by decide) (by decide)

theorem c6step2 : expandCell c6a c6b c6cal c6cs
    ⟨tblD c6d2, tblBT c6bt2, c6r2⟩ 1 0 =
    ⟨tblD c6d3, tblBT c6bt3, c6h3⟩ :=
  step_tbl (tbl_hout (by decide) (by decide)) (by decide) (by decide) (by decide) (by decide)

theorem c6step3 : expandCell c6a c6b c6cal c6cs
    ⟨tblD c6d3, tblBT c6bt3, c6r3⟩ 0 1 =
    ⟨tblD c6d4, tblBT c6bt4, c6h4⟩ :=
  step_tbl (tbl_hout (by decide) (by decide)) (by decide) (by decide) (by decide) (by decide)

theorem c6step4 : expandCell c6a c6b c6cal c6cs
    ⟨tblD c6d4, tblBT c6bt4, c6r4⟩ 2 2 =
    ⟨tblD c6d5, tblBT c6bt5, c6h5⟩ :=
  step_tbl (tbl_hout (by decide) (by decide)) (by decide) (by decide) (by decide) (by decide)

theorem c6step5 : expandCell c6a c6b c6cal c6cs
    ⟨tblD c6d5, tblBT c6bt5, c6r5⟩ 2 1 =
    ⟨tblD c6d6, tblBT c6bt6, c6h6⟩ :=
  step_tbl (tbl_hout (by decide) (by decide)) (by decide) (by decide) (by decide) (by decide)

theorem c6step6 : expandCell c6a c6b c6cal c6cs
    ⟨tblD c6d6, tblBT c6bt6, c6r6⟩ 3 2 =
    ⟨tblD c6d7, tblBT c6bt7, c6h7⟩ :=
  step_tbl (tbl_hout (by decide) (by decide)) (by decide) (by decide) (by decide) (by decide)

theorem c6step7 : expandCell c6a c6b c6cal c6cs
    ⟨tblD c6d7, tblBT c6bt7, c6r7⟩ 2 0 =
    ⟨tblD c6d8, tblBT c6bt8, c6h8⟩ :=
  step_tbl (tbl_hout (by decide) (by decide)) (by decide) (by decide) (by decide) (by decide)

theorem c6step8 : expandCell c6a c6b c6cal c6cs
    ⟨tblD c6d8, tblBT c6bt8, c6r8⟩ 1 2 =
    ⟨tblD c6d9, tblBT c6bt9, c6h9⟩ :=
  step_tbl (tbl_hout (by decide) (by decide)) (by decide) (by decide) (by decide) (by decide)

theorem c6step9 : expandCell c6a c6b c6cal c6cs
    ⟨tblD c6d9, tblBT c6bt9, c6r9⟩ 0 2 =
    ⟨tblD c6d10, tblBT c6bt10, c6h10⟩ :=
  step_tbl (tbl_hout (by decide) (by decide)) (by decide) (by decide) (by decide) (by decide)

theorem c6step10 : expandCell c6a c6b c6cal c6cs
    ⟨tblD c6d10, tblBT c6bt10, c6r10⟩ 4 3 =
    ⟨tblD c6d11, tblBT c6bt11, c6h11⟩ :=
  step_tbl (tbl_hout (by decide) (by decide)) (by decide) (by decide) (by decide) (by decide)

theorem c6step11 : expandCell c6a c6b c6cal c6cs
    ⟨tblD c6d11, tblBT c6bt11, c6r11⟩ 4 2 =
    ⟨tblD c6d12, tblBT c6bt12, c6h12⟩ :=
  step_tbl (tbl_hout (by decide) (by decide)) (by decide) (by decide) (by decide) (by decide)

theorem c6step12 : expandCell c6a c6b c6cal c6cs
    ⟨tblD c6d12, tblBT c6bt12, c6r12⟩ 5 3 =
    ⟨tblD c6d13, tblBT c6bt13, c6h13⟩ :=
  step_tbl (tbl_hout (by decide) (by decide)) (by decide) (by decide) (by decide) (by decide)

theorem c6step13 : expandCell c6a c6b c6cal c6cs
    ⟨tblD c6d13, tblBT c6bt13, c6r13⟩ 3 3 =
    ⟨tblD c6d14, tblBT c6bt14, c6h14⟩ :=
  step_tbl (tbl_hout (by decide) (by decide)) (by decide) (by decide) (by decide) (by decide)

theorem c6step14 : expandCell c6a c6b c6cal c6cs
    ⟨tblD c6d14, tblBT c6bt14, c6r14⟩ 3 2 =
    ⟨tblD c6d15, tblBT c6bt15, c6h15⟩ :=
  step_tbl (tbl_hout (by decide) (by decide)) (by decide) (by decide) (by decide) (by decide)

theorem c6step15 : expandCell c6a c6b c6cal c6cs
    ⟨tblD c6d15, tblBT c6bt15, c6r15⟩ 3 1 =
    ⟨tblD c6d16, tblBT c6bt16, c6h16⟩ :=
  step_tbl (tbl_hout (by decide) (by decide)) (by decide) (by decide) (by decide) (by decide)

theorem c6step16 : expandCell c6a c6b c6cal c6cs
    ⟨tblD c6d16, tblBT c6bt16, c6r16⟩ 3 0 =
    ⟨tblD c6d17, tblBT c6bt17, c6h17⟩ :=
  step_tbl (tbl_hout (by decide) (by decide)) (by decide) (by decide) (by decide) (by decide)

theorem c6step17 : expandCell c6a c6b c6cal c6cs
    ⟨tblD c6d17, tblBT c6bt17, c6r17⟩ 2 3 =
    ⟨tblD c6d18, tblBT c6bt18, c6h18⟩ :=
  step_tbl (tbl_hout (by decide) (by decide)) (by decide) (by decide) (by decide) (by decide)

theorem c6step18 : expandCell c6a c6b c6cal c6cs
    ⟨tblD c6d18, tblBT c6bt18, c6r18⟩ 1 3 =
    ⟨tblD c6d19, tblBT c6bt19, c6h19⟩ :=
  step_tbl (tbl_hout (by decide) (by decide)) (by decide) (by decide) (by decide) (by decide)

theorem c6step19 : expandCell c6a c6b c6cal c6cs
    ⟨tblD c6d19, tblBT c6bt19, c6r19⟩ 0 3 =
    ⟨tblD c6d20, tblBT c6bt20, c6h20⟩ :=
  step_tbl (tbl_hout (by decide) (by decide)) (by decide) (by decide) (by decide) (by decide)

theorem c6search : searchLoop c6a c6b c6cal c6cs 21 initSt =
    .ok ⟨tblD c6d20, tblBT c6bt20, c6r20⟩ := by
  calc searchLoop c6a c6b c6cal c6cs 21 initSt
      = searchLoop c6a c6b c6cal c6cs 20
        (expandCell c6a c6b c6cal c6cs ⟨initSt.D, initSt.BT, c6r0⟩ 0 0) :=
      searchLoop_step1 20 (initSt.D) (initSt.BT) c6h0
        (by decide : popMin c6h0 = some ((((0 : ℚ) : Cost), 0, 0), c6r0))
        (by decide)
    _ = searchLoop c6a c6b c6cal c6cs 20 ⟨tblD c6d1, tblBT c6bt1, c6h1⟩ := by
      rw [c6step0]
    _ = searchLoop c6a c6b c6cal c6cs 19
        (expandCell c6a c6b c6cal c6cs ⟨tblD c6d1, tblBT c6bt1, c6r1⟩ 1 1) :=
      searchLoop_step1 19 (tblD c6d1) (tblBT c6bt1) c6h1
        (by decide : popMin c6h1 = some ((((1 : ℚ) : Cost), 1, 1), c6r1))
        (by decide)
    _ = searchLoop c6a c6b c6cal c6cs 19 ⟨tblD c6d2, tblBT c6bt2, c6h2⟩ := by
      rw [c6step1]
    _ = searchLoop c6a c6b c6cal c6cs 18
        (expandCell c6a c6b c6cal c6cs ⟨tblD c6d2, tblBT c6bt2, c6r2⟩ 1 0) :=
      searchLoop_step1 18 (tblD c6d2) (tblBT c6bt2) c6h2
        (by decide : popMin c6h2 = some ((((1 : ℚ) : Cost), 1, 0), c6r2))
        (by decide)
    _ = searchLoop c6a c6b c6cal c6cs 18 ⟨tblD c6d3, tblBT c6bt3, c6h3⟩ := by
      rw [c6step2]
    _ = searchLoop c6a c6b c6cal c6cs 17
        (expandCell c6a c6b c6cal c6cs ⟨tblD c6d3, tblBT c6bt3, c6r3⟩ 0 1) :=
      searchLoop_step1 17 (tblD c6d3) (tblBT c6bt3) c6h3
        (by decide : popMin c6h3 = some ((((1 : ℚ) : Cost), 0, 1), c6r3))
        (by decide)
    _ = searchLoop c6a c6b c6cal c6cs 17 ⟨tblD c6d4, tblBT c6bt4, c6h4⟩ := by
      rw [c6step3]
    _ = searchLoop c6a c6b c6cal c6cs 16
        (expandCell c6a c6b c6cal c6cs ⟨tblD c6d4, tblBT c6bt4, c6r4⟩ 2 2) :=
      searchLoop_step1 16 (tblD c6d4) (tblBT c6bt4) c6h4
        (by decide : popMin c6h4 = some ((((2 : ℚ) : Cost), 2, 2), c6r4))
        (by decide)
    _ = searchLoop c6a c6b c6cal c6cs 16 ⟨tblD c6d5, tblBT c6bt5, c6h5⟩ := by
      rw [c6step4]
    _ = searchLoop c6a c6b c6cal c6cs 15
        (expandCell c6a c6b c6cal c6cs ⟨tblD c6d5, tblBT c6bt5, c6r5⟩ 2 1) :=
      searchLoop_step1 15 (tblD c6d5) (tblBT c6bt5) c6h5
        (by decide : popMin c6h5 = some ((((2 : ℚ) : Cost), 2, 1), c6r5))
        (by decide)
    _ = searchLoop c6a c6b c6cal c6cs 15 ⟨tblD c6d6, tblBT c6bt6, c6h6⟩ := by
      rw [c6step5]
    _ = searchLoop c6a c6b c6cal c6cs 14
        (expandCell c6a c6b c6cal c6cs ⟨tblD c6d6, tblBT c6bt6, c6r6⟩ 3 2) :=
      searchLoop_step1 14 (tblD c6d6) (tblBT c6bt6) c6h6
        (by decide : popMin c6h6 = some ((((2 : ℚ) : Cost), 3, 2), c6r6))
        (by decide)
    _ = searchLoop c6a c6b c6cal c6cs 14 ⟨tblD c6d7, tblBT c6bt7, c6h7⟩ := by
      rw [c6step6]
    _ = searchLoop c6a c6b c6cal c6cs 13
        (expandCell c6a c6b c6cal c6cs ⟨tblD c6d7, tblBT c6bt7, c6r7⟩ 2 0) :=
      searchLoop_step1 13 (tblD c6d7) (tblBT c6bt7) c6h7
        (by decide : popMin c6h7 = some ((((2 : ℚ) : Cost), 2, 0), c6r7))
        (by decide)
    _ = searchLoop c6a c6b c6cal c6cs 13 ⟨tblD c6d8, tblBT c6bt8, c6h8⟩ := by
      rw [c6step7]
    _ = searchLoop c6a c6b c6cal c6cs 12
        (expandCell c6a c6b c6cal c6cs ⟨tblD c6d8, tblBT c6bt8, c6r8⟩ 1 2) :=
      searchLoop_step1 12 (tblD c6d8) (tblBT c6bt8) c6h8
        (by decide : popMin c6h8 = some ((((2 : ℚ) : Cost), 1, 2), c6r8))
        (by decide)
    _ = searchLoop c6a c6b c6cal c6cs 12 ⟨tblD c6d9, tblBT c6bt9, c6h9⟩ := by
      rw [c6step8]
    _ = searchLoop c6a c6b c6cal c6cs 11
        (expandCell c6a c6b c6cal c6cs ⟨tblD c6d9, tblBT c6bt9, c6r9⟩ 0 2) :=
      searchLoop_step1 11 (tblD c6d9) (tblBT c6bt9) c6h9
        (by decide : popMin c6h9 = some ((((2 : ℚ) : Cost), 0, 2), c6r9))
        (by decide)
    _ = searchLoop c6a c6b c6cal c6cs 11 ⟨tblD c6d10, tblBT c6bt10, c6h10⟩ := by
      rw [c6step9]
    _ = searchLoop c6a c6b c6cal c6cs 10
        (expandCell c6a c6b c6cal c6cs ⟨tblD c6d10, tblBT c6bt10, c6r10⟩ 4 3) :=
      searchLoop_step1 10 (tblD c6d10) (tblBT c6bt10) c6h10
        (by decide : popMin c6h10 = some ((((3 : ℚ) : Cost), 4, 3), c6r10))
        (by decide)
    _ = searchLoop c6a c6b c6cal c6cs 10 ⟨tblD c6d11, tblBT c6bt11, c6h11⟩ := by
      rw [c6step10]
    _ = searchLoop c6a c6b c6cal c6cs 9
        (expandCell c6a c6b c6cal c6cs ⟨tblD c6d11, tblBT c6bt11, c6r11⟩ 4 2) :=
      searchLoop_step1 9 (tblD c6d11) (tblBT c6bt11) c6h11
        (by decide : popMin c6h11 = some ((((3 : ℚ) : Cost), 4, 2), c6r11))
        (by decide)
    _ = searchLoop c6a c6b c6cal c6cs 9 ⟨tblD c6d12, tblBT c6bt12, c6h12⟩ := by
      rw [c6step11]
    _ = searchLoop c6a c6b c6cal c6cs 8
        (expandCell c6a c6b c6cal c6cs ⟨tblD c6d12, tblBT c6bt12, c6r12⟩ 5 3) :=
      searchLoop_step1 8 (tblD c6d12) (tblBT c6bt12) c6h12
        (by decide : popMin c6h12 = some ((((3 : ℚ) : Cost), 5, 3), c6r12))
        (by decide)
    _ = searchLoop c6a c6b c6cal c6cs 8 ⟨tblD c6d13, tblBT c6bt13, c6h13⟩ := by
      rw [c6step12]
    _ = searchLoop c6a c6b c6cal c6cs 7
        (expandCell c6a c6b c6cal c6cs ⟨tblD c6d13, tblBT c6bt13, c6r13⟩ 3 3) :=
      searchLoop_step1 7 (tblD c6d13) (tblBT c6bt13) c6h13
        (by decide : popMin c6h13 = some ((((3 : ℚ) : Cost), 3, 3), c6r13))
        (by decide)
    _ = searchLoop c6a c6b c6cal c6cs 7 ⟨tblD c6d14, tblBT c6bt14, c6h14⟩ := by
      rw [c6step13]
    _ = searchLoop c6a c6b c6cal c6cs 6
        (expandCell c6a c6b c6cal c6cs ⟨tblD c6d14, tblBT c6bt14, c6r14⟩ 3 2) :=
      searchLoop_step1 6 (tblD c6d14) (tblBT c6bt14) c6h14
        (by decide : popMin c6h14 = some ((((3 : ℚ) : Cost), 3, 2), c6r14))
        (by decide)
    _ = searchLoop c6a c6b c6cal c6cs 6 ⟨tblD c6d15, tblBT c6bt15, c6h15⟩ := by
      rw [c6step14]
    _ = searchLoop c6a c6b c6cal c6cs 5
        (expandCell c6a c6b c6cal c6cs ⟨tblD c6d15, tblBT c6bt15, c6r15⟩ 3 1) :=
      searchLoop_step1 5 (tblD c6d15) (tblBT c6bt15) c6h15
        (by decide : popMin c6h15 = some ((((3 : ℚ) : Cost), 3, 1), c6r15))
        (by decide)
    _ = searchLoop c6a c6b c6cal c6cs 5 ⟨tblD c6d16, tblBT c6bt16, c6h16⟩ := by
      rw [c6step15]
    _ = searchLoop c6a c6b c6cal c6cs 4
        (expandCell c6a c6b c6cal c6cs ⟨tblD c6d16, tblBT c6bt16, c6r16⟩ 3 0) :=
      searchLoop_step1 4 (tblD c6d16) (tblBT c6bt16) c6h16
        (by decide : popMin c6h16 = some ((((3 : ℚ) : Cost), 3, 0), c6r16))
        (by decide)
    _ = searchLoop c6a c6b c6cal c6cs 4 ⟨tblD c6d17, tblBT c6bt17, c6h17⟩ := by
      rw [c6step16]
    _ = searchLoop c6a c6b c6cal c6cs 3
        (expandCell c6a c6b c6cal c6cs ⟨tblD c6d17, tblBT c6bt17, c6r17⟩ 2 3) :=
      searchLoop_step1 3 (tblD c6d17) (tblBT c6bt17) c6h17
        (by decide : popMin c6h17 = some ((((3 : ℚ) : Cost), 2, 3), c6r17))
        (by decide)
    _ = searchLoop c6a c6b c6cal c6cs 3 ⟨tblD c6d18, tblBT c6bt18, c6h18⟩ := by
      rw [c6step17]
    _ = searchLoop c6a c6b c6cal c6cs 2
        (expandCell c6a c6b c6cal c6cs ⟨tblD c6d18, tblBT c6bt18, c6r18⟩ 1 3) :=
      searchLoop_step1 2 (tblD c6d18) (tblBT c6bt18) c6h18
        (by decide : popMin c6h18 = some ((((3 : ℚ) : Cost), 1, 3), c6r18))
        (by decide)
    _ = searchLoop c6a c6b c6cal c6cs 2 ⟨tblD c6d19, tblBT c6bt19, c6h19⟩ := by
      rw [c6step18]
    _ = searchLoop c6a c6b c6cal c6cs 1
        (expandCell c6a c6b c6cal c6cs ⟨tblD c6d19, tblBT c6bt19, c6r19⟩ 0 3) :=
      searchLoop_step1 1 (tblD c6d19) (tblBT c6bt19) c6h19
        (by decide : popMin c6h19 = some ((((3 : ℚ) : Cost), 0, 3), c6r19))
        (by decide)
    _ = searchLoop c6a c6b c6cal c6cs 1 ⟨tblD c6d20, tblBT c6bt20, c6h20⟩ := by
      rw [c6step19]
    _ = .ok ⟨tblD c6d20, tblBT c6bt20, c6r20⟩ :=
      searchLoop_last1 0 (tblD c6d20) (tblBT c6bt20) c6h20
        (by decide : popMin c6h20 =
          some ((((4 : ℚ) : Cost), c6a.length, c6b.length), c6r20))

/-- The full concrete run: search, backtrack, reverse. -/
theorem c6run : lazyAlign c6a c6b c6cal c6cs 21 =
    .ok (((4 : ℚ) : Cost),
      [(some 's', some 'c'), (some 'm', none), (some 'a', some 'a'),
       (some 'r', none), (some 't', some 't'), (some 's', none)]) := by
  unfold lazyAlign
  rw [c6search]
  decide

/-! ## Degenerate inputs -/

/-- A relaxation aimed outside the grid is a no-op (the source's
`continue`). -/
theorem relax1_oob (n m : ℕ) (t : St) (cx cy : ℕ) (c : Cost) (x y : ℕ)
    (h : n < x ∨ m < y) : relax1 n m t cx cy c x y = t := by
  rcases relax1_spec n m t cx cy c x y with ⟨he, _⟩ | ⟨hx, hy, _, _⟩
  · exact he
  · rcases h with h | h <;> omega

/-- A valid interleaving with an empty right sequence is exactly the
all-skip alignment of the left sequence. -/
theorem valid_empty_right : ∀ {l : List (Option α × Option α)}
    {a : List α}, ValidAlignment a [] l →
    l = a.map (fun u => (some u, none)) := by
  intro l
  induction l with
  | nil =>
    intro a h
    rw [← h.1]
    rfl
  | cons e l ih =>
    intro a h
    obtain ⟨h1, h2, h3⟩ := h
    rcases e with ⟨o1, o2⟩
    rcases o2 with _ | v
    · rcases o1 with _ | u
      · exact absurd (List.mem_cons_self _ _) h3
      · have h1a : u :: l.filterMap Prod.fst = a := by simpa using h1
        have h2a : l.filterMap Prod.snd = [] := by simpa using h2
        have hrec := ih (a := l.filterMap Prod.fst)
          ⟨rfl, h2a, fun hm => h3 (List.mem_cons_of_mem _ hm)⟩
        rw [← h1a, List.map_cons, ← hrec]
    · exfalso
      have h2a : v :: l.filterMap Prod.snd = [] := by simpa using h2
      exact List.noConfusion h2a

/-- A valid interleaving with an empty left sequence is exactly the
all-skip alignment of the right sequence. -/
theorem valid_empty_left : ∀ {l : List (Option α × Option α)}
    {b : List α}, ValidAlignment [] b l →
    l = b.map (fun v => (none, some v)) := by
  intro l
  induction l with
  | nil =>
    intro b h
    rw [← h.2.1]
    rfl
  | cons e l ih =>
    intro b h
    obtain ⟨h1, h2, h3⟩ := h
    rcases e with ⟨o1, o2⟩
    rcases o1 with _ | u
    · rcases o2 with _ | v
      · exact absurd (List.mem_cons_self _ _) h3
      · have h2a : v :: l.filterMap Prod.snd = b := by simpa using h2
        have h1a : l.filterMap Prod.fst = [] := by simpa using h1
        have hrec := ih (b := l.filterMap Prod.snd)
          ⟨h1a, rfl, fun hm => h3 (List.mem_cons_of_mem _ hm)⟩
        rw [← h2a, List.map_cons, ← hrec]
    · exfalso
      have h1a : u :: l.filterMap Prod.fst = [] := by simpa using h1
      exact List.noConfusion h1a

/-- Two empty sequences: the run returns cost `0` and the empty
alignment after a single pop. -/
theorem run_nil_nil (calign : α → α → ℚ) (cskip : α → ℚ) :
    lazyAlign ([] : List α) [] calign cskip 1 = .ok ((0 : Cost), []) := by
  have hs : searchLoop ([] : List α) [] calign cskip 1 initSt =
      .ok ⟨initSt.D, initSt.BT, []⟩ :=
    searchLoop_last1 0 initSt.D initSt.BT [((0 : ℚ), 0, 0)] rfl
  unfold lazyAlign
  rw [hs]
  rfl

/-- A single left element against the empty sequence: after two pops the
run returns the single skip entry with cost `cskip x`. -/
theorem run_single_a (x : α) (calign : α → α → ℚ) (cskip : α → ℚ) :
    lazyAlign [x] [] calign cskip 2 =
      .ok (↑(cskip x), [(some x, none)]) := by
  have h1 : relax1 1 0 ⟨initSt.D, initSt.BT, ([] : List (Cost × ℕ × ℕ))⟩
      0 0 (↑(cskip x) : Cost) 1 0 =
      ⟨fun p => if p = (1, 0) then (↑(cskip x) : Cost) + initSt.D (0, 0)
         else initSt.D p,
       fun p => if p = (1, 0) then ((0, 0) : ℕ × ℕ) else initSt.BT p,
       [((↑(cskip x) : Cost) + initSt.D (0, 0), 1, 0)]⟩ := by
    rcases relax1_spec 1 0 ⟨initSt.D, initSt.BT, []⟩ 0 0 (↑(cskip x)) 1 0 with
      ⟨he, hno⟩ | ⟨hx1, hy1, hlt1, he⟩
    · exfalso
      refine absurd ?_ (hno (by omega) (by omega))
      show (↑(cskip x) : Cost) + initSt.D (0, 0) < initSt.D (1, 0)
      have hz : initSt.D (0, 0) = 0 := rfl
      have ht : initSt.D (1, 0) = ⊤ := rfl
      rw [hz, ht, add_zero]
      exact WithTop.coe_lt_top _
    · rw [he]
  have hexp : expandCell [x] [] calign cskip ⟨initSt.D, initSt.BT, []⟩ 0 0 =
      ⟨fun p => if p = (1, 0) then (↑(cskip x) : Cost) + initSt.D (0, 0)
         else initSt.D p,
       fun p => if p = (1, 0) then ((0, 0) : ℕ × ℕ) else initSt.BT p,
       [((↑(cskip x) : Cost) + initSt.D (0, 0), 1, 0)]⟩ := by
    have hgoal : expandCell [x] [] calign cskip ⟨initSt.D, initSt.BT, []⟩ 0 0 =
        relax1 1 0 (relax1 1 0 (relax1 1 0 ⟨initSt.D, initSt.BT, []⟩ 0 0
          (↑(cskip x) : Cost) 1 0) 0 0 ⊤ 1 1) 0 0 ⊤ 0 1 := rfl
    rw [hgoal, h1, relax1_oob 1 0 _ 0 0 ⊤ 1 1 (by omega),
      relax1_oob 1 0 _ 0 0 ⊤ 0 1 (by omega)]
  have hs : searchLoop [x] [] calign cskip 2 initSt =
      .ok (⟨fun p => if p = (1, 0) then (↑(cskip x) : Cost) + initSt.D (0, 0)
         else initSt.D p,
       fun p => if p = (1, 0) then ((0, 0) : ℕ × ℕ) else initSt.BT p,
       []⟩ : St) :=
    calc searchLoop [x] [] calign cskip 2 initSt
        = searchLoop [x] [] calign cskip 1
          (expandCell [x] [] calign cskip ⟨initSt.D, initSt.BT, []⟩ 0 0) :=
        searchLoop_step1 1 initSt.D initSt.BT [((0 : ℚ), 0, 0)] rfl
          (by simp [Prod.ext_iff])
      _ = searchLoop [x] [] calign cskip 1
          ⟨fun p => if p = (1, 0) then (↑(cskip x) : Cost) + initSt.D (0, 0)
             else initSt.D p,
           fun p => if p = (1, 0) then ((0, 0) : ℕ × ℕ) else initSt.BT p,
           [((↑(cskip x) : Cost) + initSt.D (0, 0), 1, 0)]⟩ := by rw [hexp]
      _ = _ := searchLoop_last1 0 _ _
          [((↑(cskip x) : Cost) + initSt.D (0, 0), 1, 0)] rfl
  have hcost : (fun p => if p = (1, 0) then
      (↑(cskip x) : Cost) + initSt.D (0, 0) else initSt.D p)
      ((1, 0) : ℕ × ℕ) = ↑(cskip x) := by
    show (if ((1, 0) : ℕ × ℕ) = (1, 0) then
      (↑(cskip x) : Cost) + initSt.D (0, 0) else initSt.D (1, 0)) = ↑(cskip x)
    rw [if_pos rfl]
    show (↑(cskip x) : Cost) + 0 = ↑(cskip x)
    rw [add_zero]
  have hfin : lazyAlign [x] [] calign cskip 2 =
      .ok ((fun p => if p = (1, 0) then
          (↑(cskip x) : Cost) + initSt.D (0, 0) else initSt.D p)
        ((1, 0) : ℕ × ℕ), [(some x, none)]) := by
    unfold lazyAlign
    rw [hs]
    rfl
  rw [hfin, hcost]

/-- A single right element against the empty sequence: symmetric case. -/
theorem run_single_b (y : α) (calign : α → α → ℚ) (cskip : α → ℚ) :
    lazyAlign [] [y] calign cskip 2 =
      .ok (↑(cskip y), [(none, some y)]) := by
  have h1 : relax1 0 1 ⟨initSt.D, initSt.BT, ([] : List (Cost × ℕ × ℕ))⟩
      0 0 (↑(cskip y) : Cost) 0 1 =
      ⟨fun p => if p = (0, 1) then (↑(cskip y) : Cost) + initSt.D (0, 0)
         else initSt.D p,
       fun p => if p = (0, 1) then ((0, 0) : ℕ × ℕ) else initSt.BT p,
       [((↑(cskip y) : Cost) + initSt.D (0, 0), 0, 1)]⟩ := by
    rcases relax1_spec 0 1 ⟨initSt.D, initSt.BT, []⟩ 0 0 (↑(cskip y)) 0 1 with
      ⟨he, hno⟩ | ⟨hx1, hy1, hlt1, he⟩
    · exfalso
      refine absurd ?_ (hno (by omega) (by omega))
      show (↑(cskip y) : Cost) + initSt.D (0, 0) < initSt.D (0, 1)
      have hz : initSt.D (0, 0) = 0 := rfl
      have ht : initSt.D (0, 1) = ⊤ := rfl
      rw [hz, ht, add_zero]
      exact WithTop.coe_lt_top _
    · rw [he]
  have hexp : expandCell [] [y] calign cskip ⟨initSt.D, initSt.BT, []⟩ 0 0 =
      ⟨fun p => if p = (0, 1) then (↑(cskip y) : Cost) + initSt.D (0, 0)
         else initSt.D p,
       fun p => if p = (0, 1) then ((0, 0) : ℕ × ℕ) else initSt.BT p,
       [((↑(cskip y) : Cost) + initSt.D (0, 0), 0, 1)]⟩ := by
    have hgoal : expandCell [] [y] calign cskip ⟨initSt.D, initSt.BT, []⟩ 0 0 =
        relax1 0 1 (relax1 0 1 (relax1 0 1 ⟨initSt.D, initSt.BT, []⟩ 0 0
          ⊤ 1 0) 0 0 ⊤ 1 1) 0 0 (↑(cskip y) : Cost) 0 1 := rfl
    rw [hgoal, relax1_oob 0 1 _ 0 0 ⊤ 1 0 (by omega),
      relax1_oob 0 1 _ 0 0 ⊤ 1 1 (by omega), h1]
  have hs : searchLoop [] [y] calign cskip 2 initSt =
      .ok (⟨fun p => if p = (0, 1) then (↑(cskip y) : Cost) + initSt.D (0, 0)
         else initSt.D p,
       fun p => if p = (0, 1) then ((0, 0) : ℕ × ℕ) else initSt.BT p,
       []⟩ : St) :=
    calc searchLoop [] [y] calign cskip 2 initSt
        = searchLoop [] [y] calign cskip 1
          (expandCell [] [y] calign cskip ⟨initSt.D, initSt.BT, []⟩ 0 0) :=
        searchLoop_step1 1 initSt.D initSt.BT [((0 : ℚ), 0, 0)] rfl
          (by simp [Prod.ext_iff])
      _ = searchLoop [] [y] calign cskip 1
          ⟨fun p => if p = (0, 1) then (↑(cskip y) : Cost) + initSt.D (0, 0)
             else initSt.D p,
           fun p => if p = (0, 1) then ((0, 0) : ℕ × ℕ) else initSt.BT p,
           [((↑(cskip y) : Cost) + initSt.D (0, 0), 0, 1)]⟩ := by rw [hexp]
      _ = _ := searchLoop_last1 0 _ _
          [((↑(cskip y) : Cost) + initSt.D (0, 0), 0, 1)] rfl
  have hcost : (fun p => if p = (0, 1) then
      (↑(cskip y) : Cost) + initSt.D (0, 0) else initSt.D p)
      ((0, 1) : ℕ × ℕ) = ↑(cskip y) := by
    show (if ((0, 1) : ℕ × ℕ) = (0, 1) then
      (↑(cskip y) : Cost) + initSt.D (0, 0) else initSt.D (0, 1)) = ↑(cskip y)
    rw [if_pos rfl]
    show (↑(cskip y) : Cost) + 0 = ↑(cskip y)
    rw [add_zero]
  have hfin : lazyAlign [] [y] calign cskip 2 =
      .ok ((fun p => if p = (0, 1) then
          (↑(cskip y) : Cost) + initSt.D (0, 0) else initSt.D p)
        ((0, 1) : ℕ × ℕ), [(none, some y)]) := by
    unfold lazyAlign
    rw [hs]
    rfl
  rw [hfin, hcost]

/-! ## A concrete stale pop

With `a = [1, 2]`, `b = [3, 4]` and the cost functions below, the cell
`(1, 1)` is first reached with cost `3` (aligning `1` with `3`), then
improved to cost `1` and popped; the original cost-`3` heap entry is
popped later, after `(1, 1)` is settled — a stale pop. -/

def c8a : List ℚ := [1, 2]

def c8b : List ℚ := [3, 4]

def c8cal : ℚ → ℚ → ℚ := fun x y => if x = 1 ∧ y = 3 then 3 else 9

def c8cs : ℚ → ℚ := fun x => if x = 1 then 0 else if x = 3 then 1 else 9

theorem c8cal_nonneg : ∀ x y : ℚ, 0 ≤ c8cal x y := by
  intro x y
  unfold c8cal
  split_ifs <;> norm_num

theorem c8cs_nonneg : ∀ x : ℚ, 0 ≤ c8cs x := by
  intro x
  unfold c8cs
  split_ifs <;> norm_num

def c8s1 : St := expandCell c8a c8b c8cal c8cs ⟨initSt.D, initSt.BT, []⟩ 0 0

def c8r1 : List (Cost × ℕ × ℕ) := [((1 : ℚ), 0, 1), ((3 : ℚ), 1, 1)]

def c8s2 : St := expandCell c8a c8b c8cal c8cs ⟨c8s1.D, c8s1.BT, c8r1⟩ 1 0

def c8r2 : List (Cost × ℕ × ℕ) :=
  [((9 : ℚ), 2, 1), ((9 : ℚ), 2, 0), ((1 : ℚ), 0, 1), ((3 : ℚ), 1, 1)]

def c8s3 : St := expandCell c8a c8b c8cal c8cs ⟨c8s2.D, c8s2.BT, c8r2⟩ 1 1

def c8r3 : List (Cost × ℕ × ℕ) :=
  [((10 : ℚ), 1, 2), ((10 : ℚ), 2, 2), ((9 : ℚ), 2, 1), ((9 : ℚ), 2, 0),
   ((3 : ℚ), 1, 1)]

def c8s4 : St := expandCell c8a c8b c8cal c8cs ⟨c8s3.D, c8s3.BT, c8r3⟩ 0 1

def c8r4 : List (Cost × ℕ × ℕ) :=
  [((10 : ℚ), 0, 2), ((10 : ℚ), 1, 2), ((10 : ℚ), 2, 2), ((9 : ℚ), 2, 1),
   ((9 : ℚ), 2, 0)]

def c8S1 : ℕ × ℕ → Option Cost := fun v =>
  if v = (0, 0) then some (initSt.D (0, 0)) else none

def c8S2 : ℕ × ℕ → Option Cost := fun v =>
  if v = (1, 0) then some (c8s1.D (1, 0)) else c8S1 v

def c8S3 : ℕ × ℕ → Option Cost := fun v =>
  if v = (1, 1) then some (c8s2.D (1, 1)) else c8S2 v

def c8S4 : ℕ × ℕ → Option Cost := fun v =>
  if v = (0, 1) then some (c8s3.D (0, 1)) else c8S3 v

theorem c8t1 : Trace c8a c8b c8cal c8cs c8s1 c8S1 :=
  Trace.init.step
    (by decide : popMin initSt.heap =
      some ((((0 : ℚ) : Cost), 0, 0), ([] : List (Cost × ℕ × ℕ))))
    (by decide)

theorem c8t2 : Trace c8a c8b c8cal c8cs c8s2 c8S2 :=
  c8t1.step
    (by decide : popMin c8s1.heap = some ((((0 : ℚ) : Cost), 1, 0), c8r1))
    (by decide)

theorem c8t3 : Trace c8a c8b c8cal c8cs c8s3 c8S3 :=
  c8t2.step
    (by decide : popMin c8s2.heap = some ((((1 : ℚ) : Cost), 1, 1), c8r2))
    (by decide)

theorem c8t4 : Trace c8a c8b c8cal c8cs c8s4 c8S4 :=
  c8t3.step
    (by decide : popMin c8s3.heap = some ((((1 : ℚ) : Cost), 0, 1), c8r3))
    (by decide)

/-! ## Small witness runs -/

def wA : List Unit := [(), ()]

def wB : List Unit := [()]

def wCal : Unit → Unit → ℚ := fun _ _ => 0

def wCs : Unit → ℚ := fun _ => 1

def wL : List (Option Unit × Option Unit) :=
  [(some (), some ()), (some (), none)]

theorem w_run : lazyAlign wA wB wCal wCs 9 =
    .ok (((1 : ℚ) : Cost), wL) := by decide

def w5cal : ℚ → ℚ → ℚ := fun _ _ => 1

def w5cs : ℚ → ℚ := fun q => q

/-! ## The claims -/

/-- C1: under nonnegative cost functions, the scalar returned by a
successful `lazyAlign` run is (the cast of) the least total cost over
all valid interleavings of the two inputs. -/
theorem claim_C1 {α : Type} {a b : List α} {calign : α → α → ℚ}
    {cskip : α → ℚ} (hca : ∀ x y, 0 ≤ calign x y)
    (hcs : ∀ x, 0 ≤ cskip x) {fuel : ℕ} {c : Cost}
    {l : List (Option α × Option α)}
    (hrun : lazyAlign a b calign cskip fuel = .ok (c, l)) :
    ∃ q : ℚ, c = ↑q ∧
      IsLeast {v : ℚ | ∃ la, ValidAlignment a b la ∧
        alignCost calign cskip la = v} q := by
  obtain ⟨hv, hc, hleast⟩ := lazyAlign_ok_main hca hcs hrun
  exact ⟨alignCost calign cskip l, hc, hleast⟩

theorem claim_C1_witness :
    (∀ x y : Unit, 0 ≤ wCal x y) ∧ (∀ x : Unit, 0 ≤ wCs x) ∧
    lazyAlign wA wB wCal wCs 9 = .ok (((1 : ℚ) : Cost), wL) ∧
    (∃ q : ℚ, ((1 : ℚ) : Cost) = ↑q ∧
      IsLeast {v : ℚ | ∃ la, ValidAlignment wA wB la ∧
        alignCost wCal wCs la = v} q) :=
  ⟨by decide, by decide, w_run, claim_C1 (by decide) (by decide) w_run⟩

/-- C2: under nonnegative cost functions, the alignment returned by a
successful run covers both inputs exactly: the non-`none` left
components concatenate to `a` in order and the non-`none` right
components concatenate to `b` in order. -/
theorem claim_C2 {α : Type} {a b : List α} {calign : α → α → ℚ}
    {cskip : α → ℚ} (hca : ∀ x y, 0 ≤ calign x y)
    (hcs : ∀ x, 0 ≤ cskip x) {fuel : ℕ} {c : Cost}
    {l : List (Option α × Option α)}
    (hrun : lazyAlign a b calign cskip fuel = .ok (c, l)) :
    l.filterMap Prod.fst = a ∧ l.filterMap Prod.snd = b :=
  ⟨(lazyAlign_ok_valid hrun).1, (lazyAlign_ok_valid hrun).2.1⟩

theorem claim_C2_witness :
    (∀ x y : Unit, 0 ≤ wCal x y) ∧ (∀ x : Unit, 0 ≤ wCs x) ∧
    lazyAlign wA wB wCal wCs 9 = .ok (((1 : ℚ) : Cost), wL) ∧
    (wL.filterMap Prod.fst = wA ∧ wL.filterMap Prod.snd = wB) :=
  ⟨by decide, by decide, w_run, claim_C2 (by decide) (by decide) w_run⟩

/-- C3: under nonnegative cost functions, the scalar returned by a
successful run equals the sum obtained by re-applying the cost functions
to the returned alignment entry by entry. -/
theorem claim_C3 {α : Type} {a b : List α} {calign : α → α → ℚ}
    {cskip : α → ℚ} (hca : ∀ x y, 0 ≤ calign x y)
    (hcs : ∀ x, 0 ≤ cskip x) {fuel : ℕ} {c : Cost}
    {l : List (Option α × Option α)}
    (hrun : lazyAlign a b calign cskip fuel = .ok (c, l)) :
    c = ↑(alignCost calign cskip l) :=
  (lazyAlign_ok_main hca hcs hrun).2.1

theorem claim_C3_witness :
    (∀ x y : Unit, 0 ≤ wCal x y) ∧ (∀ x : Unit, 0 ≤ wCs x) ∧
    lazyAlign wA wB wCal wCs 9 = .ok (((1 : ℚ) : Cost), wL) ∧
    ((1 : ℚ) : Cost) = ↑(alignCost wCal wCs wL) :=
  ⟨by decide, by decide, w_run, claim_C3 (by decide) (by decide) w_run⟩

/-- C4: for all inputs and all cost functions (no sign condition), no
entry of a returned alignment is `(none, none)`. -/
theorem claim_C4 {α : Type} {a b : List α} {calign : α → α → ℚ}
    {cskip : α → ℚ} {fuel : ℕ} {c : Cost}
    {l : List (Option α × Option α)}
    (hrun : lazyAlign a b calign cskip fuel = .ok (c, l)) :
    (none, none) ∉ l :=
  (lazyAlign_ok_valid hrun).2.2

theorem claim_C4_witness :
    lazyAlign wA wB wCal wCs 9 = .ok (((1 : ℚ) : Cost), wL) ∧
    (none, none) ∉ wL :=
  ⟨w_run, claim_C4 w_run⟩

/-- C5: degenerate inputs produce all-skip alignments without error:
two empty sequences give cost `0` and the empty alignment; a singleton
against the empty sequence gives the single skip entry with its skip
cost (on either side); and whenever one input is empty, any returned
alignment consists exactly of the skip entries of the other input in
order. -/
theorem claim_C5 {α : Type} (calign : α → α → ℚ) (cskip : α → ℚ) :
    (∀ fuel, 1 ≤ fuel →
      lazyAlign ([] : List α) [] calign cskip fuel = .ok ((0 : Cost), [])) ∧
    (∀ (x : α) fuel, 2 ≤ fuel →
      lazyAlign [x] [] calign cskip fuel =
        .ok (↑(cskip x), [(some x, none)])) ∧
    (∀ (y : α) fuel, 2 ≤ fuel →
      lazyAlign [] [y] calign cskip fuel =
        .ok (↑(cskip y), [(none, some y)])) ∧
    (∀ (a : List α) fuel c l,
      lazyAlign a [] calign cskip fuel = .ok (c, l) →
      l = a.map (fun u => (some u, none))) ∧
    (∀ (b : List α) fuel c l,
      lazyAlign [] b calign cskip fuel = .ok (c, l) →
      l = b.map (fun v => (none, some v))) := by
  refine ⟨?_, ?_, ?_, ?_, ?_⟩
  · intro fuel hf
    exact lazyAlign_mono hf (run_nil_nil calign cskip)
  · intro x fuel hf
    exact lazyAlign_mono hf (run_single_a x calign cskip)
  · intro y fuel hf
    exact lazyAlign_mono hf (run_single_b y calign cskip)
  · intro a fuel c l h
    exact valid_empty_right (lazyAlign_ok_valid h)
  · intro b fuel c l h
    exact valid_empty_left (lazyAlign_ok_valid h)

theorem claim_C5_witness :
    lazyAlign ([] : List ℚ) [] w5cal w5cs 1 = .ok ((0 : Cost), []) ∧
    lazyAlign [(5 : ℚ)] [] w5cal w5cs 2 =
      .ok (↑(w5cs 5), [(some (5 : ℚ), none)]) ∧
    lazyAlign ([] : List ℚ) [(7 : ℚ)] w5cal w5cs 2 =
      .ok (↑(w5cs 7), [(none, some (7 : ℚ))]) ∧
    lazyAlign [(1 : ℚ), 2] [] w5cal w5cs 3 =
      .ok (((3 : ℚ) : Cost), [(some (1 : ℚ), none), (some (2 : ℚ), none)]) ∧
    ([(some (1 : ℚ), none), (some (2 : ℚ), none)] :
        List (Option ℚ × Option ℚ)) =
      [(1 : ℚ), 2].map (fun u => (some u, none)) :=
  ⟨(claim_C5 w5cal w5cs).1 1 (by decide),
   (claim_C5 w5cal w5cs).2.1 5 2 (by decide),
   (claim_C5 w5cal w5cs).2.2.1 7 2 (by decide),
   by decide,
   (claim_C5 w5cal w5cs).2.2.2.1 [(1 : ℚ), 2] 3 ((3 : ℚ) : Cost)
     [(some (1 : ℚ), none), (some (2 : ℚ), none)] (by decide)⟩

/-- C6: on the concrete inputs `"smarts"` and `"cat"` with unit
edit-distance costs, any sufficiently fuelled run returns exactly the
alignment `[('s','c'), ('m',-), ('a','a'), ('r',-), ('t','t'), ('s',-)]`
with total cost `4`. -/
theorem claim_C6 : ∀ fuel, 21 ≤ fuel →
    lazyAlign "smarts".toList "cat".toList
      (fun x y => if x = y then 0 else 1) (fun _ => 1) fuel =
    .ok (((4 : ℚ) : Cost),
      [(some 's', some 'c'), (some 'm', none), (some 'a', some 'a'),
       (some 'r', none), (some 't', some 't'), (some 's', none)]) := by
  intro fuel hf
  exact lazyAlign_mono hf c6run

theorem claim_C6_witness : 21 ≤ 21 ∧
    lazyAlign "smarts".toList "cat".toList
      (fun x y => if x = y then 0 else 1) (fun _ => 1) 21 =
    .ok (((4 : ℚ) : Cost),
      [(some 's', some 'c'), (some 'm', none), (some 'a', some 'a'),
       (some 'r', none), (some 't', some 't'), (some 's', none)]) :=
  ⟨by decide, claim_C6 21 (by decide)⟩

/-- C7: for every pair of finite inputs and every pair of total cost
functions (no sign condition), some finite fuel makes the whole call
return successfully — the loop pops the terminal cell after finitely
many iterations and the backtracking walk reaches the origin — and no
amount of fuel ever makes the loop pop from an empty heap. -/
theorem claim_C7 {α : Type} (a b : List α) (calign : α → α → ℚ)
    (cskip : α → ℚ) :
    (∃ fuel c l, lazyAlign a b calign cskip fuel = .ok (c, l)) ∧
    ∀ fuel, lazyAlign a b calign cskip fuel ≠ .error .emptyHeap :=
  ⟨lazyAlign_terminates a b calign cskip,
   fun fuel => lazyAlign_not_emptyHeap a b calign cskip fuel⟩

theorem claim_C7_witness :
    (∃ fuel c l, lazyAlign wA wB wCal wCs fuel = .ok (c, l)) ∧
    ∀ fuel, lazyAlign wA wB wCal wCs fuel ≠ .error .emptyHeap :=
  claim_C7 wA wB wCal wCs

/-- C8: under nonnegative cost functions, a stale pop is harmless:
whenever the loop pops a cell that the settlement history records as
already popped once, the ensuing expansion performs no successful
relaxation — the resulting state is exactly the previous state minus
the popped entry (same `D`, same `BT`, nothing pushed). -/
theorem claim_C8 {α : Type} {a b : List α} {calign : α → α → ℚ}
    {cskip : α → ℚ} (hca : ∀ x y, 0 ≤ calign x y)
    (hcs : ∀ x, 0 ≤ cskip x) {s : St} {S : ℕ × ℕ → Option Cost}
    (hT : Trace a b calign cskip s S) {d : Cost} {x y : ℕ}
    {rest : List (Cost × ℕ × ℕ)}
    (hpop : popMin s.heap = some ((d, x, y), rest))
    (hS : S (x, y) ≠ none) :
    expandCell a b calign cskip ⟨s.D, s.BT, rest⟩ x y =
      ⟨s.D, s.BT, rest⟩ := by
  obtain ⟨c, hc⟩ := Option.ne_none_iff_exists'.mp hS
  exact settled_expand_noop (hT.invN hca hcs) hc rest

theorem claim_C8_witness :
    (∀ x y : ℚ, 0 ≤ c8cal x y) ∧ (∀ x : ℚ, 0 ≤ c8cs x) ∧
    Trace c8a c8b c8cal c8cs c8s4 c8S4 ∧
    popMin c8s4.heap = some ((((3 : ℚ) : Cost), 1, 1), c8r4) ∧
    c8S4 (1, 1) ≠ none ∧
    expandCell c8a c8b c8cal c8cs ⟨c8s4.D, c8s4.BT, c8r4⟩ 1 1 =
      ⟨c8s4.D, c8s4.BT, c8r4⟩ :=
  ⟨c8cal_nonneg, c8cs_nonneg, c8t4,
   by decide, by decide,
   claim_C8 c8cal_nonneg c8cs_nonneg c8t4
     (by decide : popMin c8s4.heap = some ((((3 : ℚ) : Cost), 1, 1), c8r4))
     (by decide)⟩

/-- C9: the engine performs no runtime validation of the cost functions
and signals no domain error: for every pair of cost functions, including
ones returning negative values, some fuel yields a successful return
whose alignment is still a structurally valid interleaving of the two
inputs. -/
theorem claim_C9 {α : Type} (a b : List α) (calign : α → α → ℚ)
    (cskip : α → ℚ) :
    ∃ fuel c l, lazyAlign a b calign cskip fuel = .ok (c, l) ∧
      ValidAlignment a b l := by
  obtain ⟨fuel, c, l, h⟩ := lazyAlign_terminates a b calign cskip
  exact ⟨fuel, c, l, h, lazyAlign_ok_valid h⟩

theorem claim_C9_witness :
    ∃ fuel c l,
      lazyAlign [(1 : ℚ), 2] [(3 : ℚ)] (fun _ _ => -5) (fun q => -q)
        fuel = .ok (c, l) ∧
      ValidAlignment [(1 : ℚ), 2] [(3 : ℚ)] l :=
  claim_C9 [(1 : ℚ), 2] [(3 : ℚ)] (fun _ _ => -5) (fun q => -q)

/-- C10: the out-of-bounds branch of the embedding is unreachable — no
input, cost functions or fuel make `lazyAlign` fail with an
out-of-bounds indexing error, because every sequence access is guarded
exactly by the corresponding bound. -/
theorem claim_C10 {α : Type} (a b : List α) (calign : α → α → ℚ)
    (cskip : α → ℚ) (fuel : ℕ) :
    lazyAlign a b calign cskip fuel ≠ .error .oob :=
  lazyAlign_not_oob a b calign cskip fuel

theorem claim_C10_witness :
    lazyAlign wA wB wCal wCs 3 ≠ .error .oob :=
  claim_C10 wA wB wCal wCs 3

end LazyAlign
